import Mathlib

/-! Red-black tree (`RBTreeNode.h`, `RBTree.h`): embedding and verification

The C++ container is a pointer structure: every node carries `left_child_`, `right_child_`
and a `father_` back pointer, and the rebalancing code walks upward through `father_`.
The embedding therefore keeps an explicit heap of nodes addressed by natural numbers; a
pointer is an `Option Nat` (`none` is `nullptr`).  Every C++ `while` loop becomes a
recursive function with a fuel argument; running out of fuel is reported as
`Fault.outOfFuel`, dereferencing `nullptr` as `Fault.nullDeref`, and dereferencing an
address that holds no live node as `Fault.dangling`.

The second half of the file relates heap states to ordinary inductive trees (`Tree`) and
tree contexts (`Ctx`), on which the red-black and ordering invariants are phrased.
-/

namespace rbtree

/-! ## Heap model of `RBTreeNode` -/

/-- Node colour, `enum class Color`. -/
inductive Color where
  | RED
  | BLACK
  deriving DecidableEq

/-- Ways in which running the embedded code can fail to produce a result. -/
inductive Fault where
  | nullDeref
  | dangling
  | outOfFuel
  deriving DecidableEq

/-- One heap cell: the six data members of `RBTreeNode`. -/
structure RBTreeNode (K V : Type) where
  key_ : K
  val_ : V
  left_child_ : Option Nat
  right_child_ : Option Nat
  father_ : Option Nat
  color_ : Color
  deriving DecidableEq

/-- The heap: which node, if any, lives at each address. -/
abbrev Heap (K V : Type) := Nat → Option (RBTreeNode K V)

section Node
variable {K V : Type}

/-- Heap with the cell at address `a` replaced by `n`. -/
def Heap.set (h : Heap K V) (a : Nat) (n : RBTreeNode K V) : Heap K V :=
  fun x => if x = a then some n else h x

/-- Heap with the cell at address `a` released (`delete`). -/
def Heap.free (h : Heap K V) (a : Nat) : Heap K V :=
  fun x => if x = a then none else h x

/-- Reading through a pointer: `p->...`. -/
def deref (h : Heap K V) (p : Option Nat) : Except Fault (RBTreeNode K V) :=
  match p with
  | none => .error .nullDeref
  | some a =>
    match h a with
    | none => .error .dangling
    | some n => .ok n

/-- Writing through a pointer: apply `f` to the node `p` points to. -/
def modify (h : Heap K V) (p : Option Nat) (f : RBTreeNode K V → RBTreeNode K V) :
    Except Fault (Heap K V) :=
  match p with
  | none => .error .nullDeref
  | some a =>
    match h a with
    | none => .error .dangling
    | some n => .ok (h.set a (f n))

/-- Accessor `Key()`. -/
def Key (h : Heap K V) (this : Option Nat) : Except Fault K :=
  (deref h this).map (fun n => n.key_)

/-- Accessor `Value()`. -/
def Value (h : Heap K V) (this : Option Nat) : Except Fault V :=
  (deref h this).map (fun n => n.val_)

/-- Accessor `Left()`. -/
def Left (h : Heap K V) (this : Option Nat) : Except Fault (Option Nat) :=
  (deref h this).map (fun n => n.left_child_)

/-- Accessor `Right()`. -/
def Right (h : Heap K V) (this : Option Nat) : Except Fault (Option Nat) :=
  (deref h this).map (fun n => n.right_child_)

/-- Accessor `Father()`. -/
def Father (h : Heap K V) (this : Option Nat) : Except Fault (Option Nat) :=
  (deref h this).map (fun n => n.father_)

/-- Accessor `Red()`: `color_ == Color::RED`. -/
def Red (h : Heap K V) (this : Option Nat) : Except Fault Bool :=
  (deref h this).map (fun n => decide (n.color_ = Color.RED))

/-- Mutator `SetFather(father)`: `father_ = father`. -/
def SetFather (h : Heap K V) (this father : Option Nat) : Except Fault (Heap K V) :=
  modify h this (fun n => { n with father_ := father })

/-- Mutator `SetColor(color)`. -/
def SetColor (h : Heap K V) (this : Option Nat) (color : Color) : Except Fault (Heap K V) :=
  modify h this (fun n => { n with color_ := color })

/-- Mutator `SetValue(val)`. -/
def SetValue (h : Heap K V) (this : Option Nat) (val : V) : Except Fault (Heap K V) :=
  modify h this (fun n => { n with val_ := val })

/-- Mutator `SetLeft`: `left_child_ = left_child; if(left_child) left_child->father_ = this;`. -/
def SetLeft (h : Heap K V) (this left_child : Option Nat) : Except Fault (Heap K V) := do
  let h1 ← modify h this (fun n => { n with left_child_ := left_child })
  match left_child with
  | none => pure h1
  | some _ => modify h1 left_child (fun n => { n with father_ := this })

/-- Mutator `SetRight`: `right_child_ = right_child; if(right_child) right_child->father_ = this;`. -/
def SetRight (h : Heap K V) (this right_child : Option Nat) : Except Fault (Heap K V) := do
  let h1 ← modify h this (fun n => { n with right_child_ := right_child })
  match right_child with
  | none => pure h1
  | some _ => modify h1 right_child (fun n => { n with father_ := this })

/-- Method `Copy(other)`: `key_ = other->key_; val_ = other->val_;`. -/
def Copy (h : Heap K V) (this other : Option Nat) : Except Fault (Heap K V) := do
  let o ← deref h other
  let h1 ← modify h this (fun n => { n with key_ := o.key_ })
  let o1 ← deref h1 other
  modify h1 this (fun n => { n with val_ := o1.val_ })

/-- The loop `while (cur->right_child_) cur = cur->right_child_;` (used by `GetSuccessor`
and `FindPrev`). -/
def rightmost : Nat → Heap K V → Option Nat → Except Fault (Option Nat)
  | 0, _, _ => .error .outOfFuel
  | fuel + 1, h, cur => do
    let r ← Right h cur
    match r with
    | none => pure cur
    | some _ => rightmost fuel h r

/-- The loop `while (ret->left_child_) ret = ret->left_child_;` (used by `FindNext` and
`RBTree::begin`). -/
def leftmost : Nat → Heap K V → Option Nat → Except Fault (Option Nat)
  | 0, _, _ => .error .outOfFuel
  | fuel + 1, h, ret => do
    let l ← Left h ret
    match l with
    | none => pure ret
    | some _ => leftmost fuel h l

/-- Method `GetSuccessor()`: the node itself when a child is missing, otherwise the
rightmost node of the left subtree. -/
def GetSuccessor (fuel : Nat) (h : Heap K V) (this : Option Nat) :
    Except Fault (Option Nat) := do
  let n ← deref h this
  if n.left_child_ = none ∨ n.right_child_ = none then pure this
  else rightmost fuel h n.left_child_

/-- The ascent loop of `FindNext`:
`while (ret && ret->right_child_ == cur) { cur = ret; ret = ret->father_; }`.
It returns the final value of `ret`. -/
def FindNext.ascend : Nat → Heap K V → Option Nat → Option Nat → Except Fault (Option Nat)
  | 0, _, _, _ => .error .outOfFuel
  | fuel + 1, h, ret, cur =>
    match ret with
    | none => pure none
    | some _ => do
      let r ← Right h ret
      if r = cur then do
        let f ← Father h ret
        FindNext.ascend fuel h f ret
      else pure ret

/-- Method `FindNext()`.  With a right child the leftmost node below it is returned; in the
other branch the ascent loop is run and then `nullptr` is returned (`return nullptr;`,
line 92), whatever ancestor the loop stopped at. -/
def FindNext (fuel : Nat) (h : Heap K V) (this : Option Nat) : Except Fault (Option Nat) := do
  let n ← deref h this
  match n.right_child_ with
  | some _ => leftmost fuel h n.right_child_
  | none => do
    let _ ← FindNext.ascend fuel h n.father_ this
    pure none

/-- The ascent loop of `FindPrev`:
`while (ret && ret->left_child_ == cur) { cur = ret; ret = ret->father_; }`. -/
def FindPrev.ascend : Nat → Heap K V → Option Nat → Option Nat → Except Fault (Option Nat)
  | 0, _, _, _ => .error .outOfFuel
  | fuel + 1, h, ret, cur =>
    match ret with
    | none => pure none
    | some _ => do
      let l ← Left h ret
      if l = cur then do
        let f ← Father h ret
        FindPrev.ascend fuel h f ret
      else pure ret

/-- Method `FindPrev()`, the mirror image of `FindNext()`. -/
def FindPrev (fuel : Nat) (h : Heap K V) (this : Option Nat) : Except Fault (Option Nat) := do
  let n ← deref h this
  match n.left_child_ with
  | some _ => rightmost fuel h n.left_child_
  | none => do
    let _ ← FindPrev.ascend fuel h n.father_ this
    pure none

end Node

/-! ## Heap model of `RBTree` -/

/-- The object state of `RBTree` (`root_`, `compare_`, `size_`) together with the memory it
lives in: the node heap and `brk`, the address the next `new TreeNode` will receive.
`size_` is a `size_t`; it is kept as a natural number below `2^64` and every update is
reduced modulo `2^64`. -/
structure RBTree (K V : Type) where
  heap : Heap K V
  brk : Nat
  root_ : Option Nat
  compare_ : K → K → Bool
  size_ : Nat

section Tree
variable {K V : Type}

/-- Constructor `RBTree(root, comp)`.  Its initialiser list is `root_(root), compare_(comp)`:
`size_` is not initialised, so the member starts with whatever the storage held, which is
the extra argument `junk`. -/
def RBTree.ctor (mem : Heap K V) (brk : Nat) (root : Option Nat) (comp : K → K → Bool)
    (junk : Nat) : RBTree K V :=
  { heap := mem, brk := brk, root_ := root, compare_ := comp, size_ := junk % 2 ^ 64 }

/-- A tree constructed with the default `root = nullptr` in a memory with no nodes. -/
def RBTree.empty (comp : K → K → Bool) (junk : Nat) : RBTree K V :=
  RBTree.ctor (fun _ => none) 0 none comp junk

/-- Method `Size()`. -/
def Size (s : RBTree K V) : Nat := s.size_

/-- Method `Empty()`: `size_ == 0`. -/
def Empty (s : RBTree K V) : Bool := decide (s.size_ = 0)

/-- Expression `new TreeNode(key, val)`: a RED node without children or father at the
fresh address `brk`. -/
def newNode (s : RBTree K V) (key : K) (val : V) : RBTree K V × Option Nat :=
  ({ s with
      heap := s.heap.set s.brk
        { key_ := key, val_ := val, left_child_ := none, right_child_ := none,
          father_ := none, color_ := Color.RED },
      brk := s.brk + 1 },
   some s.brk)

/-- Method `begin()`: `nullptr` for an empty tree, else the leftmost node. -/
def RBTree.begin (fuel : Nat) (s : RBTree K V) : Except Fault (Option Nat) :=
  match s.root_ with
  | none => pure none
  | some _ => leftmost fuel s.heap s.root_

/-- Method `end()`: the iterator holding `nullptr`. -/
def RBTree.end_ (_s : RBTree K V) : Option Nat := none

/-- The search loop shared verbatim by `find` (lines 63-74) and `Delete` (lines 83-94):
go to `Left()` when `compare_(cur->Key(), key)`, to `Right()` when
`compare_(key, cur->Key())`, stop otherwise or at `nullptr`.  The local `father` of the
source is written but never read and is left out.  The loop of `Get` (lines 355-364) is the
same walk; its third branch returns from `Get` with the node the walk stops at. -/
def descend : Nat → Heap K V → (K → K → Bool) → K → Option Nat → Except Fault (Option Nat)
  | 0, _, _, _, _ => .error .outOfFuel
  | fuel + 1, h, cmp, key, cur =>
    match cur with
    | none => pure none
    | some _ => do
      let ck ← Key h cur
      if cmp ck key then do
        let l ← Left h cur
        descend fuel h cmp key l
      else if cmp key ck then do
        let r ← Right h cur
        descend fuel h cmp key r
      else pure cur

/-- Method `find(key)`; the result is the iterator's node pointer. -/
def find (fuel : Nat) (s : RBTree K V) (key : K) : Except Fault (Option Nat) :=
  descend fuel s.heap s.compare_ key s.root_

/-- Condition `p && p->Red()`, as in `uncle && uncle->Red()`. -/
def nonNullRed (h : Heap K V) (p : Option Nat) : Except Fault Bool :=
  match p with
  | none => pure false
  | some _ => Red h p

/-- Method `LeftRotate(node)`. -/
def LeftRotate (s : RBTree K V) (node : Option Nat) : Except Fault (RBTree K V) := do
  let right ← Right s.heap node
  let father ← Father s.heap node
  let rl ← Left s.heap right
  let h1 ← SetRight s.heap node rl
  let h2 ← SetLeft h1 right node
  match father with
  | none => do
    let h3 ← SetFather h2 right none
    pure { s with heap := h3, root_ := right }
  | some _ => do
    let fl ← Left h2 father
    if fl = node then do
      let h3 ← SetLeft h2 father right
      pure { s with heap := h3 }
    else do
      let h3 ← SetRight h2 father right
      pure { s with heap := h3 }

/-- Method `RightRotate(node)`. -/
def RightRotate (s : RBTree K V) (node : Option Nat) : Except Fault (RBTree K V) := do
  let left ← Left s.heap node
  let father ← Father s.heap node
  let lr ← Right s.heap left
  let h1 ← SetLeft s.heap node lr
  let h2 ← SetRight h1 left node
  match father with
  | none => do
    let h3 ← SetFather h2 left none
    pure { s with heap := h3, root_ := left }
  | some _ => do
    let fl ← Left h2 father
    if fl = node then do
      let h3 ← SetLeft h2 father left
      pure { s with heap := h3 }
    else do
      let h3 ← SetRight h2 father left
      pure { s with heap := h3 }

/-- Method `InsertFixUp(node)`: the `while (true)` loop, one iteration per unit of fuel. -/
def InsertFixUp : Nat → RBTree K V → Option Nat → Except Fault (RBTree K V)
  | 0, _, _ => .error .outOfFuel
  | fuel + 1, s, cur => do
    let father ← Father s.heap cur
    match father with
    | none => do
      let h ← SetColor s.heap cur Color.BLACK
      pure { s with heap := h }
    | some _ => do
      let fred ← Red s.heap father
      if !fred then pure s
      else do
        let grand_father ← Father s.heap father
        match grand_father with
        | none => pure s
        | some _ => do
          let gl ← Left s.heap grand_father
          if gl = father then do
            let uncle ← Right s.heap grand_father
            let ured ← nonNullRed s.heap uncle
            if ured then do
              let h1 ← SetColor s.heap father Color.BLACK
              let h2 ← SetColor h1 uncle Color.BLACK
              let h3 ← SetColor h2 grand_father Color.RED
              InsertFixUp fuel { s with heap := h3 } grand_father
            else do
              let fr ← Right s.heap father
              if fr = cur then do
                let s1 ← LeftRotate s father
                InsertFixUp fuel s1 father
              else do
                let s1 ← RightRotate s grand_father
                let h2 ← SetColor s1.heap grand_father Color.RED
                let h3 ← SetColor h2 father Color.BLACK
                pure { s1 with heap := h3 }
          else do
            let uncle ← Left s.heap grand_father
            let ured ← nonNullRed s.heap uncle
            if ured then do
              let h1 ← SetColor s.heap father Color.BLACK
              let h2 ← SetColor h1 uncle Color.BLACK
              let h3 ← SetColor h2 grand_father Color.RED
              InsertFixUp fuel { s with heap := h3 } grand_father
            else do
              let fl ← Left s.heap father
              if fl = cur then do
                let s1 ← RightRotate s father
                InsertFixUp fuel s1 father
              else do
                let s1 ← LeftRotate s grand_father
                let h2 ← SetColor s1.heap grand_father Color.RED
                let h3 ← SetColor h2 father Color.BLACK
                pure { s1 with heap := h3 }

/-- The descent loop of `PutInner` (lines 140-152).  The result is the final `father` and
whether the loop left through its `else` branch (an equivalent key was met at `father`). -/
def PutInner.loop : Nat → Heap K V → (K → K → Bool) → K → Option Nat → Option Nat →
    Except Fault (Option Nat × Bool)
  | 0, _, _, _, _, _ => .error .outOfFuel
  | fuel + 1, h, cmp, key, father, cur =>
    match cur with
    | none => pure (father, false)
    | some _ => do
      let fk ← Key h cur
      if cmp fk key then do
        let l ← Left h cur
        PutInner.loop fuel h cmp key cur l
      else if cmp key fk then do
        let r ← Right h cur
        PutInner.loop fuel h cmp key cur r
      else pure (cur, true)

/-- Lines 154-160 of `PutInner`: `cur = new TreeNode(key, val)` is hung under `father`, as
its left child when `compare_(father->Key(), key)` and as its right child otherwise. -/
def PutInner.attach (s : RBTree K V) (father : Option Nat) (key : K) (val : V) :
    Except Fault (Option Nat × RBTree K V) := do
  let (s1, cur) := newNode s key val
  let fk ← Key s1.heap father
  let h ← (if s1.compare_ fk key then SetLeft s1.heap father cur
           else SetRight s1.heap father cur)
  pure (cur, { s1 with heap := h })

/-- Method `PutInner(key, val)`.  The returned reference `node->Value()` is represented by
the pointer to that node. -/
def PutInner (fuel : Nat) (s0 : RBTree K V) (key : K) (val : V) :
    Except Fault (Option Nat × RBTree K V) := do
  let s : RBTree K V := { s0 with size_ := (s0.size_ + 1) % 2 ^ 64 }
  match s.root_ with
  | none => do
    let (s1, p) := newNode s key val
    let s2 : RBTree K V := { s1 with root_ := p }
    let h ← SetColor s2.heap s2.root_ Color.BLACK
    let _ ← Value h s2.root_
    pure (s2.root_, { s2 with heap := h })
  | some _ => do
    let (father, found) ← PutInner.loop fuel s.heap s.compare_ key none s.root_
    if found then do
      let s1 : RBTree K V := { s with size_ := (s.size_ + 2 ^ 64 - 1) % 2 ^ 64 }
      let h ← SetValue s1.heap father val
      let _ ← Value h father
      pure (father, { s1 with heap := h })
    else do
      let (cur, s1) ← PutInner.attach s father key val
      let s2 ← InsertFixUp fuel s1 cur
      let _ ← Value s2.heap cur
      pure (cur, s2)

/-- Method `Put(key, val)`. -/
def Put (fuel : Nat) (s : RBTree K V) (key : K) (val : V) : Except Fault (RBTree K V) := do
  let (_, s1) ← PutInner fuel s key val
  pure s1

/-- Method `DeleteFixUp(node)`; `some true` as loop result stands for the `break`. -/
def DeleteFixUp : Nat → RBTree K V → Option Nat → Except Fault (RBTree K V)
  | 0, _, _ => .error .outOfFuel
  | fuel + 1, s, node => do
    let go ← (if node = s.root_ then pure false
              else do
                let r ← Red s.heap node
                pure (!r))
    if !go then do
      let h ← SetColor s.heap node Color.BLACK
      pure { s with heap := h }
    else do
      let father ← Father s.heap node
      let fl ← Left s.heap father
      if node = fl then do
        let sibling ← Right s.heap father
        let sred ← Red s.heap sibling
        if sred then do
          let s1 ← LeftRotate s father
          let h2 ← SetColor s1.heap father Color.RED
          let h3 ← SetColor h2 sibling Color.BLACK
          DeleteFixUp fuel { s1 with heap := h3 } node
        else do
          let right_nephew ← Right s.heap sibling
          let left_nephew ← Left s.heap sibling
          let rred ← nonNullRed s.heap right_nephew
          if rred then do
            let s1 ← LeftRotate s father
            let h2 ← SetColor s1.heap father Color.BLACK
            let h3 ← SetColor h2 right_nephew Color.BLACK
            let h4 ← SetColor h3 sibling Color.RED
            let h5 ← SetColor h4 node Color.BLACK
            pure { s1 with heap := h5 }
          else do
            let lred ← nonNullRed s.heap left_nephew
            if lred then do
              let s1 ← RightRotate s left_nephew
              let h2 ← SetColor s1.heap left_nephew Color.BLACK
              let h3 ← SetColor h2 sibling Color.RED
              DeleteFixUp fuel { s1 with heap := h3 } node
            else do
              let h1 ← SetColor s.heap sibling Color.RED
              DeleteFixUp fuel { s with heap := h1 } father
      else DeleteFixUp fuel s node

/-- Statement `delete next;` at the end of `Delete`.  The destructor `~RBTreeNode` deletes
both children first; `Delete` has set both child links to `nullptr` just before, so only
the cell itself is released. -/
def deleteNode (h : Heap K V) (p : Option Nat) : Heap K V :=
  match p with
  | none => h
  | some a => h.free a

/-- Method `Delete(key)`. -/
def Delete (fuel : Nat) (s0 : RBTree K V) (key : K) : Except Fault (Bool × RBTree K V) := do
  let s : RBTree K V := { s0 with size_ := (s0.size_ + 2 ^ 64 - 1) % 2 ^ 64 }
  let cur ← descend fuel s.heap s.compare_ key s.root_
  match cur with
  | none => pure (false, { s with size_ := (s.size_ + 1) % 2 ^ 64 })
  | some _ => do
    let next ← GetSuccessor fuel s.heap cur
    let nl ← Left s.heap next
    let replaced ← (match nl with
      | some _ => pure nl
      | none => Right s.heap next)
    let father ← Father s.heap next
    let s1 ← (match father with
      | none => do
        let h ← (match replaced with
          | some _ => SetFather s.heap replaced none
          | none => pure s.heap)
        pure ({ s with root_ := replaced, heap := h } : RBTree K V)
      | some _ => do
        let fl ← Left s.heap father
        if next = fl then do
          let h ← SetLeft s.heap father replaced
          pure ({ s with heap := h } : RBTree K V)
        else do
          let h ← SetRight s.heap father replaced
          pure ({ s with heap := h } : RBTree K V))
    let s2 ← (if next ≠ cur then do
        let h ← Copy s1.heap cur next
        pure ({ s1 with heap := h } : RBTree K V)
      else pure s1)
    let nred ← Red s2.heap next
    let s3 ← (if !nred then DeleteFixUp fuel s2 next else pure s2)
    let h4 ← SetLeft s3.heap next none
    let h5 ← SetRight h4 next none
    pure (true, { s3 with heap := deleteNode h5 next })

/-- Method `Get(key)` (also `operator[]`).  `ValType ret {}` is the default value of `V`.
The returned reference is represented by the pointer to the node holding it. -/
def Get [Inhabited V] (fuel : Nat) (s : RBTree K V) (key : K) :
    Except Fault (Option Nat × RBTree K V) := do
  let ret : V := default
  match s.root_ with
  | none => do
    let (s1, p) := newNode s key ret
    let s2 : RBTree K V := { s1 with root_ := p }
    let h ← SetColor s2.heap s2.root_ Color.BLACK
    let _ ← Value h s2.root_
    pure (s2.root_, { s2 with heap := h })
  | some _ => do
    let cur ← descend fuel s.heap s.compare_ key s.root_
    match cur with
    | some _ => do
      let _ ← Value s.heap cur
      pure (cur, s)
    | none => PutInner fuel s key ret

end Tree

/-! ## Trees and contexts: the shapes a heap can represent -/

/-- An ordinary binary tree whose nodes remember the heap address they live at. -/
inductive Tree (K V : Type) where
  | nil : Tree K V
  | node (a : Nat) (c : Color) (l : Tree K V) (k : K) (v : V) (r : Tree K V) : Tree K V

/-- One step of a path from a node up to its father: the father's own data and the subtree
on the other side.  `left` means the hole is the father's left child. -/
inductive Frame (K V : Type) where
  | left (a : Nat) (c : Color) (k : K) (v : V) (r : Tree K V) : Frame K V
  | right (a : Nat) (c : Color) (l : Tree K V) (k : K) (v : V) : Frame K V

/-- A tree with a hole: the frames from the hole up to the root, innermost first. -/
abbrev Ctx (K V : Type) := List (Frame K V)

section Shapes
variable {K V : Type}

/-- Pointer to the root node of a tree. -/
def Tree.ptr : Tree K V → Option Nat
  | .nil => none
  | .node a _ _ _ _ _ => some a

/-- Addresses of all nodes. -/
def Tree.addrs : Tree K V → List Nat
  | .nil => []
  | .node a _ l _ _ r => a :: (l.addrs ++ r.addrs)

/-- Number of nodes. -/
def Tree.count : Tree K V → Nat
  | .nil => 0
  | .node _ _ l _ _ r => l.count + 1 + r.count

/-- Number of nodes on the longest path from the root down to a leaf. -/
def Tree.height : Tree K V → Nat
  | .nil => 0
  | .node _ _ l _ _ r => max l.height r.height + 1

/-- Left-to-right in-order listing of the entries (left subtree, node, right subtree). -/
def Tree.toList : Tree K V → List (K × V)
  | .nil => []
  | .node _ _ l k v r => l.toList ++ (k, v) :: r.toList

/-- Left-to-right in-order listing of the keys. -/
def Tree.keys (t : Tree K V) : List K := t.toList.map Prod.fst

/-- Whether the root is a RED node (`p && p->Red()`). -/
def Tree.isRed : Tree K V → Bool
  | .node _ Color.RED _ _ _ _ => true
  | _ => false

/-- Tree with the colour of the root node replaced. -/
def Tree.setColor : Tree K V → Color → Tree K V
  | .nil, _ => .nil
  | .node a _ l k v r, c => .node a c l k v r

/-- Address of the father a frame stands for. -/
def Frame.addr : Frame K V → Nat
  | .left a _ _ _ _ => a
  | .right a _ _ _ _ => a

/-- Colour of the father a frame stands for. -/
def Frame.color : Frame K V → Color
  | .left _ c _ _ _ => c
  | .right _ c _ _ _ => c

/-- The subtree on the other side of the hole. -/
def Frame.sibling : Frame K V → Tree K V
  | .left _ _ _ _ r => r
  | .right _ _ l _ _ => l

/-- Put a tree into the hole of a frame. -/
def Frame.fill : Frame K V → Tree K V → Tree K V
  | .left a c k v r, t => .node a c t k v r
  | .right a c l k v, t => .node a c l k v t

/-- Put a tree into the hole of a context. -/
def plug : Ctx K V → Tree K V → Tree K V
  | [], t => t
  | fr :: rest, t => plug rest (fr.fill t)

/-- Pointer to the father of the hole (`nullptr` at the root). -/
def Ctx.father : Ctx K V → Option Nat
  | [] => none
  | fr :: _ => some fr.addr

/-- Addresses of all nodes of a context. -/
def Ctx.addrs : Ctx K V → List Nat
  | [] => []
  | fr :: rest => fr.addr :: (fr.sibling.addrs ++ Ctx.addrs rest)

/-- The heap holds tree `t` below a node whose father pointer must be `f`: every node of
`t` is a live cell with the recorded key, value and colour, its child pointers lead to its
subtrees and its father pointer leads back. -/
def Models (h : Heap K V) : Tree K V → Option Nat → Prop
  | .nil, _ => True
  | .node a c l k v r, f =>
    h a = some { key_ := k, val_ := v, left_child_ := l.ptr, right_child_ := r.ptr,
                 father_ := f, color_ := c }
    ∧ Models h l (some a) ∧ Models h r (some a)

/-- The heap holds context `ctx` around a hole whose occupant is pointed to by `p`. -/
def ModelsCtx (h : Heap K V) : Ctx K V → Option Nat → Prop
  | [], _ => True
  | .left a c k v r :: rest, p =>
    h a = some { key_ := k, val_ := v, left_child_ := p, right_child_ := r.ptr,
                 father_ := Ctx.father rest, color_ := c }
    ∧ Models h r (some a) ∧ ModelsCtx h rest (some a)
  | .right a c l k v :: rest, p =>
    h a = some { key_ := k, val_ := v, left_child_ := l.ptr, right_child_ := p,
                 father_ := Ctx.father rest, color_ := c }
    ∧ Models h l (some a) ∧ ModelsCtx h rest (some a)

/-- State `s` represents tree `t`: the heap holds `t` under `root_` with consistent father
links, no address occurs twice, every address is below the allocation mark, and `size_` is
a valid `size_t`. -/
structure Rep (s : RBTree K V) (t : Tree K V) : Prop where
  models : Models s.heap t none
  root : s.root_ = t.ptr
  nodup : t.addrs.Nodup
  fresh : ∀ a ∈ t.addrs, a < s.brk
  size_ok : s.size_ < 2 ^ 64

end Shapes

/-! ## The algorithms on trees and contexts -/

section Pure
variable {K V : Type}

/-- Frame with the colour of its node replaced. -/
def Frame.setColor : Frame K V → Color → Frame K V
  | .left a _ k v r, c => .left a c k v r
  | .right a _ l k v, c => .right a c l k v

/-- Outcome of one iteration of the `InsertFixUp` loop: the loop returned and the whole tree
is `t`, or it goes round again with `cur` at the root of `t` inside `ctx`. -/
inductive FixRes (K V : Type) where
  | done (t : Tree K V) : FixRes K V
  | cont (ctx : Ctx K V) (t : Tree K V) : FixRes K V

/-- One iteration of the `InsertFixUp` loop, read off the source branch by branch, with `cur`
the root of `t` and `ctx` the path from `cur` up to the root. -/
def fixStep : Ctx K V → Tree K V → FixRes K V
  | [], t => .done (t.setColor Color.BLACK)
  | [f], t => .done (f.fill t)
  | f :: g :: rest, t =>
    if f.color = Color.BLACK then .done (plug (f :: g :: rest) t)
    else
      match g, f, t with
      | .left ga _ gk gv u, .left fa _ fk fv sb, t =>
        if u.isRed then
          .cont rest (.node ga Color.RED (.node fa Color.BLACK t fk fv sb) gk gv
            (u.setColor Color.BLACK))
        else
          .done (plug rest (.node fa Color.BLACK t fk fv (.node ga Color.RED sb gk gv u)))
      | .left ga gc gk gv u, .right fa fc sb fk fv, t =>
        if u.isRed then
          .cont rest (.node ga Color.RED (.node fa Color.BLACK sb fk fv t) gk gv
            (u.setColor Color.BLACK))
        else
          match t with
          | .node ca cc cl ck cv cr =>
            .cont (.left ca cc ck cv cr :: .left ga gc gk gv u :: rest)
              (.node fa fc sb fk fv cl)
          | .nil => .done (plug (.right fa fc sb fk fv :: .left ga gc gk gv u :: rest) .nil)
      | .right ga _ u gk gv, .right fa _ sb fk fv, t =>
        if u.isRed then
          .cont rest (.node ga Color.RED (u.setColor Color.BLACK) gk gv
            (.node fa Color.BLACK sb fk fv t))
        else
          .done (plug rest (.node fa Color.BLACK (.node ga Color.RED u gk gv sb) fk fv t))
      | .right ga gc u gk gv, .left fa fc fk fv sb, t =>
        if u.isRed then
          .cont rest (.node ga Color.RED (u.setColor Color.BLACK) gk gv
            (.node fa Color.BLACK t fk fv sb))
        else
          match t with
          | .node ca cc cl ck cv cr =>
            .cont (.right ca cc cl ck cv :: .right ga gc u gk gv :: rest)
              (.node fa fc cr fk fv sb)
          | .nil => .done (plug (.left fa fc fk fv sb :: .right ga gc u gk gv :: rest) .nil)

/-- The `InsertFixUp` loop on trees: at most `fuel` iterations. -/
def fixLoop : Nat → Ctx K V → Tree K V → Option (Tree K V)
  | 0, _, _ => none
  | fuel + 1, ctx, t =>
    match fixStep ctx t with
    | .done t1 => some t1
    | .cont ctx1 t1 => fixLoop fuel ctx1 t1

/-- The tree `InsertFixUp` leaves behind, when started at the root of `t` inside `ctx`. -/
def fixup (ctx : Ctx K V) (t : Tree K V) : Tree K V :=
  (fixLoop (ctx.length + 1) ctx t).getD (plug ctx t)

/-- The search descent shared by `find`, `Delete`, `Get` and `PutInner`: left when
`cmp k key`, right when `cmp key k`, stop at an equivalent key or at an absent child.  The
result is the path walked and the subtree at which the walk stopped. -/
def zoom (cmp : K → K → Bool) (key : K) : Tree K V → Ctx K V → Ctx K V × Tree K V
  | .nil, ctx => (ctx, .nil)
  | .node a c l k v r, ctx =>
    if cmp k key then zoom cmp key l (.left a c k v r :: ctx)
    else if cmp key k then zoom cmp key r (.right a c l k v :: ctx)
    else (ctx, .node a c l k v r)

/-- The tree `PutInner` produces from `t` when the fresh address is `new`. -/
def putT (cmp : K → K → Bool) (new : Nat) (t : Tree K V) (key : K) (val : V) : Tree K V :=
  match t with
  | .nil => .node new Color.BLACK .nil key val .nil
  | _ =>
    match zoom cmp key t [] with
    | (ctx, .node a c l k _ r) => plug ctx (.node a c l k val r)
    | (ctx, .nil) => fixup ctx (.node new Color.RED .nil key val .nil)

/-- Entry the search for `key` ends at, if any. -/
def findT (cmp : K → K → Bool) (key : K) (t : Tree K V) : Option (K × V) :=
  match (zoom cmp key t []).2 with
  | .nil => none
  | .node _ _ _ k v _ => some (k, v)

/-! ## Invariants -/

/-- No RED node has a RED child. -/
def NoRedRed : Tree K V → Prop
  | .nil => True
  | .node _ c l _ _ r =>
    (c = Color.RED → l.isRed = false ∧ r.isRed = false) ∧ NoRedRed l ∧ NoRedRed r

/-- What a node of colour `c` adds to the black count of a path through it. -/
def blackOf (c : Color) : Nat :=
  match c with
  | Color.BLACK => 1
  | Color.RED => 0

/-- The numbers of BLACK nodes on the paths from the root to each absent-child position,
listed left to right. -/
def Tree.blackCounts : Tree K V → List Nat
  | .nil => [0]
  | .node _ c l _ _ r => (l.blackCounts ++ r.blackCounts).map (fun n => n + blackOf c)

/-- Every path from the root to an absent child has exactly `n` BLACK nodes, and likewise
below every node. -/
def Bal : Tree K V → Nat → Prop
  | .nil, n => n = 0
  | .node _ c l _ _ r, n => ∃ m, n = m + blackOf c ∧ Bal l m ∧ Bal r m

/-- The three red-black colour invariants: the root is BLACK or the tree is empty, no RED
node has a RED child, and all root-to-absent-child paths have the same number of BLACK
nodes. -/
def RBInv (t : Tree K V) : Prop :=
  t.isRed = false ∧ NoRedRed t ∧ ∃ n, ∀ c ∈ t.blackCounts, c = n

/-- The ordering the code descends by: at every node with key `k`, each key `x` of the left
subtree has `cmp k x` and each key `x` of the right subtree has `cmp x k`. -/
def Mirrored (cmp : K → K → Bool) : Tree K V → Prop
  | .nil => True
  | .node _ _ l k _ r =>
    (∀ x ∈ l.keys, cmp k x = true) ∧ (∀ x ∈ r.keys, cmp x k = true)
      ∧ Mirrored cmp l ∧ Mirrored cmp r

/-- The conventional search-tree ordering of the specification: at every node with key `k`,
each key `x` of the left subtree has `cmp x k` and each key of the right subtree `cmp k x`. -/
def Ascending (cmp : K → K → Bool) : Tree K V → Prop
  | .nil => True
  | .node _ _ l k _ r =>
    (∀ x ∈ l.keys, cmp x k = true) ∧ (∀ x ∈ r.keys, cmp k x = true)
      ∧ Ascending cmp l ∧ Ascending cmp r

/-- Keys `a` and `b` are equivalent: neither precedes the other. -/
def Equiv (cmp : K → K → Bool) (a b : K) : Prop := cmp a b = false ∧ cmp b a = false

/-- The comparator is a strict order in which incomparable keys behave alike (a strict weak
ordering; every strict total order is one). -/
structure StrictOrder (cmp : K → K → Bool) : Prop where
  irrefl : ∀ a, cmp a a = false
  trans : ∀ a b c, cmp a b = true → cmp b c = true → cmp a c = true
  incomp : ∀ a b c, cmp a b = true → cmp a c = true ∨ cmp c b = true

/-- States reachable from a tree constructed empty by calls of `Put` that returned. -/
inductive Built (cmp : K → K → Bool) : RBTree K V → Prop where
  | empty (junk : Nat) : Built cmp (RBTree.empty cmp junk)
  | put (s s1 : RBTree K V) (fuel : Nat) (key : K) (val : V) :
      Built cmp s → Put fuel s key val = .ok s1 → Built cmp s1

end Pure

section FocusDef
variable {K V : Type}

/-- State `s` represents the tree `plug ctx t`, seen from the subtree `t` in its context:
the same facts as `Rep s (plug ctx t)`, split into the part below the hole and the part
around it. -/
structure Focus (s : RBTree K V) (ctx : Ctx K V) (t : Tree K V) : Prop where
  sub : Models s.heap t (Ctx.father ctx)
  around : ModelsCtx s.heap ctx t.ptr
  root : s.root_ = (plug ctx t).ptr
  nodup : (t.addrs ++ Ctx.addrs ctx).Nodup
  fresh : ∀ a ∈ t.addrs ++ Ctx.addrs ctx, a < s.brk
  size_ok : s.size_ < 2 ^ 64

end FocusDef

section PathDef
variable {K V : Type}

/-- Key of the node a frame stands for. -/
def Frame.key : Frame K V → K
  | .left _ _ k _ _ => k
  | .right _ _ _ k _ => k

/-- Value of the node a frame stands for. -/
def Frame.val : Frame K V → V
  | .left _ _ _ v _ => v
  | .right _ _ _ _ v => v

/-- The frame is one the search for `key` passes: the search turns left at a node with key
`k` when `cmp k key`, and right when that fails and `cmp key k`. -/
def Frame.onPath (cmp : K → K → Bool) (key : K) : Frame K V → Prop
  | .left _ _ k _ _ => cmp k key = true
  | .right _ _ _ k _ => cmp k key = false ∧ cmp key k = true

end PathDef

section CellsDef
variable {K V : Type}

/-- Left-to-right in-order listing of the nodes: address, key and value. -/
def Tree.cells : Tree K V → List (Nat × K × V)
  | .nil => []
  | .node a _ l k v r => l.cells ++ (a, k, v) :: r.cells

/-- In-order listing of the part of a context that lies left of the hole. -/
def Ctx.before : Ctx K V → List (Nat × K × V)
  | [] => []
  | .left _ _ _ _ _ :: rest => Ctx.before rest
  | .right a _ l k v :: rest => Ctx.before rest ++ l.cells ++ [(a, k, v)]

/-- In-order listing of the part of a context that lies right of the hole. -/
def Ctx.after : Ctx K V → List (Nat × K × V)
  | [] => []
  | .left a _ k v r :: rest => (a, k, v) :: r.cells ++ Ctx.after rest
  | .right _ _ _ _ _ :: rest => Ctx.after rest

end CellsDef

section CtxInvDef
variable {K V : Type}

/-- Whether the tree `plug ctx t` has a RED root, given whether `t` has. -/
def Ctx.rootRed : Ctx K V → Bool → Bool
  | [], hole => hole
  | fr :: rest, _ => Ctx.rootRed rest (decide (fr.color = Color.RED))

/-- The part of `NoRedRed (plug ctx t)` that concerns the context, given whether the root
of `t` is RED. -/
def CtxNoRedRed : Ctx K V → Bool → Prop
  | [], _ => True
  | fr :: rest, hole =>
    (fr.color = Color.RED → hole = false ∧ fr.sibling.isRed = false)
      ∧ NoRedRed fr.sibling ∧ CtxNoRedRed rest (decide (fr.color = Color.RED))

/-- The part of `Bal (plug ctx t) n` that concerns the context, given that `Bal t m`. -/
def CtxBal : Ctx K V → Nat → Nat → Prop
  | [], m, n => m = n
  | fr :: rest, m, n => Bal fr.sibling m ∧ CtxBal rest (m + blackOf fr.color) n

/-- The state of the `InsertFixUp` loop between iterations: `cur` is RED, the red-black
invariants hold inside the subtree at `cur` and in the context, and the only place they
can fail is the edge from `cur` to its father. -/
def FixInv (ctx : Ctx K V) (t : Tree K V) : Prop :=
  t.isRed = true ∧ NoRedRed t ∧ CtxNoRedRed ctx false ∧ Ctx.rootRed ctx false = false
    ∧ ∃ m n, Bal t m ∧ CtxBal ctx m n

/-- The three colour invariants with the black count phrased by `Bal`. -/
def RBBal (t : Tree K V) : Prop :=
  t.isRed = false ∧ NoRedRed t ∧ ∃ n, Bal t n

end CtxInvDef

section DescDef
variable {K V : Type}

/-- Entry `e1` comes before entry `e2` in the order the tree keeps its nodes in, left to
right: the key of `e2` precedes the key of `e1` under the comparator. -/
def Desc (cmp : K → K → Bool) (e1 e2 : Nat × K × V) : Prop := cmp e2.2.1 e1.2.1 = true

end DescDef

/-! ## Client code and concrete trees -/

section Examples
variable {K V : Type}

/-- Comparator `std::less` on natural-number keys, the default of the constructor. -/
def natLt (a b : Nat) : Bool := decide (a < b)

/-- A sequence of `Put` calls, one per listed entry. -/
def putKeys (fuel : Nat) (s : RBTree K V) : List (K × V) → Except Fault (RBTree K V)
  | [] => pure s
  | (k, v) :: rest => do
    let s1 ← Put fuel s k v
    putKeys fuel s1 rest

/-- The body of the traversal loop a client writes with the iterator,
`for (auto it = t.begin(); !(it == t.end()); ++it) out.push_back(it->Key());`:
`it->Key()` is recorded and `operator++` replaces `node_` by `node_->FindNext()`. -/
def visit : Nat → Nat → Heap K V → Option Nat → Except Fault (List K)
  | 0, _, _, _ => .error .outOfFuel
  | steps + 1, fuel, h, it =>
    match it with
    | none => pure []
    | some _ => do
      let k ← Key h it
      let next ← FindNext fuel h it
      let rest ← visit steps fuel h next
      pure (k :: rest)

/-- The keys a forward traversal from `begin()` to `end()` visits, in order. -/
def traverse (fuel : Nat) (s : RBTree K V) : Except Fault (List K) := do
  let b ← s.begin fuel
  visit fuel fuel s.heap b

/-- The state an `Except` computation ended in, or `d` when it failed. -/
def stateOf (r : Except Fault (RBTree K V)) (d : RBTree K V) : RBTree K V :=
  match r with
  | .ok s => s
  | .error _ => d

/-- The tree holding the single key 1. -/
def tree1 : RBTree Nat Nat :=
  stateOf (putKeys 2 (RBTree.empty natLt 0) [(1, 10)]) (RBTree.empty natLt 0)

/-- The tree after `Put` of 10, 20, 30 in this order. -/
def tree3 : RBTree Nat Nat :=
  stateOf (putKeys 4 (RBTree.empty natLt 0) [(10, 100), (20, 200), (30, 300)])
    (RBTree.empty natLt 0)

/-- The shape of `tree3`: 20 at the root, 30 to its left and 10 to its right. -/
def shape3 : Tree Nat Nat :=
  .node 1 Color.BLACK (.node 2 Color.RED .nil 30 300 .nil) 20 200
    (.node 0 Color.RED .nil 10 100 .nil)

/-- The tree after `Put` of 1, 2, 3, 4 in this order. -/
def tree4 : RBTree Nat Nat :=
  stateOf (putKeys 4 (RBTree.empty natLt 0) [(1, 10), (2, 20), (3, 30), (4, 40)])
    (RBTree.empty natLt 0)

/-- The shape of `tree4`: 2 at the root, 3 (with left child 4) to its left, 1 to its right. -/
def shape4 : Tree Nat Nat :=
  .node 1 Color.BLACK (.node 2 Color.BLACK (.node 3 Color.RED .nil 4 40 .nil) 3 30 .nil) 2 20
    (.node 0 Color.BLACK .nil 1 10 .nil)

end Examples

section Examples2

/-- The state `Delete(1)` on `tree4` has reached when it calls `DeleteFixUp`: `size_` is
decremented and the father of the pivot (the root, at address 1) has lost its right child;
the pivot itself, at address 0, still points to its father. -/
def spliced4 : RBTree Nat Nat :=
  { tree4 with
    size_ := 3,
    heap := tree4.heap.set 1
      { key_ := 2, val_ := 20, left_child_ := some 2, right_child_ := none, father_ := none,
        color_ := Color.BLACK } }

end Examples2

section ColorsDef
variable {K V : Type}

/-- Left-to-right in-order listing of the nodes with their colours. -/
def Tree.colors : Tree K V → List (Nat × Color)
  | .nil => []
  | .node a c l _ _ r => l.colors ++ (a, c) :: r.colors

end ColorsDef

section SpliceDef
variable {K V : Type}

/-- The walk `while (cur->right_child_) cur = cur->right_child_;` on trees: the path walked
and the subtree at the node the walk stops at. -/
def zoomRight : Tree K V → Ctx K V → Ctx K V × Tree K V
  | .nil, ctx => (ctx, .nil)
  | .node a c l k v r, ctx =>
    match r with
    | .nil => (ctx, .node a c l k v .nil)
    | .node _ _ _ _ _ _ => zoomRight r (.right a c l k v :: ctx)

/-- Line 102 of `Delete`: `replaced = next->Left() ? next->Left() : next->Right()`. -/
def Delete.replaced (h : Heap K V) (next : Option Nat) : Except Fault (Option Nat) := do
  let nl ← Left h next
  match nl with
  | some _ => pure nl
  | none => Right h next

/-- Lines 103-111 of `Delete`: `replaced` is hooked in where `next` was, under `root_` when
`next` has no father and else as the left child of the father when `next` was that, as the
right child otherwise. -/
def Delete.unhook (s : RBTree K V) (next replaced : Option Nat) :
    Except Fault (RBTree K V) := do
  let father ← Father s.heap next
  match father with
  | none => do
    let h ← (match replaced with
      | some _ => SetFather s.heap replaced none
      | none => pure s.heap)
    pure ({ s with root_ := replaced, heap := h } : RBTree K V)
  | some _ => do
    let fl ← Left s.heap father
    if next = fl then do
      let h ← SetLeft s.heap father replaced
      pure ({ s with heap := h } : RBTree K V)
    else do
      let h ← SetRight s.heap father replaced
      pure ({ s with heap := h } : RBTree K V)

/-- Lines 102-114 of `Delete`, from the computation of `replaced` to the copy into `cur`:
`next` is unhooked, its only child, if any, takes its place, and when `next` is not `cur`
its key and value are copied into `cur`. -/
def Delete.splice (s : RBTree K V) (cur next : Option Nat) : Except Fault (RBTree K V) := do
  let replaced ← Delete.replaced s.heap next
  let s1 ← Delete.unhook s next replaced
  if next ≠ cur then do
    let h ← Copy s1.heap cur next
    pure ({ s1 with heap := h } : RBTree K V)
  else pure s1

/-- The child that takes the place of a node with at most one child:
`next->Left() ? next->Left() : next->Right()`. -/
def Tree.replaced : Tree K V → Tree K V
  | .nil => .nil
  | .node _ _ l _ _ r =>
    match l with
    | .nil => r
    | .node _ _ _ _ _ _ => l

/-- The tree lines 101-114 of `Delete` leave behind, when the search has stopped at the root
of `t` inside `ctx`: with a child missing the node itself is unhooked; with two children
the rightmost node of the left subtree is unhooked and its entry moves into the node. -/
def spliceT (ctx : Ctx K V) (t : Tree K V) : Tree K V :=
  match t with
  | .nil => plug ctx .nil
  | .node a c l _ _ r =>
    match l, r with
    | .node _ _ _ _ _ _, .node _ _ _ _ _ _ =>
      match zoomRight l [] with
      | (ctxL, .node pa pc pl pk pv pr) =>
        plug ctx (.node a c (plug ctxL (Tree.replaced (.node pa pc pl pk pv pr))) pk pv r)
      | (_, .nil) => plug ctx t
    | _, _ => plug ctx (Tree.replaced t)

/-- What a client reads after `find(key)`: nothing when the iterator equals `end()`,
otherwise `it->Key()` and `it->Value()`. -/
def lookup (fuel : Nat) (s : RBTree K V) (key : K) : Except Fault (Option (K × V)) := do
  let it ← find fuel s key
  match it with
  | none => pure none
  | some _ => do
    let k ← Key s.heap it
    let v ← Value s.heap it
    pure (some (k, v))

end SpliceDef

/-! ## Heap primitives -/

section HeapLemmas
variable {K V : Type}

@[simp] theorem Heap.set_same (h : Heap K V) (a : Nat) (n : RBTreeNode K V) :
    (h.set a n) a = some n := by
  simp [Heap.set]

theorem Heap.set_ne (h : Heap K V) {a x : Nat} (n : RBTreeNode K V) (hx : x ≠ a) :
    (h.set a n) x = h x := by
  simp [Heap.set, hx]

theorem deref_ok {h : Heap K V} {a : Nat} {n : RBTreeNode K V} (ha : h a = some n) :
    deref h (some a) = .ok n := by
  simp [deref, ha]

theorem modify_ok {h : Heap K V} {a : Nat} {n : RBTreeNode K V} (ha : h a = some n)
    (f : RBTreeNode K V → RBTreeNode K V) :
    modify h (some a) f = .ok (h.set a (f n)) := by
  simp [modify, ha]

theorem Key_ok {h : Heap K V} {a : Nat} {n : RBTreeNode K V} (ha : h a = some n) :
    Key h (some a) = .ok n.key_ := by
  simp [Key, deref, ha, Except.map]

theorem Value_ok {h : Heap K V} {a : Nat} {n : RBTreeNode K V} (ha : h a = some n) :
    Value h (some a) = .ok n.val_ := by
  simp [Value, deref, ha, Except.map]

theorem Left_ok {h : Heap K V} {a : Nat} {n : RBTreeNode K V} (ha : h a = some n) :
    Left h (some a) = .ok n.left_child_ := by
  simp [Left, deref, ha, Except.map]

theorem Right_ok {h : Heap K V} {a : Nat} {n : RBTreeNode K V} (ha : h a = some n) :
    Right h (some a) = .ok n.right_child_ := by
  simp [Right, deref, ha, Except.map]

theorem Father_ok {h : Heap K V} {a : Nat} {n : RBTreeNode K V} (ha : h a = some n) :
    Father h (some a) = .ok n.father_ := by
  simp [Father, deref, ha, Except.map]

theorem Red_ok {h : Heap K V} {a : Nat} {n : RBTreeNode K V} (ha : h a = some n) :
    Red h (some a) = .ok (decide (n.color_ = Color.RED)) := by
  simp [Red, deref, ha, Except.map]

theorem SetColor_ok {h : Heap K V} {a : Nat} {n : RBTreeNode K V} (ha : h a = some n)
    (c : Color) :
    SetColor h (some a) c = .ok (h.set a { n with color_ := c }) := by
  simp [SetColor, modify, ha]

theorem SetValue_ok {h : Heap K V} {a : Nat} {n : RBTreeNode K V} (ha : h a = some n)
    (v : V) :
    SetValue h (some a) v = .ok (h.set a { n with val_ := v }) := by
  simp [SetValue, modify, ha]

theorem SetFather_ok {h : Heap K V} {a : Nat} {n : RBTreeNode K V} (ha : h a = some n)
    (f : Option Nat) :
    SetFather h (some a) f = .ok (h.set a { n with father_ := f }) := by
  simp [SetFather, modify, ha]

theorem SetLeft_none {h : Heap K V} {a : Nat} {n : RBTreeNode K V} (ha : h a = some n) :
    SetLeft h (some a) none = .ok (h.set a { n with left_child_ := none }) := by
  simp [SetLeft, modify, ha, bind, Except.bind, pure, Except.pure]

theorem SetRight_none {h : Heap K V} {a : Nat} {n : RBTreeNode K V} (ha : h a = some n) :
    SetRight h (some a) none = .ok (h.set a { n with right_child_ := none }) := by
  simp [SetRight, modify, ha, bind, Except.bind, pure, Except.pure]

theorem SetLeft_some {h : Heap K V} {a b : Nat} {n m : RBTreeNode K V} (ha : h a = some n)
    (hb : h b = some m) (hab : b ≠ a) :
    SetLeft h (some a) (some b)
      = .ok ((h.set a { n with left_child_ := some b }).set b { m with father_ := some a }) := by
  simp [SetLeft, modify, ha, hb, bind, Except.bind, Heap.set_ne, hab]

theorem SetRight_some {h : Heap K V} {a b : Nat} {n m : RBTreeNode K V} (ha : h a = some n)
    (hb : h b = some m) (hab : b ≠ a) :
    SetRight h (some a) (some b)
      = .ok ((h.set a { n with right_child_ := some b }).set b { m with father_ := some a }) := by
  simp [SetRight, modify, ha, hb, bind, Except.bind, Heap.set_ne, hab]

end HeapLemmas

/-! ## Heaps, trees and contexts -/

section ShapeLemmas
variable {K V : Type}

theorem Models.frame {h h' : Heap K V} {t : Tree K V} {f : Option Nat}
    (hm : Models h t f) (hag : ∀ a ∈ t.addrs, h' a = h a) : Models h' t f := by
  induction t generalizing f with
  | nil => trivial
  | node a c l k v r ihl ihr =>
    obtain ⟨h1, h2, h3⟩ := hm
    refine ⟨?_, ihl h2 ?_, ihr h3 ?_⟩
    · rw [hag a (by simp [Tree.addrs])]; exact h1
    · intro p hp; exact hag p (by simp [Tree.addrs, hp])
    · intro p hp; exact hag p (by simp [Tree.addrs, hp])

theorem ModelsCtx.frame_ctx {h h' : Heap K V} {ctx : Ctx K V} {p : Option Nat}
    (hm : ModelsCtx h ctx p) (hag : ∀ a ∈ Ctx.addrs ctx, h' a = h a) : ModelsCtx h' ctx p := by
  induction ctx generalizing p with
  | nil => trivial
  | cons fr rest ih =>
    cases fr with
    | left a c k v r =>
      obtain ⟨h1, h2, h3⟩ := hm
      refine ⟨?_, h2.frame ?_, ih h3 ?_⟩
      · rw [hag a (by simp [Ctx.addrs, Frame.addr])]; exact h1
      · intro q hq; exact hag q (by simp [Ctx.addrs, Frame.sibling, hq])
      · intro q hq; exact hag q (by simp [Ctx.addrs, hq])
    | right a c l k v =>
      obtain ⟨h1, h2, h3⟩ := hm
      refine ⟨?_, h2.frame ?_, ih h3 ?_⟩
      · rw [hag a (by simp [Ctx.addrs, Frame.addr])]; exact h1
      · intro q hq; exact hag q (by simp [Ctx.addrs, Frame.sibling, hq])
      · intro q hq; exact hag q (by simp [Ctx.addrs, hq])

theorem models_plug {h : Heap K V} (ctx : Ctx K V) (t : Tree K V) :
    Models h (plug ctx t) none ↔ Models h t (Ctx.father ctx) ∧ ModelsCtx h ctx t.ptr := by
  induction ctx generalizing t with
  | nil => simp [plug, Ctx.father, ModelsCtx]
  | cons fr rest ih =>
    cases fr with
    | left a c k v r =>
      simp only [plug, Frame.fill, ih, Models, ModelsCtx, Tree.ptr, Ctx.father, Frame.addr]
      tauto
    | right a c l k v =>
      simp only [plug, Frame.fill, ih, Models, ModelsCtx, Tree.ptr, Ctx.father, Frame.addr]
      tauto

theorem addrs_plug (ctx : Ctx K V) (t : Tree K V) :
    List.Perm (plug ctx t).addrs (t.addrs ++ Ctx.addrs ctx) := by
  induction ctx generalizing t with
  | nil => simp [plug, Ctx.addrs]
  | cons fr rest ih =>
    refine (ih (fr.fill t)).trans ?_
    cases fr with
    | left a c k v r =>
      simp only [Frame.fill, Tree.addrs, Ctx.addrs, Frame.addr, Frame.sibling]
      rw [List.perm_iff_count]
      intro x
      simp [List.count_cons, List.count_append]
      omega
    | right a c l k v =>
      simp only [Frame.fill, Tree.addrs, Ctx.addrs, Frame.addr, Frame.sibling]
      rw [List.perm_iff_count]
      intro x
      simp [List.count_cons, List.count_append]
      omega

theorem ptr_plug_cons (fr : Frame K V) (rest : Ctx K V) (t t1 : Tree K V) :
    (plug (fr :: rest) t).ptr = (plug (fr :: rest) t1).ptr := by
  induction rest generalizing fr t t1 with
  | nil => cases fr <;> simp [plug, Frame.fill, Tree.ptr]
  | cons g rest ih =>
    show (plug (g :: rest) (fr.fill t)).ptr = (plug (g :: rest) (fr.fill t1)).ptr
    exact ih g _ _

theorem count_plug (ctx : Ctx K V) (t t1 : Tree K V) (hc : t.count = t1.count) :
    (plug ctx t).count = (plug ctx t1).count := by
  induction ctx generalizing t t1 with
  | nil => simpa [plug] using hc
  | cons fr rest ih =>
    apply ih
    cases fr <;> simp [Frame.fill, Tree.count, hc]

end ShapeLemmas

section FocusLemmas
variable {K V : Type}

@[simp] theorem Tree.ptr_nil : (Tree.nil : Tree K V).ptr = none := rfl

@[simp] theorem Tree.ptr_node (a : Nat) (c : Color) (l : Tree K V) (k : K) (v : V)
    (r : Tree K V) : (Tree.node a c l k v r).ptr = some a := rfl

theorem Tree.ptr_mem {t : Tree K V} {p : Nat} (hp : t.ptr = some p) : p ∈ t.addrs := by
  cases t with
  | nil => simp at hp
  | node a c l k v r =>
    simp only [Tree.ptr_node, Option.some.injEq] at hp
    simp [Tree.addrs, hp]

theorem Models.frame_set {h : Heap K V} {t : Tree K V} {f : Option Nat} {a : Nat}
    {n : RBTreeNode K V} (hm : Models h t f) (ha : a ∉ t.addrs) : Models (h.set a n) t f :=
  hm.frame (fun _ hp => Heap.set_ne h n (ne_of_mem_of_not_mem hp ha))

theorem ModelsCtx.frame_set_ctx {h : Heap K V} {ctx : Ctx K V} {q : Option Nat} {a : Nat}
    {n : RBTreeNode K V} (hm : ModelsCtx h ctx q) (ha : a ∉ Ctx.addrs ctx) :
    ModelsCtx (h.set a n) ctx q :=
  hm.frame_ctx (fun _ hp => Heap.set_ne h n (ne_of_mem_of_not_mem hp ha))

theorem focus_iff (s : RBTree K V) (ctx : Ctx K V) (t : Tree K V) :
    Rep s (plug ctx t) ↔ Focus s ctx t := by
  have hp := addrs_plug ctx t
  constructor
  · intro hr
    have hm := (models_plug ctx t).1 hr.models
    exact ⟨hm.1, hm.2, hr.root, hp.nodup_iff.1 hr.nodup,
      fun a ha => hr.fresh a (hp.mem_iff.2 ha), hr.size_ok⟩
  · intro hf
    exact ⟨(models_plug ctx t).2 ⟨hf.sub, hf.around⟩, hf.root, hp.nodup_iff.2 hf.nodup,
      fun a ha => hf.fresh a (hp.mem_iff.1 ha), hf.size_ok⟩

/-- Calling `SetLeft` with the root pointer of a tree the heap already holds: the tree becomes the
left subtree, nothing else changes. -/
theorem SetLeft_spec {h : Heap K V} {a : Nat} {n : RBTreeNode K V} {t : Tree K V}
    {f0 : Option Nat} (ha : h a = some n) (ht : Models h t f0) (hat : a ∉ t.addrs)
    (hnd : t.addrs.Nodup) :
    ∃ h1, SetLeft h (some a) t.ptr = .ok h1
      ∧ h1 a = some { n with left_child_ := t.ptr }
      ∧ Models h1 t (some a)
      ∧ ∀ p, p ≠ a → p ∉ t.addrs → h1 p = h p := by
  cases t with
  | nil =>
    refine ⟨_, SetLeft_none ha, by simp, trivial, fun _ hp _ => Heap.set_ne h _ hp⟩
  | node b cb bl bk bv br =>
    obtain ⟨hb, hbl, hbr⟩ := ht
    simp only [Tree.addrs, List.mem_cons, List.mem_append, not_or, List.nodup_cons,
      List.nodup_append] at hat hnd
    have hba : b ≠ a := fun e => hat.1 e.symm
    refine ⟨_, SetLeft_some ha hb hba, ?_, ⟨?_, ?_, ?_⟩, ?_⟩
    · simp [Heap.set_ne, hat.1]
    · simp
    · exact (hbl.frame_set hat.2.1).frame_set hnd.1.1
    · exact (hbr.frame_set hat.2.2).frame_set hnd.1.2
    · intro p hpa hpt
      simp only [Tree.addrs, List.mem_cons, not_or] at hpt
      rw [Heap.set_ne _ _ hpt.1, Heap.set_ne _ _ hpa]

/-- Calling `SetRight` with the root pointer of a tree the heap already holds. -/
theorem SetRight_spec {h : Heap K V} {a : Nat} {n : RBTreeNode K V} {t : Tree K V}
    {f0 : Option Nat} (ha : h a = some n) (ht : Models h t f0) (hat : a ∉ t.addrs)
    (hnd : t.addrs.Nodup) :
    ∃ h1, SetRight h (some a) t.ptr = .ok h1
      ∧ h1 a = some { n with right_child_ := t.ptr }
      ∧ Models h1 t (some a)
      ∧ ∀ p, p ≠ a → p ∉ t.addrs → h1 p = h p := by
  cases t with
  | nil =>
    refine ⟨_, SetRight_none ha, by simp, trivial, fun _ hp _ => Heap.set_ne h _ hp⟩
  | node b cb bl bk bv br =>
    obtain ⟨hb, hbl, hbr⟩ := ht
    simp only [Tree.addrs, List.mem_cons, List.mem_append, not_or, List.nodup_cons,
      List.nodup_append] at hat hnd
    have hba : b ≠ a := fun e => hat.1 e.symm
    refine ⟨_, SetRight_some ha hb hba, ?_, ⟨?_, ?_, ?_⟩, ?_⟩
    · simp [Heap.set_ne, hat.1]
    · simp
    · exact (hbl.frame_set hat.2.1).frame_set hnd.1.1
    · exact (hbr.frame_set hat.2.2).frame_set hnd.1.2
    · intro p hpa hpt
      simp only [Tree.addrs, List.mem_cons, not_or] at hpt
      rw [Heap.set_ne _ _ hpt.1, Heap.set_ne _ _ hpa]

end FocusLemmas

section Rot
variable {K V : Type}

theorem ModelsCtx.repoint_left {h h1 : Heap K V} {f : Nat} {fc : Color} {fk : K} {fv : V}
    {r : Tree K V} {rest : Ctx K V} {p p1 : Option Nat}
    (hm : ModelsCtx h (.left f fc fk fv r :: rest) p)
    (hcell : h1 f = some ⟨fk, fv, p1, r.ptr, Ctx.father rest, fc⟩)
    (hag : ∀ q ∈ r.addrs ++ Ctx.addrs rest, h1 q = h q) :
    ModelsCtx h1 (.left f fc fk fv r :: rest) p1 := by
  obtain ⟨_, hr, hrest⟩ := hm
  exact ⟨hcell, hr.frame (fun q hq => hag q (List.mem_append_left _ hq)),
    hrest.frame_ctx (fun q hq => hag q (List.mem_append_right _ hq))⟩

theorem ModelsCtx.repoint_right {h h1 : Heap K V} {f : Nat} {fc : Color} {fk : K} {fv : V}
    {l : Tree K V} {rest : Ctx K V} {p p1 : Option Nat}
    (hm : ModelsCtx h (.right f fc l fk fv :: rest) p)
    (hcell : h1 f = some ⟨fk, fv, l.ptr, p1, Ctx.father rest, fc⟩)
    (hag : ∀ q ∈ l.addrs ++ Ctx.addrs rest, h1 q = h q) :
    ModelsCtx h1 (.right f fc l fk fv :: rest) p1 := by
  obtain ⟨_, hl, hrest⟩ := hm
  exact ⟨hcell, hl.frame (fun q hq => hag q (List.mem_append_left _ hq)),
    hrest.frame_ctx (fun q hq => hag q (List.mem_append_right _ hq))⟩

theorem Models.nodup_of_focus {s : RBTree K V} {ctx : Ctx K V} {t : Tree K V}
    (hf : Focus s ctx t) : t.addrs.Nodup ∧ (Ctx.addrs ctx).Nodup
      ∧ ∀ q, q ∈ t.addrs → q ∉ Ctx.addrs ctx := by
  have := List.nodup_append.1 hf.nodup
  exact ⟨this.1, this.2.1, fun q hq hq2 => this.2.2 hq hq2⟩

theorem LeftRotate_focus {s : RBTree K V} {ctx : Ctx K V} {x y : Nat} {cx cy : Color}
    {a b c : Tree K V} {kx ky : K} {vx vy : V}
    (hf : Focus s ctx (.node x cx a kx vx (.node y cy b ky vy c))) :
    ∃ s1, LeftRotate s (some x) = .ok s1
      ∧ Focus s1 ctx (.node y cy (.node x cx a kx vx b) ky vy c)
      ∧ s1.brk = s.brk ∧ s1.size_ = s.size_ ∧ s1.compare_ = s.compare_ := by
  obtain ⟨hndT, hndC, hdisj⟩ := Models.nodup_of_focus hf
  obtain ⟨hsub, hctx, hroot, hnd0, hfresh, hsz⟩ := hf
  obtain ⟨hx, ha, hy, hb, hc⟩ := hsub
  simp only [Tree.ptr_node] at hx hy hctx
  have hnd := hndT
  simp only [Tree.addrs, List.cons_append, List.nodup_cons, List.nodup_append, List.mem_cons,
    List.mem_append, not_or, List.append_assoc, List.disjoint_cons_left,
    List.disjoint_cons_right, List.disjoint_append_left, List.disjoint_append_right] at hnd
  have hxa : x ∉ a.addrs := by tauto
  have hxb : x ∉ b.addrs := by tauto
  have hxc : x ∉ c.addrs := by tauto
  have hya : y ∉ a.addrs := by tauto
  have hyb : y ∉ b.addrs := by tauto
  have hyc : y ∉ c.addrs := by tauto
  have hxy : x ≠ y := by tauto
  have hab : a.addrs.Disjoint b.addrs := by tauto
  have hac : a.addrs.Disjoint c.addrs := by tauto
  have hbc : b.addrs.Disjoint c.addrs := by tauto
  have hnda : a.addrs.Nodup := by tauto
  have hndb : b.addrs.Nodup := by tauto
  -- first two assignments
  obtain ⟨h1, e1, h1x, h1b, fr1⟩ := SetRight_spec hx hb hxb hndb
  have h1y : h1 y = _ := (fr1 y (Ne.symm hxy) hyb).trans hy
  have h1a : Models h1 a (some x) :=
    ha.frame (fun p hp => fr1 p (ne_of_mem_of_not_mem hp hxa) (hab hp))
  have h1c : Models h1 c (some y) :=
    hc.frame (fun p hp => fr1 p (ne_of_mem_of_not_mem hp hxc) (fun hpb => hbc hpb hp))
  have hxt : Models h1 (.node x cx a kx vx b) (Ctx.father ctx) := ⟨h1x, h1a, h1b⟩
  have hyt : y ∉ (Tree.node x cx a kx vx b).addrs := by
    simp only [Tree.addrs, List.mem_cons, List.mem_append, not_or]
    exact ⟨Ne.symm hxy, hya, hyb⟩
  have hndt : (Tree.node x cx a kx vx b).addrs.Nodup := by
    simp only [Tree.addrs, List.nodup_cons, List.nodup_append, List.mem_append, not_or]
    exact ⟨⟨hxa, hxb⟩, hnda, hndb, hab⟩
  obtain ⟨h2, e2, h2y, h2t, fr2⟩ := SetLeft_spec h1y hxt hyt hndt
  simp only [Tree.ptr_node] at e2 h2y
  have h2c : Models h2 c (some y) :=
    h1c.frame (fun p hp => fr2 p (ne_of_mem_of_not_mem hp hyc) (by
      simp only [Tree.addrs, List.mem_cons, List.mem_append, not_or]
      exact ⟨ne_of_mem_of_not_mem hp hxc, fun hpa => hac hpa hp, fun hpb => hbc hpb hp⟩))
  have hpermT : List.Perm (Tree.node x cx a kx vx (Tree.node y cy b ky vy c)).addrs
      (Tree.node y cy (Tree.node x cx a kx vx b) ky vy c).addrs := by
    rw [List.perm_iff_count]; intro q
    simp [Tree.addrs, List.count_cons, List.count_append]; omega
  have hperm := hpermT.append_right (Ctx.addrs ctx)
  have hndT1 := hpermT.nodup_iff.1 hndT
  -- nothing outside the rotated subtree has changed so far
  have hag2 : ∀ q, q ∉ (Tree.node x cx a kx vx (Tree.node y cy b ky vy c)).addrs →
      h2 q = s.heap q := by
    intro q hq
    simp only [Tree.addrs, List.mem_cons, List.mem_append, not_or] at hq
    rw [fr2 q hq.2.2.1 (by simp only [Tree.addrs, List.mem_cons, List.mem_append, not_or]; tauto),
      fr1 q hq.1 hq.2.2.2.1]
  cases ctx with
  | nil =>
    refine ⟨{ s with
      heap := h2.set y ⟨ky, vy, some x, c.ptr, none, cy⟩,
      root_ := some y }, ?_, ?_, rfl, rfl, rfl⟩
    · simp only [LeftRotate, Right_ok hx, Father_ok hx, Left_ok hy, bind, Except.bind, e1, e2,
        Ctx.father, SetFather_ok h2y, pure, Except.pure]
    · exact ⟨⟨by simp [Ctx.father], h2t.frame_set hyt, h2c.frame_set hyc⟩, trivial, rfl,
        hperm.nodup_iff.1 hnd0, fun q hq => hfresh q (hperm.mem_iff.2 hq), hsz⟩
  | cons fr rest =>
    have hfm : fr.addr ∈ Ctx.addrs (fr :: rest) := by simp [Ctx.addrs]
    have hfT : fr.addr ∉ (Tree.node x cx a kx vx (Tree.node y cy b ky vy c)).addrs :=
      fun hq => hdisj _ hq hfm
    have hfT1 : fr.addr ∉ (Tree.node y cy (Tree.node x cx a kx vx b) ky vy c).addrs :=
      fun hq => hfT (hpermT.mem_iff.2 hq)
    have hyT : Models h2 (Tree.node y cy (Tree.node x cx a kx vx b) ky vy c) (some x) :=
      ⟨h2y, h2t, h2c⟩
    have hrestag : ∀ h3 : Heap K V,
        (∀ p, p ≠ fr.addr → p ∉ (Tree.node y cy (Tree.node x cx a kx vx b) ky vy c).addrs →
          h3 p = h2 p) →
        ∀ q ∈ fr.sibling.addrs ++ Ctx.addrs rest, h3 q = s.heap q := by
      intro h3 fr3 q hq
      have hqc : q ∈ Ctx.addrs (fr :: rest) := by simp [Ctx.addrs, hq]
      have hqT : q ∉ (Tree.node x cx a kx vx (Tree.node y cy b ky vy c)).addrs :=
        fun hq1 => hdisj _ hq1 hqc
      have hqf : q ≠ fr.addr := by
        rintro rfl
        simp only [Ctx.addrs, List.nodup_cons] at hndC
        exact hndC.1 hq
      rw [fr3 q hqf (fun hq1 => hqT (hpermT.mem_iff.2 hq1)), hag2 q hqT]
    have hxs : ∀ t : Tree K V, (∀ q, q ∈ t.addrs → q ∈ Ctx.addrs (fr :: rest)) →
        t.ptr ≠ some x := by
      intro t ht hpx
      exact hdisj x (by simp [Tree.addrs]) (ht x (Tree.ptr_mem hpx))
    cases fr with
    | left f fc fk fv r =>
      have hf0 := hctx.1
      have h2f : h2 f = _ := (hag2 f hfT).trans hf0
      obtain ⟨h3, e3, h3f, h3t, fr3⟩ := SetLeft_spec h2f hyT hfT1 hndT1
      refine ⟨{ s with heap := h3 }, ?_, ?_, rfl, rfl, rfl⟩
      · simp only [LeftRotate, Right_ok hx, Father_ok hx, Left_ok hy, bind, Except.bind, e1, e2,
          Ctx.father, pure, Except.pure, Left_ok h2f, Frame.addr, if_true]
        simpa using congrArg (Except.map fun h => ({ s with heap := h } : RBTree K V)) e3
      · exact ⟨h3t, hctx.repoint_left h3f (hrestag h3 fr3),
          hroot.trans (ptr_plug_cons _ _ _ _),
          hperm.nodup_iff.1 hnd0, fun q hq => hfresh q (hperm.mem_iff.2 hq), hsz⟩
    | right f fc l fk fv =>
      have hf0 := hctx.1
      have h2f : h2 f = _ := (hag2 f hfT).trans hf0
      obtain ⟨h3, e3, h3f, h3t, fr3⟩ := SetRight_spec h2f hyT hfT1 hndT1
      have hlx : l.ptr ≠ some x := hxs l (fun q hq => by simp [Ctx.addrs, Frame.sibling, hq])
      refine ⟨{ s with heap := h3 }, ?_, ?_, rfl, rfl, rfl⟩
      · simp only [LeftRotate, Right_ok hx, Father_ok hx, Left_ok hy, bind, Except.bind, e1, e2,
          Ctx.father, pure, Except.pure, Left_ok h2f, Frame.addr, hlx, if_false]
        simpa using congrArg (Except.map fun h => ({ s with heap := h } : RBTree K V)) e3
      · exact ⟨h3t, hctx.repoint_right h3f (hrestag h3 fr3),
          hroot.trans (ptr_plug_cons _ _ _ _),
          hperm.nodup_iff.1 hnd0, fun q hq => hfresh q (hperm.mem_iff.2 hq), hsz⟩

theorem RightRotate_focus {s : RBTree K V} {ctx : Ctx K V} {x y : Nat} {cx cy : Color}
    {a b c : Tree K V} {kx ky : K} {vx vy : V}
    (hf : Focus s ctx (.node x cx (.node y cy b ky vy c) kx vx a)) :
    ∃ s1, RightRotate s (some x) = .ok s1
      ∧ Focus s1 ctx (.node y cy b ky vy (.node x cx c kx vx a))
      ∧ s1.brk = s.brk ∧ s1.size_ = s.size_ ∧ s1.compare_ = s.compare_ := by
  obtain ⟨hndT, hndC, hdisj⟩ := Models.nodup_of_focus hf
  obtain ⟨hsub, hctx, hroot, hnd0, hfresh, hsz⟩ := hf
  obtain ⟨hx, ⟨hy, hb, hc⟩, ha⟩ := hsub
  simp only [Tree.ptr_node] at hx hy hctx
  have hnd := hndT
  simp only [Tree.addrs, List.cons_append, List.nodup_cons, List.nodup_append, List.mem_cons,
    List.mem_append, not_or, List.append_assoc, List.disjoint_cons_left,
    List.disjoint_cons_right, List.disjoint_append_left, List.disjoint_append_right] at hnd
  have hxa : x ∉ a.addrs := by tauto
  have hxb : x ∉ b.addrs := by tauto
  have hxc : x ∉ c.addrs := by tauto
  have hya : y ∉ a.addrs := by tauto
  have hyb : y ∉ b.addrs := by tauto
  have hyc : y ∉ c.addrs := by tauto
  have hxy : x ≠ y := by tauto
  have hca : c.addrs.Disjoint a.addrs := by tauto
  have hba : b.addrs.Disjoint a.addrs := by tauto
  have hbc : b.addrs.Disjoint c.addrs := by tauto
  have hnda : a.addrs.Nodup := by tauto
  have hndc : c.addrs.Nodup := by tauto
  -- first two assignments
  obtain ⟨h1, e1, h1x, h1c, fr1⟩ := SetLeft_spec hx hc hxc hndc
  have h1y : h1 y = _ := (fr1 y (Ne.symm hxy) hyc).trans hy
  have h1a : Models h1 a (some x) :=
    ha.frame (fun p hp => fr1 p (ne_of_mem_of_not_mem hp hxa) (fun hpc => hca hpc hp))
  have h1b : Models h1 b (some y) :=
    hb.frame (fun p hp => fr1 p (ne_of_mem_of_not_mem hp hxb) (hbc hp))
  have hxt : Models h1 (.node x cx c kx vx a) (Ctx.father ctx) := ⟨h1x, h1c, h1a⟩
  have hyt : y ∉ (Tree.node x cx c kx vx a).addrs := by
    simp only [Tree.addrs, List.mem_cons, List.mem_append, not_or]
    exact ⟨Ne.symm hxy, hyc, hya⟩
  have hndt : (Tree.node x cx c kx vx a).addrs.Nodup := by
    simp only [Tree.addrs, List.nodup_cons, List.nodup_append, List.mem_append, not_or]
    exact ⟨⟨hxc, hxa⟩, hndc, hnda, hca⟩
  obtain ⟨h2, e2, h2y, h2t, fr2⟩ := SetRight_spec h1y hxt hyt hndt
  simp only [Tree.ptr_node] at e2 h2y
  have h2b : Models h2 b (some y) :=
    h1b.frame (fun p hp => fr2 p (ne_of_mem_of_not_mem hp hyb) (by
      simp only [Tree.addrs, List.mem_cons, List.mem_append, not_or]
      exact ⟨ne_of_mem_of_not_mem hp hxb, hbc hp, hba hp⟩))
  have hpermT : List.Perm (Tree.node x cx (Tree.node y cy b ky vy c) kx vx a).addrs
      (Tree.node y cy b ky vy (Tree.node x cx c kx vx a)).addrs := by
    rw [List.perm_iff_count]; intro q
    simp [Tree.addrs, List.count_cons, List.count_append]; omega
  have hperm := hpermT.append_right (Ctx.addrs ctx)
  have hndT1 := hpermT.nodup_iff.1 hndT
  -- nothing outside the rotated subtree has changed so far
  have hag2 : ∀ q, q ∉ (Tree.node x cx (Tree.node y cy b ky vy c) kx vx a).addrs →
      h2 q = s.heap q := by
    intro q hq
    simp only [Tree.addrs, List.mem_cons, List.mem_append, not_or] at hq
    rw [fr2 q hq.2.1.1 (by simp only [Tree.addrs, List.mem_cons, List.mem_append, not_or]; tauto),
      fr1 q hq.1 hq.2.1.2.2]
  cases ctx with
  | nil =>
    refine ⟨{ s with
      heap := h2.set y ⟨ky, vy, b.ptr, some x, none, cy⟩,
      root_ := some y }, ?_, ?_, rfl, rfl, rfl⟩
    · simp only [RightRotate, Left_ok hx, Father_ok hx, Right_ok hy, bind, Except.bind, e1, e2,
        Ctx.father, SetFather_ok h2y, pure, Except.pure]
    · exact ⟨⟨by simp [Ctx.father], h2b.frame_set hyb, h2t.frame_set hyt⟩, trivial, rfl,
        hperm.nodup_iff.1 hnd0, fun q hq => hfresh q (hperm.mem_iff.2 hq), hsz⟩
  | cons fr rest =>
    have hfm : fr.addr ∈ Ctx.addrs (fr :: rest) := by simp [Ctx.addrs]
    have hfT : fr.addr ∉ (Tree.node x cx (Tree.node y cy b ky vy c) kx vx a).addrs :=
      fun hq => hdisj _ hq hfm
    have hfT1 : fr.addr ∉ (Tree.node y cy b ky vy (Tree.node x cx c kx vx a)).addrs :=
      fun hq => hfT (hpermT.mem_iff.2 hq)
    have hyT : Models h2 (Tree.node y cy b ky vy (Tree.node x cx c kx vx a)) (some x) :=
      ⟨h2y, h2b, h2t⟩
    have hrestag : ∀ h3 : Heap K V,
        (∀ p, p ≠ fr.addr → p ∉ (Tree.node y cy b ky vy (Tree.node x cx c kx vx a)).addrs →
          h3 p = h2 p) →
        ∀ q ∈ fr.sibling.addrs ++ Ctx.addrs rest, h3 q = s.heap q := by
      intro h3 fr3 q hq
      have hqc : q ∈ Ctx.addrs (fr :: rest) := by simp [Ctx.addrs, hq]
      have hqT : q ∉ (Tree.node x cx (Tree.node y cy b ky vy c) kx vx a).addrs :=
        fun hq1 => hdisj _ hq1 hqc
      have hqf : q ≠ fr.addr := by
        rintro rfl
        simp only [Ctx.addrs, List.nodup_cons] at hndC
        exact hndC.1 hq
      rw [fr3 q hqf (fun hq1 => hqT (hpermT.mem_iff.2 hq1)), hag2 q hqT]
    have hxs : ∀ t : Tree K V, (∀ q, q ∈ t.addrs → q ∈ Ctx.addrs (fr :: rest)) →
        t.ptr ≠ some x := by
      intro t ht hpx
      exact hdisj x (by simp [Tree.addrs]) (ht x (Tree.ptr_mem hpx))
    cases fr with
    | left f fc fk fv r =>
      have hf0 := hctx.1
      have h2f : h2 f = _ := (hag2 f hfT).trans hf0
      obtain ⟨h3, e3, h3f, h3t, fr3⟩ := SetLeft_spec h2f hyT hfT1 hndT1
      refine ⟨{ s with heap := h3 }, ?_, ?_, rfl, rfl, rfl⟩
      · simp only [RightRotate, Left_ok hx, Father_ok hx, Right_ok hy, bind, Except.bind, e1, e2,
          Ctx.father, pure, Except.pure, Left_ok h2f, Frame.addr, if_true]
        simpa using congrArg (Except.map fun h => ({ s with heap := h } : RBTree K V)) e3
      · exact ⟨h3t, hctx.repoint_left h3f (hrestag h3 fr3),
          hroot.trans (ptr_plug_cons _ _ _ _),
          hperm.nodup_iff.1 hnd0, fun q hq => hfresh q (hperm.mem_iff.2 hq), hsz⟩
    | right f fc l fk fv =>
      have hf0 := hctx.1
      have h2f : h2 f = _ := (hag2 f hfT).trans hf0
      obtain ⟨h3, e3, h3f, h3t, fr3⟩ := SetRight_spec h2f hyT hfT1 hndT1
      have hlx : l.ptr ≠ some x := hxs l (fun q hq => by simp [Ctx.addrs, Frame.sibling, hq])
      refine ⟨{ s with heap := h3 }, ?_, ?_, rfl, rfl, rfl⟩
      · simp only [RightRotate, Left_ok hx, Father_ok hx, Right_ok hy, bind, Except.bind, e1, e2,
          Ctx.father, pure, Except.pure, Left_ok h2f, Frame.addr, hlx, if_false]
        simpa using congrArg (Except.map fun h => ({ s with heap := h } : RBTree K V)) e3
      · exact ⟨h3t, hctx.repoint_right h3f (hrestag h3 fr3),
          hroot.trans (ptr_plug_cons _ _ _ _),
          hperm.nodup_iff.1 hnd0, fun q hq => hfresh q (hperm.mem_iff.2 hq), hsz⟩

end Rot

section FixStep
variable {K V : Type}

theorem ptr_plug_congr (ctx : Ctx K V) {t t1 : Tree K V} (hp : t.ptr = t1.ptr) :
    (plug ctx t).ptr = (plug ctx t1).ptr := by
  cases ctx with
  | nil => exact hp
  | cons fr rest => exact ptr_plug_cons fr rest t t1

theorem Focus.up {s : RBTree K V} {fr : Frame K V} {ctx : Ctx K V} {t : Tree K V}
    (hf : Focus s (fr :: ctx) t) : Focus s ctx (fr.fill t) :=
  (focus_iff s ctx (fr.fill t)).1 ((focus_iff s (fr :: ctx) t).2 hf)

theorem Focus.down {s : RBTree K V} {fr : Frame K V} {ctx : Ctx K V} {t : Tree K V}
    (hf : Focus s ctx (fr.fill t)) : Focus s (fr :: ctx) t :=
  (focus_iff s (fr :: ctx) t).1 ((focus_iff s ctx (fr.fill t)).2 hf)

/-- Overwriting key-independent data of the focused node: colour and value. -/
theorem Focus.setNode {s : RBTree K V} {ctx : Ctx K V} {a : Nat} {c : Color} {l r : Tree K V}
    {k : K} {v : V} (hf : Focus s ctx (.node a c l k v r)) (c1 : Color) (v1 : V) :
    Focus { s with heap := s.heap.set a ⟨k, v1, l.ptr, r.ptr, Ctx.father ctx, c1⟩ } ctx
      (.node a c1 l k v1 r) := by
  obtain ⟨⟨ha, hl, hr⟩, hctx, hroot, hnd, hfresh, hsz⟩ := hf
  have hnd1 := hnd
  simp only [Tree.addrs, List.cons_append, List.nodup_cons, List.mem_append, not_or] at hnd1
  exact ⟨⟨Heap.set_same _ _ _, hl.frame_set hnd1.1.1.1, hr.frame_set hnd1.1.1.2⟩,
    hctx.frame_set_ctx hnd1.1.2, hroot.trans (ptr_plug_congr ctx rfl), hnd, hfresh, hsz⟩

theorem SetColor_focus {s : RBTree K V} {ctx : Ctx K V} {a : Nat} {c : Color} {l r : Tree K V}
    {k : K} {v : V} (hf : Focus s ctx (.node a c l k v r)) (c1 : Color) :
    ∃ h1, SetColor s.heap (some a) c1 = .ok h1
      ∧ Focus { s with heap := h1 } ctx (.node a c1 l k v r) :=
  ⟨_, SetColor_ok hf.sub.1 c1, hf.setNode c1 v⟩

theorem SetValue_focus {s : RBTree K V} {ctx : Ctx K V} {a : Nat} {c : Color} {l r : Tree K V}
    {k : K} {v : V} (hf : Focus s ctx (.node a c l k v r)) (v1 : V) :
    ∃ h1, SetValue s.heap (some a) v1 = .ok h1
      ∧ Focus { s with heap := h1 } ctx (.node a c l k v1 r) :=
  ⟨_, SetValue_ok hf.sub.1 v1, hf.setNode c v1⟩

theorem nonNullRed_tree {h : Heap K V} {u : Tree K V} {f : Option Nat} (hu : Models h u f) :
    nonNullRed h u.ptr = .ok u.isRed := by
  cases u with
  | nil => rfl
  | node a c l k v r =>
    simp only [nonNullRed, Tree.ptr_node, Red_ok hu.1]
    cases c <;> rfl

theorem Tree.ptr_ne_of_not_mem {t : Tree K V} {a : Nat} (ha : a ∉ t.addrs) :
    t.ptr ≠ some a :=
  fun hp => ha (Tree.ptr_mem hp)

end FixStep

section FixStep2
variable {K V : Type}

theorem InsertFixUp_step {s : RBTree K V} {ctx : Ctx K V} {ca : Nat} {cc : Color}
    {cl cr : Tree K V} {ck : K} {cv : V} (hf : Focus s ctx (.node ca cc cl ck cv cr)) :
    match fixStep ctx (.node ca cc cl ck cv cr) with
    | .done t1 => ∃ s1, (∀ fuel, InsertFixUp (fuel + 1) s (some ca) = .ok s1) ∧ Rep s1 t1
        ∧ s1.brk = s.brk ∧ s1.size_ = s.size_ ∧ s1.compare_ = s.compare_
    | .cont ctx1 t1 => ∃ s1 a1, t1.ptr = some a1
        ∧ (∀ fuel, InsertFixUp (fuel + 1) s (some ca) = InsertFixUp fuel s1 (some a1))
        ∧ Focus s1 ctx1 t1
        ∧ s1.brk = s.brk ∧ s1.size_ = s.size_ ∧ s1.compare_ = s.compare_ := by
  have hcur := hf.sub.1
  match ctx, hf with
  | [], hf =>
    obtain ⟨h1, e1, hf1⟩ := SetColor_focus hf Color.BLACK
    refine ⟨_, fun fuel => ?_, (focus_iff _ [] _).2 hf1, rfl, rfl, rfl⟩
    simp only [InsertFixUp, Father_ok hcur, Ctx.father, bind, Except.bind, e1, pure, Except.pure]
  | [.left fa fc fk fv sb], hf =>
    have hF := hf.around.1
    refine ⟨s, fun fuel => ?_, (focus_iff _ [_] _).2 hf, rfl, rfl, rfl⟩
    simp only [InsertFixUp, Father_ok hcur, Ctx.father, bind, Except.bind, pure, Except.pure,
      Red_ok hF, Father_ok hF, Frame.addr]
    cases fc <;> simp
  | [.right fa fc sb fk fv], hf =>
    have hF := hf.around.1
    refine ⟨s, fun fuel => ?_, (focus_iff _ [_] _).2 hf, rfl, rfl, rfl⟩
    simp only [InsertFixUp, Father_ok hcur, Ctx.father, bind, Except.bind, pure, Except.pure,
      Red_ok hF, Father_ok hF, Frame.addr]
    cases fc <;> simp
  | .left fa fc fk fv sb :: .left ga gc gk gv u :: rest, hf =>
    have hF := hf.around.1
    have hG := hf.around.2.2.1
    have hU := hf.around.2.2.2.1
    have hnd := hf.nodup
    simp only [Tree.addrs, Ctx.addrs, Frame.addr, Frame.sibling, List.cons_append,
      List.nodup_cons, List.nodup_append, List.mem_cons,
      List.mem_append, not_or, List.append_assoc, List.disjoint_cons_left,
      List.disjoint_cons_right, List.disjoint_append_left, List.disjoint_append_right] at hnd
    have hcs : ca ∉ sb.addrs := by tauto
    cases fc with
    | BLACK =>
      refine ⟨s, fun fuel => ?_, (focus_iff _ _ _).2 hf, rfl, rfl, rfl⟩
      simp [InsertFixUp, Father_ok hcur, Ctx.father, bind, Except.bind, pure, Except.pure,
        Red_ok hF, Father_ok hF, Frame.addr]
    | RED =>
      simp only [fixStep, Frame.color, if_false]
      cases hu : u.isRed with
      | true =>
        cases u with
        | nil => simp [Tree.isRed] at hu
        | node ua uc ul uk uv ur =>
          cases uc with
          | BLACK => simp [Tree.isRed] at hu
          | RED =>
            simp only [if_true, Tree.setColor]
            have f0 : Focus s (.left ga gc gk gv (.node ua Color.RED ul uk uv ur) :: rest)
                (.node fa Color.RED (.node ca cc cl ck cv cr) fk fv sb) := hf.up
            obtain ⟨h1, e1, f1⟩ := SetColor_focus f0 Color.BLACK
            have f1a : Focus { s with heap := h1 }
                (.right ga gc (.node fa Color.BLACK (.node ca cc cl ck cv cr) fk fv sb) gk gv
                  :: rest) (.node ua Color.RED ul uk uv ur) := Focus.down f1.up
            obtain ⟨h2, e2, f2⟩ := SetColor_focus f1a Color.BLACK
            obtain ⟨h3, e3, f3⟩ := SetColor_focus f2.up Color.RED
            have hUr : nonNullRed s.heap (some ua) = .ok true := nonNullRed_tree hU
            refine ⟨{ s with heap := h3 }, ga, rfl, fun fuel => ?_, f3, rfl, rfl, rfl⟩
            simp only [InsertFixUp, Father_ok hcur, Ctx.father, bind, Except.bind, pure,
              Except.pure, Red_ok hF, Father_ok hF, Frame.addr, Left_ok hG, Right_ok hG,
              hUr, Tree.ptr_node, e1]
            simp [e2, e3]
      | false =>
        simp only [Bool.false_eq_true, if_false]
        have f0 : Focus s rest
            (.node ga gc (.node fa Color.RED (.node ca cc cl ck cv cr) fk fv sb) gk gv u) :=
          hf.up.up
        obtain ⟨s1, e1, f1, hb1, hs1, hc1⟩ := RightRotate_focus f0
        have f1a : Focus s1 (.right fa Color.RED (.node ca cc cl ck cv cr) fk fv :: rest)
            (.node ga gc sb gk gv u) := Focus.down f1
        obtain ⟨h2, e2, f2⟩ := SetColor_focus f1a Color.RED
        obtain ⟨h3, e3, f3⟩ := SetColor_focus f2.up Color.BLACK
        refine ⟨{ s1 with heap := h3 }, fun fuel => ?_, (focus_iff _ _ _).2 f3, hb1, hs1, hc1⟩
        simp only [InsertFixUp, Father_ok hcur, Ctx.father, bind, Except.bind, pure,
          Except.pure, Red_ok hF, Father_ok hF, Frame.addr, Left_ok hG, Right_ok hG,
          Right_ok hF, nonNullRed_tree hU, hu, Tree.ptr_ne_of_not_mem hcs, e1]
        simp [e2, e3]
  | .right fa fc sb fk fv :: .left ga gc gk gv u :: rest, hf =>
    have hF := hf.around.1
    have hG := hf.around.2.2.1
    have hU := hf.around.2.2.2.1
    cases fc with
    | BLACK =>
      refine ⟨s, fun fuel => ?_, (focus_iff _ _ _).2 hf, rfl, rfl, rfl⟩
      simp [InsertFixUp, Father_ok hcur, Ctx.father, bind, Except.bind, pure, Except.pure,
        Red_ok hF, Father_ok hF, Frame.addr]
    | RED =>
      simp only [fixStep, Frame.color, if_false]
      cases hu : u.isRed with
      | true =>
        cases u with
        | nil => simp [Tree.isRed] at hu
        | node ua uc ul uk uv ur =>
          cases uc with
          | BLACK => simp [Tree.isRed] at hu
          | RED =>
            simp only [if_true, Tree.setColor]
            have f0 : Focus s (.left ga gc gk gv (.node ua Color.RED ul uk uv ur) :: rest)
                (.node fa Color.RED sb fk fv (.node ca cc cl ck cv cr)) := hf.up
            obtain ⟨h1, e1, f1⟩ := SetColor_focus f0 Color.BLACK
            have f1a : Focus { s with heap := h1 }
                (.right ga gc (.node fa Color.BLACK sb fk fv (.node ca cc cl ck cv cr)) gk gv
                  :: rest) (.node ua Color.RED ul uk uv ur) := Focus.down f1.up
            obtain ⟨h2, e2, f2⟩ := SetColor_focus f1a Color.BLACK
            obtain ⟨h3, e3, f3⟩ := SetColor_focus f2.up Color.RED
            have hUr : nonNullRed s.heap (some ua) = .ok true := nonNullRed_tree hU
            refine ⟨{ s with heap := h3 }, ga, rfl, fun fuel => ?_, f3, rfl, rfl, rfl⟩
            simp only [InsertFixUp, Father_ok hcur, Ctx.father, bind, Except.bind, pure,
              Except.pure, Red_ok hF, Father_ok hF, Frame.addr, Left_ok hG, Right_ok hG,
              hUr, Tree.ptr_node, e1]
            simp [e2, e3]
      | false =>
        simp only [Bool.false_eq_true, if_false]
        have f0 : Focus s (.left ga gc gk gv u :: rest)
            (.node fa Color.RED sb fk fv (.node ca cc cl ck cv cr)) := hf.up
        obtain ⟨s1, e1, f1, hb1, hs1, hc1⟩ := LeftRotate_focus f0
        have f1a : Focus s1 (.left ca cc ck cv cr :: .left ga gc gk gv u :: rest)
            (.node fa Color.RED sb fk fv cl) := Focus.down f1
        refine ⟨s1, fa, rfl, fun fuel => ?_, f1a, hb1, hs1, hc1⟩
        simp only [InsertFixUp, Father_ok hcur, Ctx.father, bind, Except.bind, pure,
          Except.pure, Red_ok hF, Father_ok hF, Frame.addr, Left_ok hG, Right_ok hG,
          Right_ok hF, nonNullRed_tree hU, hu, e1, Tree.ptr_node]
        simp
  | .right fa fc sb fk fv :: .right ga gc u gk gv :: rest, hf =>
    have hF := hf.around.1
    have hG := hf.around.2.2.1
    have hU := hf.around.2.2.2.1
    have hnd := hf.nodup
    simp only [Tree.addrs, Ctx.addrs, Frame.addr, Frame.sibling, List.cons_append,
      List.nodup_cons, List.nodup_append, List.mem_cons,
      List.mem_append, not_or, List.append_assoc, List.disjoint_cons_left,
      List.disjoint_cons_right, List.disjoint_append_left, List.disjoint_append_right] at hnd
    have hcs : ca ∉ sb.addrs := by tauto
    have hfu : fa ∉ u.addrs := by tauto
    cases fc with
    | BLACK =>
      refine ⟨s, fun fuel => ?_, (focus_iff _ _ _).2 hf, rfl, rfl, rfl⟩
      simp [InsertFixUp, Father_ok hcur, Ctx.father, bind, Except.bind, pure, Except.pure,
        Red_ok hF, Father_ok hF, Frame.addr]
    | RED =>
      simp only [fixStep, Frame.color, if_false]
      cases hu : u.isRed with
      | true =>
        cases u with
        | nil => simp [Tree.isRed] at hu
        | node ua uc ul uk uv ur =>
          cases uc with
          | BLACK => simp [Tree.isRed] at hu
          | RED =>
            simp only [if_true, Tree.setColor]
            have f0 : Focus s (.right ga gc (.node ua Color.RED ul uk uv ur) gk gv :: rest)
                (.node fa Color.RED sb fk fv (.node ca cc cl ck cv cr)) := hf.up
            obtain ⟨h1, e1, f1⟩ := SetColor_focus f0 Color.BLACK
            have f1a : Focus { s with heap := h1 }
                (.left ga gc gk gv (.node fa Color.BLACK sb fk fv (.node ca cc cl ck cv cr))
                  :: rest) (.node ua Color.RED ul uk uv ur) := Focus.down f1.up
            obtain ⟨h2, e2, f2⟩ := SetColor_focus f1a Color.BLACK
            obtain ⟨h3, e3, f3⟩ := SetColor_focus f2.up Color.RED
            have hUr : nonNullRed s.heap (some ua) = .ok true := nonNullRed_tree hU
            have hne : ¬ (ua = fa) := by
              simp only [Tree.addrs, List.mem_cons, not_or] at hfu
              exact fun e => hfu.1 e.symm
            refine ⟨{ s with heap := h3 }, ga, rfl, fun fuel => ?_, f3, rfl, rfl, rfl⟩
            simp only [InsertFixUp, Father_ok hcur, Ctx.father, bind, Except.bind, pure,
              Except.pure, Red_ok hF, Father_ok hF, Frame.addr, Left_ok hG, Right_ok hG,
              hUr, Tree.ptr_node, e1, Option.some.injEq, hne, if_false]
            simp [e2, e3]
      | false =>
        simp only [Bool.false_eq_true, if_false]
        have f0 : Focus s rest
            (.node ga gc u gk gv (.node fa Color.RED sb fk fv (.node ca cc cl ck cv cr))) :=
          hf.up.up
        obtain ⟨s1, e1, f1, hb1, hs1, hc1⟩ := LeftRotate_focus f0
        have f1a : Focus s1 (.left fa Color.RED fk fv (.node ca cc cl ck cv cr) :: rest)
            (.node ga gc u gk gv sb) := Focus.down f1
        obtain ⟨h2, e2, f2⟩ := SetColor_focus f1a Color.RED
        obtain ⟨h3, e3, f3⟩ := SetColor_focus f2.up Color.BLACK
        refine ⟨{ s1 with heap := h3 }, fun fuel => ?_, (focus_iff _ _ _).2 f3, hb1, hs1, hc1⟩
        simp only [InsertFixUp, Father_ok hcur, Ctx.father, bind, Except.bind, pure,
          Except.pure, Red_ok hF, Father_ok hF, Frame.addr, Left_ok hG, Right_ok hG,
          Left_ok hF, nonNullRed_tree hU, hu, Tree.ptr_ne_of_not_mem hcs,
          Tree.ptr_ne_of_not_mem hfu, e1]
        simp [e2, e3]
  | .left fa fc fk fv sb :: .right ga gc u gk gv :: rest, hf =>
    have hF := hf.around.1
    have hG := hf.around.2.2.1
    have hU := hf.around.2.2.2.1
    have hnd := hf.nodup
    simp only [Tree.addrs, Ctx.addrs, Frame.addr, Frame.sibling, List.cons_append,
      List.nodup_cons, List.nodup_append, List.mem_cons,
      List.mem_append, not_or, List.append_assoc, List.disjoint_cons_left,
      List.disjoint_cons_right, List.disjoint_append_left, List.disjoint_append_right] at hnd
    have hfu : fa ∉ u.addrs := by tauto
    cases fc with
    | BLACK =>
      refine ⟨s, fun fuel => ?_, (focus_iff _ _ _).2 hf, rfl, rfl, rfl⟩
      simp [InsertFixUp, Father_ok hcur, Ctx.father, bind, Except.bind, pure, Except.pure,
        Red_ok hF, Father_ok hF, Frame.addr]
    | RED =>
      simp only [fixStep, Frame.color, if_false]
      cases hu : u.isRed with
      | true =>
        cases u with
        | nil => simp [Tree.isRed] at hu
        | node ua uc ul uk uv ur =>
          cases uc with
          | BLACK => simp [Tree.isRed] at hu
          | RED =>
            simp only [if_true, Tree.setColor]
            have f0 : Focus s (.right ga gc (.node ua Color.RED ul uk uv ur) gk gv :: rest)
                (.node fa Color.RED (.node ca cc cl ck cv cr) fk fv sb) := hf.up
            obtain ⟨h1, e1, f1⟩ := SetColor_focus f0 Color.BLACK
            have f1a : Focus { s with heap := h1 }
                (.left ga gc gk gv (.node fa Color.BLACK (.node ca cc cl ck cv cr) fk fv sb)
                  :: rest) (.node ua Color.RED ul uk uv ur) := Focus.down f1.up
            obtain ⟨h2, e2, f2⟩ := SetColor_focus f1a Color.BLACK
            obtain ⟨h3, e3, f3⟩ := SetColor_focus f2.up Color.RED
            have hUr : nonNullRed s.heap (some ua) = .ok true := nonNullRed_tree hU
            have hne : ¬ (ua = fa) := by
              simp only [Tree.addrs, List.mem_cons, not_or] at hfu
              exact fun e => hfu.1 e.symm
            refine ⟨{ s with heap := h3 }, ga, rfl, fun fuel => ?_, f3, rfl, rfl, rfl⟩
            simp only [InsertFixUp, Father_ok hcur, Ctx.father, bind, Except.bind, pure,
              Except.pure, Red_ok hF, Father_ok hF, Frame.addr, Left_ok hG, Right_ok hG,
              hUr, Tree.ptr_node, e1, Option.some.injEq, hne, if_false]
            simp [e2, e3]
      | false =>
        simp only [Bool.false_eq_true, if_false]
        have f0 : Focus s (.right ga gc u gk gv :: rest)
            (.node fa Color.RED (.node ca cc cl ck cv cr) fk fv sb) := hf.up
        obtain ⟨s1, e1, f1, hb1, hs1, hc1⟩ := RightRotate_focus f0
        have f1a : Focus s1 (.right ca cc cl ck cv :: .right ga gc u gk gv :: rest)
            (.node fa Color.RED cr fk fv sb) := Focus.down f1
        refine ⟨s1, fa, rfl, fun fuel => ?_, f1a, hb1, hs1, hc1⟩
        simp only [InsertFixUp, Father_ok hcur, Ctx.father, bind, Except.bind, pure,
          Except.pure, Red_ok hF, Father_ok hF, Frame.addr, Left_ok hG, Right_ok hG,
          Left_ok hF, nonNullRed_tree hU, hu, e1, Tree.ptr_node,
          Tree.ptr_ne_of_not_mem hfu]
        simp

end FixStep2

section FixLoop
variable {K V : Type}

theorem fixLoop_succ {fuel : Nat} {ctx : Ctx K V} {t t1 : Tree K V}
    (h : fixLoop fuel ctx t = some t1) : fixLoop (fuel + 1) ctx t = some t1 := by
  induction fuel generalizing ctx t with
  | zero => simp [fixLoop] at h
  | succ n ih =>
    rw [fixLoop] at h ⊢
    cases hs : fixStep ctx t with
    | done t2 => rw [hs] at h; exact h
    | cont ctx2 t2 => rw [hs] at h; exact ih h

theorem fixLoop_mono {fuel fuel1 : Nat} {ctx : Ctx K V} {t t1 : Tree K V}
    (h : fixLoop fuel ctx t = some t1) (hle : fuel ≤ fuel1) :
    fixLoop fuel1 ctx t = some t1 := by
  induction hle with
  | refl => exact h
  | step _ ih => exact fixLoop_succ ih

theorem fixStep_black (f g : Frame K V) (rest : Ctx K V) (t : Tree K V)
    (hc : f.color = Color.BLACK) :
    fixStep (f :: g :: rest) t = .done (plug (f :: g :: rest) t) := by
  simp [fixStep, hc]

theorem fixStep_ll (fa ga : Nat) (gc : Color) (fk gk : K) (fv gv : V) (sb u : Tree K V)
    (rest : Ctx K V) (t : Tree K V) :
    fixStep (.left fa Color.RED fk fv sb :: .left ga gc gk gv u :: rest) t =
      if u.isRed then
        .cont rest (.node ga Color.RED (.node fa Color.BLACK t fk fv sb) gk gv
          (u.setColor Color.BLACK))
      else .done (plug rest (.node fa Color.BLACK t fk fv (.node ga Color.RED sb gk gv u))) := by
  simp [fixStep, Frame.color]

theorem fixStep_rr (fa ga : Nat) (gc : Color) (fk gk : K) (fv gv : V) (sb u : Tree K V)
    (rest : Ctx K V) (t : Tree K V) :
    fixStep (.right fa Color.RED sb fk fv :: .right ga gc u gk gv :: rest) t =
      if u.isRed then
        .cont rest (.node ga Color.RED (u.setColor Color.BLACK) gk gv
          (.node fa Color.BLACK sb fk fv t))
      else .done (plug rest (.node fa Color.BLACK (.node ga Color.RED u gk gv sb) fk fv t)) := by
  simp [fixStep, Frame.color]

theorem fixStep_lr (fa ga ca : Nat) (gc cc : Color) (fk gk ck : K) (fv gv cv : V)
    (sb u cl cr : Tree K V) (rest : Ctx K V) :
    fixStep (.right fa Color.RED sb fk fv :: .left ga gc gk gv u :: rest)
        (.node ca cc cl ck cv cr) =
      if u.isRed then
        .cont rest (.node ga Color.RED (.node fa Color.BLACK sb fk fv (.node ca cc cl ck cv cr))
          gk gv (u.setColor Color.BLACK))
      else
        .cont (.left ca cc ck cv cr :: .left ga gc gk gv u :: rest)
          (.node fa Color.RED sb fk fv cl) := by
  simp [fixStep, Frame.color]

theorem fixStep_rl (fa ga ca : Nat) (gc cc : Color) (fk gk ck : K) (fv gv cv : V)
    (sb u cl cr : Tree K V) (rest : Ctx K V) :
    fixStep (.left fa Color.RED fk fv sb :: .right ga gc u gk gv :: rest)
        (.node ca cc cl ck cv cr) =
      if u.isRed then
        .cont rest (.node ga Color.RED (u.setColor Color.BLACK) gk gv
          (.node fa Color.BLACK (.node ca cc cl ck cv cr) fk fv sb))
      else
        .cont (.right ca cc cl ck cv :: .right ga gc u gk gv :: rest)
          (.node fa Color.RED cr fk fv sb) := by
  simp [fixStep, Frame.color]

/-- From a node, the loop on trees stops within `ctx.length + 1` iterations. -/
theorem fixLoop_total (n : Nat) : ∀ (ctx : Ctx K V) (ca : Nat) (cc : Color) (cl : Tree K V)
    (ck : K) (cv : V) (cr : Tree K V), ctx.length ≤ n →
    ∃ t1, fixLoop (ctx.length + 1) ctx (.node ca cc cl ck cv cr) = some t1 := by
  induction n using Nat.strong_induction_on with
  | _ n ih =>
    intro ctx ca cc cl ck cv cr hn
    match ctx, hn with
    | [], _ => exact ⟨_, rfl⟩
    | [f], _ => exact ⟨_, rfl⟩
    | f :: g :: rest, hn =>
      have hrec : ∀ a c l k v r, ∃ t1,
          fixLoop (rest.length + 1 + 1) rest (.node a c l k v r) = some t1 := by
        intro a c l k v r
        obtain ⟨t1, h1⟩ := ih rest.length (by simp at hn; omega) rest a c l k v r le_rfl
        exact ⟨t1, fixLoop_succ h1⟩
      simp only [List.length_cons]
      by_cases hc : f.color = Color.BLACK
      · rw [fixLoop, fixStep_black f g rest _ hc]; exact ⟨_, rfl⟩
      · cases g with
        | left ga gc gk gv u =>
          cases f with
          | left fa fc fk fv sb =>
            cases fc with
            | BLACK => exact absurd rfl hc
            | RED =>
              rw [fixLoop, fixStep_ll]
              by_cases hu : u.isRed = true
              · rw [if_pos hu]; exact hrec _ _ _ _ _ _
              · rw [if_neg hu]; exact ⟨_, rfl⟩
          | right fa fc sb fk fv =>
            cases fc with
            | BLACK => exact absurd rfl hc
            | RED =>
              rw [fixLoop, fixStep_lr]
              by_cases hu : u.isRed = true
              · rw [if_pos hu]; exact hrec _ _ _ _ _ _
              · rw [if_neg hu]
                show ∃ t1, fixLoop (rest.length + 1 + 1) _ _ = some t1
                cases cc with
                | BLACK =>
                  rw [fixLoop, fixStep_black (.left ca Color.BLACK ck cv cr) _ _ _ rfl]
                  exact ⟨_, rfl⟩
                | RED =>
                  rw [fixLoop, fixStep_ll, if_neg hu]; exact ⟨_, rfl⟩
        | right ga gc u gk gv =>
          cases f with
          | right fa fc sb fk fv =>
            cases fc with
            | BLACK => exact absurd rfl hc
            | RED =>
              rw [fixLoop, fixStep_rr]
              by_cases hu : u.isRed = true
              · rw [if_pos hu]; exact hrec _ _ _ _ _ _
              · rw [if_neg hu]; exact ⟨_, rfl⟩
          | left fa fc fk fv sb =>
            cases fc with
            | BLACK => exact absurd rfl hc
            | RED =>
              rw [fixLoop, fixStep_rl]
              by_cases hu : u.isRed = true
              · rw [if_pos hu]; exact hrec _ _ _ _ _ _
              · rw [if_neg hu]
                show ∃ t1, fixLoop (rest.length + 1 + 1) _ _ = some t1
                cases cc with
                | BLACK =>
                  rw [fixLoop, fixStep_black (.right ca Color.BLACK cl ck cv) _ _ _ rfl]
                  exact ⟨_, rfl⟩
                | RED =>
                  rw [fixLoop, fixStep_rr, if_neg hu]; exact ⟨_, rfl⟩

theorem fixup_eq {ctx : Ctx K V} {t t1 : Tree K V} {fuel : Nat} (hn : t ≠ .nil)
    (h : fixLoop fuel ctx t = some t1) : fixup ctx t = t1 := by
  cases t with
  | nil => exact absurd rfl hn
  | node ca cc cl ck cv cr =>
  obtain ⟨t2, h2⟩ := fixLoop_total ctx.length ctx ca cc cl ck cv cr le_rfl
  have := fixLoop_mono h (Nat.le_max_left fuel (ctx.length + 1))
  have h3 := fixLoop_mono h2 (Nat.le_max_right fuel (ctx.length + 1))
  rw [this] at h3
  simp [fixup, h2, Option.some.inj h3]

theorem fixLoop_fixup (ctx : Ctx K V) (ca : Nat) (cc : Color) (cl : Tree K V) (ck : K) (cv : V)
    (cr : Tree K V) {fuel : Nat} (hfuel : ctx.length + 1 ≤ fuel) :
    fixLoop fuel ctx (.node ca cc cl ck cv cr) = some (fixup ctx (.node ca cc cl ck cv cr)) := by
  obtain ⟨t2, h2⟩ := fixLoop_total ctx.length ctx ca cc cl ck cv cr le_rfl
  rw [fixup_eq (by simp) h2]
  exact fixLoop_mono h2 hfuel

end FixLoop

section FixRefine
variable {K V : Type}

theorem InsertFixUp_loop (fuel : Nat) : ∀ (s : RBTree K V) (ctx : Ctx K V) (ca : Nat)
    (cc : Color) (cl : Tree K V) (ck : K) (cv : V) (cr : Tree K V) (t1 : Tree K V),
    Focus s ctx (.node ca cc cl ck cv cr) →
    fixLoop fuel ctx (.node ca cc cl ck cv cr) = some t1 →
    ∃ s1, InsertFixUp fuel s (some ca) = .ok s1 ∧ Rep s1 t1
      ∧ s1.brk = s.brk ∧ s1.size_ = s.size_ ∧ s1.compare_ = s.compare_ := by
  induction fuel with
  | zero => intro s ctx ca cc cl ck cv cr t1 _ h; simp [fixLoop] at h
  | succ n ih =>
    intro s ctx ca cc cl ck cv cr t1 hf h
    have hstep := InsertFixUp_step hf
    rw [fixLoop] at h
    cases hs : fixStep ctx (.node ca cc cl ck cv cr) with
    | done t2 =>
      rw [hs] at h hstep
      simp only [Option.some.injEq] at h
      subst h
      obtain ⟨s1, e, hr, hsame⟩ := hstep
      exact ⟨s1, e n, hr, hsame⟩
    | cont ctx2 t2 =>
      rw [hs] at h hstep
      obtain ⟨s1, a1, hp, e, hf1, hb, hsz, hc⟩ := hstep
      cases t2 with
      | nil => simp at hp
      | node a2 c2 l2 k2 v2 r2 =>
        simp only [Tree.ptr_node, Option.some.injEq] at hp
        subst hp
        obtain ⟨s2, e2, hr2, hb2, hsz2, hc2⟩ := ih s1 ctx2 a2 c2 l2 k2 v2 r2 t1 hf1 h
        exact ⟨s2, (e n).trans e2, hr2, hb2.trans hb, hsz2.trans hsz, hc2.trans hc⟩

/-- Method `InsertFixUp` started at a node in its context returns, given at least as much fuel as
the node is deep, and leaves the tree `fixup` computes. -/
theorem InsertFixUp_refines {s : RBTree K V} {ctx : Ctx K V} {ca : Nat} {cc : Color}
    {cl cr : Tree K V} {ck : K} {cv : V} (hf : Focus s ctx (.node ca cc cl ck cv cr))
    {fuel : Nat} (hfuel : ctx.length + 1 ≤ fuel) :
    ∃ s1, InsertFixUp fuel s (some ca) = .ok s1
      ∧ Rep s1 (fixup ctx (.node ca cc cl ck cv cr))
      ∧ s1.brk = s.brk ∧ s1.size_ = s.size_ ∧ s1.compare_ = s.compare_ :=
  InsertFixUp_loop fuel s ctx ca cc cl ck cv cr _ hf (fixLoop_fixup ctx ca cc cl ck cv cr hfuel)

/-! ## The search descent -/

theorem zoom_plug (cmp : K → K → Bool) (key : K) (t : Tree K V) (ctx : Ctx K V) :
    plug (zoom cmp key t ctx).1 (zoom cmp key t ctx).2 = plug ctx t := by
  induction t generalizing ctx with
  | nil => rfl
  | node a c l k v r ihl ihr =>
    simp only [zoom]
    split
    · exact ihl _
    · split
      · exact ihr _
      · rfl

theorem zoom_length (cmp : K → K → Bool) (key : K) (t : Tree K V) (ctx : Ctx K V) :
    (zoom cmp key t ctx).1.length + (zoom cmp key t ctx).2.height ≤ ctx.length + t.height := by
  induction t generalizing ctx with
  | nil => simp [zoom]
  | node a c l k v r ihl ihr =>
    simp only [zoom]
    split
    · have := ihl (.left a c k v r :: ctx)
      simp only [List.length_cons, Tree.height] at this ⊢
      omega
    · split
      · have := ihr (.right a c l k v :: ctx)
        simp only [List.length_cons, Tree.height] at this ⊢
        omega
      · exact le_rfl

/-- What the descent loop of `PutInner` returns, read off the outcome of `zoom`. -/
theorem PutInner_loop_refines {h : Heap K V} (cmp : K → K → Bool) (key : K) :
    ∀ (t : Tree K V) (ctx : Ctx K V) (fp : Option Nat) (fuel : Nat), Models h t fp →
      t.height < fuel →
      PutInner.loop fuel h cmp key (Ctx.father ctx) t.ptr =
        .ok (match (zoom cmp key t ctx).2 with
          | .nil => (Ctx.father (zoom cmp key t ctx).1, false)
          | .node a _ _ _ _ _ => (some a, true)) := by
  intro t
  induction t with
  | nil =>
    intro ctx fp fuel _ hfuel
    cases fuel with
    | zero => omega
    | succ n => rfl
  | node a c l k v r ihl ihr =>
    intro ctx fp fuel hm hfuel
    cases fuel with
    | zero => omega
    | succ n =>
      obtain ⟨ha, hl, hr⟩ := hm
      simp only [Tree.height] at hfuel
      simp only [PutInner.loop, Tree.ptr_node, Key_ok ha, bind, Except.bind, zoom, Left_ok ha,
        Right_ok ha, pure, Except.pure]
      by_cases h1 : cmp k key = true
      · simp only [h1, if_true]
        exact ihl (.left a c k v r :: ctx) _ n hl (by omega)
      · simp only [h1, if_false]
        by_cases h2 : cmp key k = true
        · simp only [h2, if_true]
          exact ihr (.right a c l k v :: ctx) _ n hr (by omega)
        · simp only [h2, if_false, Bool.false_eq_true]

/-- The search loop of `find`, `Delete` and `Get` ends at the root of the subtree `zoom`
stops at. -/
theorem descend_refines {h : Heap K V} (cmp : K → K → Bool) (key : K) :
    ∀ (t : Tree K V) (ctx : Ctx K V) (fp : Option Nat) (fuel : Nat), Models h t fp →
      t.height < fuel →
      descend fuel h cmp key t.ptr = .ok (zoom cmp key t ctx).2.ptr := by
  intro t
  induction t with
  | nil =>
    intro ctx fp fuel _ hfuel
    cases fuel with
    | zero => omega
    | succ n => rfl
  | node a c l k v r ihl ihr =>
    intro ctx fp fuel hm hfuel
    cases fuel with
    | zero => omega
    | succ n =>
      obtain ⟨ha, hl, hr⟩ := hm
      simp only [Tree.height] at hfuel
      simp only [descend, Tree.ptr_node, Key_ok ha, bind, Except.bind, zoom, Left_ok ha,
        Right_ok ha, pure, Except.pure]
      by_cases h1 : cmp k key = true
      · simp only [h1, if_true]
        exact ihl (.left a c k v r :: ctx) _ n hl (by omega)
      · simp only [h1, if_false]
        by_cases h2 : cmp key k = true
        · simp only [h2, if_true]
          exact ihr (.right a c l k v :: ctx) _ n hr (by omega)
        · simp only [h2, if_false, Bool.false_eq_true, Tree.ptr_node]

end FixRefine

section PutRefine
variable {K V : Type}

theorem zoom_onPath (cmp : K → K → Bool) (key : K) (t : Tree K V) (ctx : Ctx K V)
    (hctx : ∀ fr ∈ ctx, fr.onPath cmp key) :
    ∀ fr ∈ (zoom cmp key t ctx).1, fr.onPath cmp key := by
  induction t generalizing ctx with
  | nil => exact hctx
  | node a c l k v r ihl ihr =>
    simp only [zoom]
    by_cases h1 : cmp k key = true
    · simp only [h1, if_true]
      apply ihl
      intro fr hfr
      rcases List.mem_cons.1 hfr with rfl | hfr
      · exact h1
      · exact hctx fr hfr
    · simp only [h1, if_false]
      by_cases h2 : cmp key k = true
      · simp only [h2, if_true]
        apply ihr
        intro fr hfr
        rcases List.mem_cons.1 hfr with rfl | hfr
        · exact ⟨by simpa using h1, h2⟩
        · exact hctx fr hfr
      · simp only [h2, if_false, Bool.false_eq_true]
        exact hctx

theorem zoom_found (cmp : K → K → Bool) (key : K) (t : Tree K V) (ctx : Ctx K V)
    {a : Nat} {c : Color} {l r : Tree K V} {k : K} {v : V}
    (h : (zoom cmp key t ctx).2 = .node a c l k v r) :
    cmp k key = false ∧ cmp key k = false := by
  induction t generalizing ctx with
  | nil => simp [zoom] at h
  | node a1 c1 l1 k1 v1 r1 ihl ihr =>
    simp only [zoom] at h
    by_cases h1 : cmp k1 key = true
    · simp only [h1, if_true] at h; exact ihl _ h
    · simp only [h1, if_false] at h
      by_cases h2 : cmp key k1 = true
      · simp only [h2, if_true] at h; exact ihr _ h
      · simp only [h2, if_false, Bool.false_eq_true] at h
        cases h
        exact ⟨by simpa using h1, by simpa using h2⟩

theorem attach_left {s : RBTree K V} {fa : Nat} {fc : Color} {fk : K} {fv : V} {sb : Tree K V}
    {rest : Ctx K V} (hf : Focus s (.left fa fc fk fv sb :: rest) .nil) (key : K) (val : V) :
    ∃ h2, SetLeft (newNode s key val).1.heap (some fa) (some s.brk) = .ok h2
      ∧ Key (newNode s key val).1.heap (some fa) = .ok fk
      ∧ Focus { (newNode s key val).1 with heap := h2 } (.left fa fc fk fv sb :: rest)
          (.node s.brk Color.RED .nil key val .nil) := by
  obtain ⟨_, hctx, hroot, hnd, hfresh, hsz⟩ := hf
  simp only [Tree.addrs, List.nil_append] at hnd hfresh
  have hbrk : ∀ q ∈ Ctx.addrs (.left fa fc fk fv sb :: rest), q ≠ s.brk :=
    fun q hq => Nat.ne_of_lt (hfresh q hq)
  have hfa : fa ≠ s.brk := hbrk fa (by simp [Ctx.addrs, Frame.addr])
  have h1fa : (newNode s key val).1.heap fa = _ := (Heap.set_ne _ _ hfa).trans hctx.1
  have hnew : Models (newNode s key val).1.heap (.node s.brk Color.RED .nil key val .nil) none :=
    ⟨Heap.set_same _ _ _, trivial, trivial⟩
  obtain ⟨h2, e2, h2f, h2t, fr2⟩ := SetLeft_spec h1fa hnew (by simp [Tree.addrs, hfa])
    (by simp [Tree.addrs])
  refine ⟨h2, e2, Key_ok h1fa, h2t, hctx.repoint_left h2f ?_, hroot.trans (ptr_plug_cons _ _ _ _),
    ?_, ?_, hsz⟩
  · intro q hq
    have hq1 : q ∈ Ctx.addrs (.left fa fc fk fv sb :: rest) := by
      simp only [Ctx.addrs, Frame.sibling, List.mem_cons]; exact Or.inr hq
    have hqf : q ≠ fa := by
      rintro rfl
      simp only [Ctx.addrs, Frame.addr, Frame.sibling, List.nodup_cons] at hnd
      exact hnd.1 hq
    show h2 q = s.heap q
    rw [fr2 q hqf (by simp [Tree.addrs, hbrk q hq1])]
    exact Heap.set_ne _ _ (hbrk q hq1)
  · simp only [Tree.addrs, List.append_nil, List.cons_append, List.nil_append, List.nodup_cons]
    exact ⟨fun hq => hbrk _ hq rfl, hnd⟩
  · intro q hq
    simp only [Tree.addrs, List.append_nil, List.cons_append, List.nil_append,
      List.mem_cons] at hq
    rcases hq with rfl | hq
    · exact Nat.lt_succ_self _
    · exact Nat.lt_succ_of_lt (hfresh q hq)

theorem attach_right {s : RBTree K V} {fa : Nat} {fc : Color} {fk : K} {fv : V} {sb : Tree K V}
    {rest : Ctx K V} (hf : Focus s (.right fa fc sb fk fv :: rest) .nil) (key : K) (val : V) :
    ∃ h2, SetRight (newNode s key val).1.heap (some fa) (some s.brk) = .ok h2
      ∧ Key (newNode s key val).1.heap (some fa) = .ok fk
      ∧ Focus { (newNode s key val).1 with heap := h2 } (.right fa fc sb fk fv :: rest)
          (.node s.brk Color.RED .nil key val .nil) := by
  obtain ⟨_, hctx, hroot, hnd, hfresh, hsz⟩ := hf
  simp only [Tree.addrs, List.nil_append] at hnd hfresh
  have hbrk : ∀ q ∈ Ctx.addrs (.right fa fc sb fk fv :: rest), q ≠ s.brk :=
    fun q hq => Nat.ne_of_lt (hfresh q hq)
  have hfa : fa ≠ s.brk := hbrk fa (by simp [Ctx.addrs, Frame.addr])
  have h1fa : (newNode s key val).1.heap fa = _ := (Heap.set_ne _ _ hfa).trans hctx.1
  have hnew : Models (newNode s key val).1.heap (.node s.brk Color.RED .nil key val .nil) none :=
    ⟨Heap.set_same _ _ _, trivial, trivial⟩
  obtain ⟨h2, e2, h2f, h2t, fr2⟩ := SetRight_spec h1fa hnew (by simp [Tree.addrs, hfa])
    (by simp [Tree.addrs])
  refine ⟨h2, e2, Key_ok h1fa, h2t, hctx.repoint_right h2f ?_,
    hroot.trans (ptr_plug_cons _ _ _ _), ?_, ?_, hsz⟩
  · intro q hq
    have hq1 : q ∈ Ctx.addrs (.right fa fc sb fk fv :: rest) := by
      simp only [Ctx.addrs, Frame.sibling, List.mem_cons]; exact Or.inr hq
    have hqf : q ≠ fa := by
      rintro rfl
      simp only [Ctx.addrs, Frame.addr, Frame.sibling, List.nodup_cons] at hnd
      exact hnd.1 hq
    show h2 q = s.heap q
    rw [fr2 q hqf (by simp [Tree.addrs, hbrk q hq1])]
    exact Heap.set_ne _ _ (hbrk q hq1)
  · simp only [Tree.addrs, List.append_nil, List.cons_append, List.nil_append, List.nodup_cons]
    exact ⟨fun hq => hbrk _ hq rfl, hnd⟩
  · intro q hq
    simp only [Tree.addrs, List.append_nil, List.cons_append, List.nil_append,
      List.mem_cons] at hq
    rcases hq with rfl | hq
    · exact Nat.lt_succ_self _
    · exact Nat.lt_succ_of_lt (hfresh q hq)

end PutRefine

/-! ## In-order contents -/

section Cells
variable {K V : Type}

theorem cells_plug (ctx : Ctx K V) (t : Tree K V) :
    (plug ctx t).cells = Ctx.before ctx ++ t.cells ++ Ctx.after ctx := by
  induction ctx generalizing t with
  | nil => simp [plug, Ctx.before, Ctx.after]
  | cons fr rest ih =>
    cases fr <;> simp [plug, ih, Frame.fill, Tree.cells, Ctx.before, Ctx.after]

theorem cells_setColor (t : Tree K V) (c : Color) : (t.setColor c).cells = t.cells := by
  cases t <;> rfl

theorem toList_eq_cells (t : Tree K V) : t.toList = t.cells.map (fun e => e.2) := by
  induction t with
  | nil => rfl
  | node a c l k v r ihl ihr => simp [Tree.toList, Tree.cells, ihl, ihr]

theorem addrs_perm_cells (t : Tree K V) : List.Perm t.addrs (t.cells.map (fun e => e.1)) := by
  induction t with
  | nil => simp [Tree.addrs, Tree.cells]
  | node a c l k v r ihl ihr =>
    simp only [Tree.addrs, Tree.cells, List.map_append, List.map_cons]
    refine List.Perm.trans ?_ List.perm_middle.symm
    exact List.Perm.cons _ (ihl.append ihr)

theorem count_eq_cells (t : Tree K V) : t.count = t.cells.length := by
  induction t with
  | nil => rfl
  | node a c l k v r ihl ihr => simp [Tree.count, Tree.cells, ihl, ihr]; omega

theorem fixStep_cells (ctx : Ctx K V) (t : Tree K V) :
    match fixStep ctx t with
    | .done t1 => t1.cells = (plug ctx t).cells
    | .cont ctx1 t1 => (plug ctx1 t1).cells = (plug ctx t).cells := by
  match ctx with
  | [] => simp [fixStep, cells_setColor, plug]
  | [f] => simp [fixStep, plug]
  | f :: g :: rest =>
    by_cases hc : f.color = Color.BLACK
    · rw [fixStep_black f g rest t hc]
    · cases g with
      | left ga gc gk gv u =>
        cases f with
        | left fa fc fk fv sb =>
          cases fc with
          | BLACK => exact absurd rfl hc
          | RED =>
            rw [fixStep_ll]
            by_cases hu : u.isRed = true <;>
              simp [hu, cells_plug, Tree.cells, cells_setColor, Ctx.before, Ctx.after]
        | right fa fc sb fk fv =>
          cases fc with
          | BLACK => exact absurd rfl hc
          | RED =>
            cases t with
            | nil =>
              simp only [fixStep, Frame.color, if_false]
              by_cases hu : u.isRed = true <;>
              simp [hu, cells_plug, Tree.cells, cells_setColor, Ctx.before, Ctx.after]
            | node ca cc cl ck cv cr =>
              rw [fixStep_lr]
              by_cases hu : u.isRed = true <;>
              simp [hu, cells_plug, Tree.cells, cells_setColor, Ctx.before, Ctx.after]
      | right ga gc u gk gv =>
        cases f with
        | right fa fc sb fk fv =>
          cases fc with
          | BLACK => exact absurd rfl hc
          | RED =>
            rw [fixStep_rr]
            by_cases hu : u.isRed = true <;>
              simp [hu, cells_plug, Tree.cells, cells_setColor, Ctx.before, Ctx.after]
        | left fa fc fk fv sb =>
          cases fc with
          | BLACK => exact absurd rfl hc
          | RED =>
            cases t with
            | nil =>
              simp only [fixStep, Frame.color, if_false]
              by_cases hu : u.isRed = true <;>
              simp [hu, cells_plug, Tree.cells, cells_setColor, Ctx.before, Ctx.after]
            | node ca cc cl ck cv cr =>
              rw [fixStep_rl]
              by_cases hu : u.isRed = true <;>
              simp [hu, cells_plug, Tree.cells, cells_setColor, Ctx.before, Ctx.after]

theorem fixLoop_cells (fuel : Nat) : ∀ (ctx : Ctx K V) (t t1 : Tree K V),
    fixLoop fuel ctx t = some t1 → t1.cells = (plug ctx t).cells := by
  induction fuel with
  | zero => intro ctx t t1 h; simp [fixLoop] at h
  | succ n ih =>
    intro ctx t t1 h
    have hs := fixStep_cells ctx t
    rw [fixLoop] at h
    cases hst : fixStep ctx t with
    | done t2 =>
      rw [hst] at h hs
      cases h
      exact hs
    | cont ctx2 t2 =>
      rw [hst] at h hs
      exact (ih ctx2 t2 t1 h).trans hs

/-- Method `InsertFixUp` keeps the in-order sequence of nodes, keys and values. -/
theorem fixup_cells (ctx : Ctx K V) (ca : Nat) (cc : Color) (cl : Tree K V) (ck : K) (cv : V)
    (cr : Tree K V) :
    (fixup ctx (.node ca cc cl ck cv cr)).cells = (plug ctx (.node ca cc cl ck cv cr)).cells :=
  fixLoop_cells _ ctx _ _ (fixLoop_fixup ctx ca cc cl ck cv cr le_rfl)

theorem Models.cell_of_mem {h : Heap K V} {t : Tree K V} {f : Option Nat} (hm : Models h t f)
    {a : Nat} {k : K} {v : V} (hmem : (a, k, v) ∈ t.cells) :
    ∃ n, h a = some n ∧ n.key_ = k ∧ n.val_ = v := by
  induction t generalizing f with
  | nil => simp [Tree.cells] at hmem
  | node a1 c l k1 v1 r ihl ihr =>
    obtain ⟨h1, hl, hr⟩ := hm
    simp only [Tree.cells, List.mem_append, List.mem_cons, Prod.mk.injEq] at hmem
    rcases hmem with hmem | ⟨rfl, rfl, rfl⟩ | hmem
    · exact ihl hl hmem
    · exact ⟨_, h1, rfl, rfl⟩
    · exact ihr hr hmem

end Cells

section PutRefine2
variable {K V : Type}

theorem Rep.setSize {s : RBTree K V} {t : Tree K V} (hr : Rep s t) {n : Nat}
    (hn : n < 2 ^ 64) : Rep { s with size_ := n } t :=
  ⟨hr.models, hr.root, hr.nodup, hr.fresh, hn⟩

theorem Rep.cell_of_cells {s : RBTree K V} {t : Tree K V} (hr : Rep s t)
    {a : Nat} {k : K} {v : V} (hmem : (a, k, v) ∈ t.cells) :
    ∃ n, s.heap a = some n ∧ n.key_ = k ∧ n.val_ = v :=
  hr.models.cell_of_mem hmem

theorem size_succ_pred {n : Nat} (hn : n < 2 ^ 64) :
    ((n + 1) % 2 ^ 64 + 2 ^ 64 - 1) % 2 ^ 64 = n := by
  omega

theorem size_pred_succ {n : Nat} (hn : n < 2 ^ 64) :
    ((n + 2 ^ 64 - 1) % 2 ^ 64 + 1) % 2 ^ 64 = n := by
  omega

end PutRefine2

/-! ## Colour invariants through contexts -/

section ColourLemmas
variable {K V : Type}

theorem isRed_fill (fr : Frame K V) (t : Tree K V) :
    (fr.fill t).isRed = decide (fr.color = Color.RED) := by
  cases fr <;> rename_i c _ _ _ <;> cases c <;> rfl

theorem isRed_plug (ctx : Ctx K V) (t : Tree K V) :
    (plug ctx t).isRed = Ctx.rootRed ctx t.isRed := by
  induction ctx generalizing t with
  | nil => rfl
  | cons fr rest ih => simp only [plug, ih, isRed_fill, Ctx.rootRed]

theorem noRedRed_fill (fr : Frame K V) (t : Tree K V) :
    NoRedRed (fr.fill t) ↔
      NoRedRed t ∧ (fr.color = Color.RED → t.isRed = false ∧ fr.sibling.isRed = false)
        ∧ NoRedRed fr.sibling := by
  cases fr <;> simp only [Frame.fill, NoRedRed, Frame.color, Frame.sibling] <;> tauto

theorem noRedRed_plug (ctx : Ctx K V) (t : Tree K V) :
    NoRedRed (plug ctx t) ↔ NoRedRed t ∧ CtxNoRedRed ctx t.isRed := by
  induction ctx generalizing t with
  | nil => simp [plug, CtxNoRedRed]
  | cons fr rest ih =>
    simp only [plug, ih, noRedRed_fill, isRed_fill, CtxNoRedRed]
    tauto

theorem bal_fill (fr : Frame K V) (t : Tree K V) (n : Nat) :
    Bal (fr.fill t) n ↔ ∃ m, n = m + blackOf fr.color ∧ Bal t m ∧ Bal fr.sibling m := by
  cases fr <;> simp only [Frame.fill, Bal, Frame.color, Frame.sibling]
  constructor
  · rintro ⟨m, h1, h2, h3⟩; exact ⟨m, h1, h3, h2⟩
  · rintro ⟨m, h1, h2, h3⟩; exact ⟨m, h1, h3, h2⟩

theorem bal_plug (ctx : Ctx K V) (t : Tree K V) (n : Nat) :
    Bal (plug ctx t) n ↔ ∃ m, Bal t m ∧ CtxBal ctx m n := by
  induction ctx generalizing t with
  | nil => simp [plug, CtxBal]
  | cons fr rest ih =>
    simp only [plug, ih, bal_fill, CtxBal]
    constructor
    · rintro ⟨m, ⟨m1, rfl, h1, h2⟩, h3⟩; exact ⟨m1, h1, h2, h3⟩
    · rintro ⟨m1, h1, h2, h3⟩; exact ⟨_, ⟨m1, rfl, h1, h2⟩, h3⟩

theorem bal_unique {t : Tree K V} {m n : Nat} (hm : Bal t m) (hn : Bal t n) : m = n := by
  induction t generalizing m n with
  | nil => simp only [Bal] at hm hn; omega
  | node a c l k v r ihl _ =>
    obtain ⟨m1, rfl, h1, _⟩ := hm
    obtain ⟨n1, rfl, h2, _⟩ := hn
    rw [ihl h1 h2]

theorem blackCounts_ne_nil (t : Tree K V) : t.blackCounts ≠ [] := by
  induction t with
  | nil => simp [Tree.blackCounts]
  | node a c l k v r ihl _ => simp [Tree.blackCounts, ihl]

/-- The predicate `Bal t n` says exactly that every root-to-absent-child path has `n` BLACK
nodes. -/
theorem bal_iff_blackCounts (t : Tree K V) (n : Nat) :
    Bal t n ↔ ∀ c ∈ t.blackCounts, c = n := by
  induction t generalizing n with
  | nil => simp [Bal, Tree.blackCounts, eq_comm]
  | node a c l k v r ihl ihr =>
    simp only [Bal, Tree.blackCounts, List.mem_map, List.mem_append, ihl, ihr]
    constructor
    · rintro ⟨m, rfl, h1, h2⟩ x ⟨y, hy, rfl⟩
      rcases hy with hy | hy
      · rw [h1 y hy]
      · rw [h2 y hy]
    · intro h
      obtain ⟨y, hy⟩ := List.exists_mem_of_ne_nil _ (blackCounts_ne_nil l)
      have hn := h _ ⟨y, Or.inl hy, rfl⟩
      refine ⟨y, hn.symm, fun z hz => ?_, fun z hz => ?_⟩
      · have := h _ ⟨z, Or.inl hz, rfl⟩; omega
      · have := h _ ⟨z, Or.inr hz, rfl⟩; omega

theorem rbInv_iff (t : Tree K V) : RBInv t ↔ RBBal t := by
  simp only [RBInv, RBBal, bal_iff_blackCounts]

end ColourLemmas

section FixInvLemmas
variable {K V : Type}

theorem rootRed_cons_eq (fr : Frame K V) (rest : Ctx K V) (a b : Bool) :
    Ctx.rootRed (fr :: rest) a = Ctx.rootRed (fr :: rest) b := rfl

theorem isRed_setColor_black (t : Tree K V) : (t.setColor Color.BLACK).isRed = false := by
  cases t <;> rfl

theorem noRedRed_setColor_black {t : Tree K V} (h : NoRedRed t) :
    NoRedRed (t.setColor Color.BLACK) := by
  cases t with
  | nil => trivial
  | node a c l k v r => exact ⟨(fun hc => by cases hc), h.2.1, h.2.2⟩

theorem bal_setColor_black {t : Tree K V} {m : Nat} (hred : t.isRed = true) (h : Bal t m) :
    Bal (t.setColor Color.BLACK) (m + 1) := by
  cases t with
  | nil => simp [Tree.isRed] at hred
  | node a c l k v r =>
    cases c with
    | BLACK => simp [Tree.isRed] at hred
    | RED =>
      obtain ⟨m1, hm, h1, h2⟩ := h
      exact ⟨m1, by simp [blackOf] at hm ⊢; exact hm, h1, h2⟩

theorem rootRed_false_of_black (rest : Ctx K V) (h : Ctx.rootRed rest false = false)
    (hole : Bool) (g : Frame K V) (hg : g.color = Color.BLACK) :
    Ctx.rootRed (g :: rest) hole = false := by
  simp only [Ctx.rootRed, hg]
  exact h

theorem fixStep_inv (ctx : Ctx K V) (t : Tree K V) (h : FixInv ctx t) :
    match fixStep ctx t with
    | .done t1 => RBBal t1
    | .cont ctx1 t1 => FixInv ctx1 t1 := by
  obtain ⟨hred, hnrr, hcn, hroot, m, n, hbt, hbc⟩ := h
  cases t with
  | nil => simp [Tree.isRed] at hred
  | node ca cc cl ck cv cr =>
  cases cc with
  | BLACK => simp [Tree.isRed] at hred
  | RED =>
  obtain ⟨hch, hnl, hnr⟩ := hnrr
  obtain ⟨hcl, hcr⟩ := hch rfl
  obtain ⟨m0, hm0, hbl, hbr⟩ := hbt
  simp only [blackOf, Nat.add_zero] at hm0
  subst hm0
  match ctx with
  | [] =>
    exact ⟨rfl, ⟨(fun hc => by cases hc), hnl, hnr⟩, m + 1, m, rfl, hbl, hbr⟩
  | [f] =>
    have hfb : f.color = Color.BLACK := by
      cases f <;> rename_i c _ _ _ <;> cases c <;> simp_all [Ctx.rootRed, Frame.color]
    refine ⟨?_, ?_, ?_⟩
    · show (f.fill _).isRed = false
      rw [isRed_fill]; simp [hfb]
    · show NoRedRed (f.fill _)
      rw [noRedRed_fill]
      exact ⟨⟨fun _ => ⟨hcl, hcr⟩, hnl, hnr⟩, (fun hc => by rw [hfb] at hc; cases hc), hcn.2.1⟩
    · refine ⟨n, ?_⟩
      show Bal (f.fill _) n
      rw [bal_fill]
      obtain ⟨hs, hn⟩ := hbc
      exact ⟨m, by simpa [CtxBal] using hn.symm, ⟨m, rfl, hbl, hbr⟩, hs⟩
  | f :: g :: rest =>
    have ht : NoRedRed (Tree.node ca Color.RED cl ck cv cr) := ⟨fun _ => ⟨hcl, hcr⟩, hnl, hnr⟩
    have hbt : Bal (Tree.node ca Color.RED cl ck cv cr) m := ⟨m, rfl, hbl, hbr⟩
    by_cases hc : f.color = Color.BLACK
    · rw [fixStep_black f g rest _ hc]
      refine ⟨?_, ?_, n, (bal_plug _ _ _).2 ⟨m, hbt, hbc⟩⟩
      · rw [isRed_plug]; exact hroot
      · rw [noRedRed_plug]
        exact ⟨ht, (fun h => by rw [hc] at h; cases h), hcn.2.1, hcn.2.2⟩
    · have hfr : f.color = Color.RED := by
        cases hf : f.color with
        | RED => rfl
        | BLACK => exact absurd hf hc
      have hgb : g.color = Color.BLACK := by
        cases hg : g.color with
        | BLACK => rfl
        | RED =>
          have := (hcn.2.2.1 hg).1
          simp [hfr] at this
      obtain ⟨hf1, hnsb, -, hnu, hcrest⟩ := hcn
      have hsb := (hf1 hfr).2
      simp only [hgb] at hcrest
      obtain ⟨hbsb, hbu, hbrest⟩ := hbc
      simp only [hfr, hgb, blackOf, Nat.add_zero] at hbu hbrest
      have hroot1 : Ctx.rootRed rest false = false := by
        have := hroot
        simp only [Ctx.rootRed, hgb] at this
        exact this
      have hcrest1 : CtxNoRedRed rest false := by simpa using hcrest
      cases g with
      | left ga gc gk gv u =>
        simp only [Frame.color] at hgb
        subst hgb
        simp only [Frame.sibling] at hnu hbu
        cases f with
        | left fa fc fk fv sb =>
          simp only [Frame.color] at hfr
          subst hfr
          simp only [Frame.sibling] at hsb hnsb hbsb
          rw [fixStep_ll]
          by_cases hu : u.isRed = true
          · rw [if_pos hu]
            exact ⟨rfl, ⟨fun _ => ⟨rfl, isRed_setColor_black u⟩,
              ⟨(fun h => by cases h), ht, hnsb⟩, noRedRed_setColor_black hnu⟩, hcrest1, hroot1,
              m + 1, n, ⟨m + 1, rfl, ⟨m, rfl, hbt, hbsb⟩, bal_setColor_black hu hbu⟩, hbrest⟩
          · rw [if_neg hu]
            have hu1 : u.isRed = false := by simpa using hu
            refine ⟨?_, ?_, n, (bal_plug _ _ _).2 ⟨m + 1, ⟨m, rfl, hbt, m, rfl, hbsb, hbu⟩,
              hbrest⟩⟩
            · rw [isRed_plug]; exact hroot1
            · rw [noRedRed_plug]
              exact ⟨⟨(fun h => by cases h), ht, fun _ => ⟨hsb, hu1⟩, hnsb, hnu⟩, hcrest1⟩
        | right fa fc sb fk fv =>
          simp only [Frame.color] at hfr
          subst hfr
          simp only [Frame.sibling] at hsb hnsb hbsb
          rw [fixStep_lr]
          by_cases hu : u.isRed = true
          · rw [if_pos hu]
            exact ⟨rfl, ⟨fun _ => ⟨rfl, isRed_setColor_black u⟩,
              ⟨(fun h => by cases h), hnsb, ht⟩, noRedRed_setColor_black hnu⟩, hcrest1, hroot1,
              m + 1, n, ⟨m + 1, rfl, ⟨m, rfl, hbsb, hbt⟩, bal_setColor_black hu hbu⟩, hbrest⟩
          · rw [if_neg hu]
            have hu1 : u.isRed = false := by simpa using hu
            exact ⟨rfl, ⟨fun _ => ⟨hsb, hcl⟩, hnsb, hnl⟩,
              ⟨fun _ => ⟨rfl, hcr⟩, hnr, (fun h => by cases h), hnu, by simpa using hcrest1⟩,
              hroot1, m, n, ⟨m, rfl, hbsb, hbl⟩, hbr, hbu, hbrest⟩
      | right ga gc u gk gv =>
        simp only [Frame.color] at hgb
        subst hgb
        simp only [Frame.sibling] at hnu hbu
        cases f with
        | right fa fc sb fk fv =>
          simp only [Frame.color] at hfr
          subst hfr
          simp only [Frame.sibling] at hsb hnsb hbsb
          rw [fixStep_rr]
          by_cases hu : u.isRed = true
          · rw [if_pos hu]
            exact ⟨rfl, ⟨fun _ => ⟨isRed_setColor_black u, rfl⟩, noRedRed_setColor_black hnu,
              (fun h => by cases h), hnsb, ht⟩, hcrest1, hroot1,
              m + 1, n, ⟨m + 1, rfl, bal_setColor_black hu hbu, ⟨m, rfl, hbsb, hbt⟩⟩, hbrest⟩
          · rw [if_neg hu]
            have hu1 : u.isRed = false := by simpa using hu
            refine ⟨?_, ?_, n, (bal_plug _ _ _).2 ⟨m + 1, ⟨m, rfl, ⟨m, rfl, hbu, hbsb⟩, hbt⟩,
              hbrest⟩⟩
            · rw [isRed_plug]; exact hroot1
            · rw [noRedRed_plug]
              exact ⟨⟨(fun h => by cases h), ⟨fun _ => ⟨hu1, hsb⟩, hnu, hnsb⟩, ht⟩, hcrest1⟩
        | left fa fc fk fv sb =>
          simp only [Frame.color] at hfr
          subst hfr
          simp only [Frame.sibling] at hsb hnsb hbsb
          rw [fixStep_rl]
          by_cases hu : u.isRed = true
          · rw [if_pos hu]
            exact ⟨rfl, ⟨fun _ => ⟨isRed_setColor_black u, rfl⟩, noRedRed_setColor_black hnu,
              (fun h => by cases h), ht, hnsb⟩, hcrest1, hroot1,
              m + 1, n, ⟨m + 1, rfl, bal_setColor_black hu hbu, ⟨m, rfl, hbt, hbsb⟩⟩, hbrest⟩
          · rw [if_neg hu]
            have hu1 : u.isRed = false := by simpa using hu
            exact ⟨rfl, ⟨fun _ => ⟨hcr, hsb⟩, hnr, hnsb⟩,
              ⟨fun _ => ⟨rfl, hcl⟩, hnl, (fun h => by cases h), hnu, by simpa using hcrest1⟩,
              hroot1, m, n, ⟨m, rfl, hbr, hbsb⟩, hbl, hbu, hbrest⟩

end FixInvLemmas

section PutInvariants
variable {K V : Type}

theorem fixLoop_inv (fuel : Nat) : ∀ (ctx : Ctx K V) (t t1 : Tree K V), FixInv ctx t →
    fixLoop fuel ctx t = some t1 → RBBal t1 := by
  induction fuel with
  | zero => intro ctx t t1 _ h; simp [fixLoop] at h
  | succ n ih =>
    intro ctx t t1 hinv h
    have hs := fixStep_inv ctx t hinv
    rw [fixLoop] at h
    cases hst : fixStep ctx t with
    | done t2 =>
      rw [hst] at h hs
      cases h
      exact hs
    | cont ctx2 t2 =>
      rw [hst] at h hs
      exact ih ctx2 t2 t1 hs h

theorem fixup_rb (ctx : Ctx K V) (ca : Nat) (cc : Color) (cl : Tree K V) (ck : K) (cv : V)
    (cr : Tree K V) (hinv : FixInv ctx (.node ca cc cl ck cv cr)) :
    RBBal (fixup ctx (.node ca cc cl ck cv cr)) :=
  fixLoop_inv _ ctx _ _ hinv (fixLoop_fixup ctx ca cc cl ck cv cr le_rfl)

theorem putT_found {cmp : K → K → Bool} {key : K} {t : Tree K V} {ctx : Ctx K V} {a : Nat}
    {c : Color} {l r : Tree K V} {k : K} {v : V}
    (hz : zoom cmp key t [] = (ctx, .node a c l k v r)) (new : Nat) (val : V) :
    putT cmp new t key val = plug ctx (.node a c l k val r) := by
  cases t with
  | nil => simp [zoom] at hz
  | node a1 c1 l1 k1 v1 r1 => simp only [putT, hz]

theorem putT_absent {cmp : K → K → Bool} {key : K} {t : Tree K V} {ctx : Ctx K V}
    (hz : zoom cmp key t [] = (ctx, .nil)) (hne : t ≠ .nil) (new : Nat) (val : V) :
    putT cmp new t key val = fixup ctx (.node new Color.RED .nil key val .nil) := by
  cases t with
  | nil => exact absurd rfl hne
  | node a1 c1 l1 k1 v1 r1 => simp only [putT, hz]

/-- Method `PutInner` on trees keeps the three colour invariants. -/
theorem putT_rb (cmp : K → K → Bool) (new : Nat) (t : Tree K V) (key : K) (val : V)
    (h : RBBal t) : RBBal (putT cmp new t key val) := by
  cases ht : t with
  | nil => exact ⟨rfl, ⟨(fun h => by cases h), trivial, trivial⟩, 1, 0, rfl, rfl, rfl⟩
  | node a1 c1 l1 k1 v1 r1 =>
    rw [← ht]
    have hne : t ≠ .nil := by rw [ht]; simp
    have hplug := zoom_plug cmp key t []
    rcases hz : zoom cmp key t [] with ⟨ctx, t1⟩
    simp only [hz, plug] at hplug
    obtain ⟨hred, hnrr, n, hbal⟩ := h
    rw [← hplug] at hred hnrr hbal
    rw [isRed_plug] at hred
    rw [noRedRed_plug] at hnrr
    rw [bal_plug] at hbal
    obtain ⟨m, hbm, hbc⟩ := hbal
    cases t1 with
    | node a c l k v r =>
      rw [putT_found hz]
      refine ⟨?_, ?_, n, ?_⟩
      · rw [isRed_plug]; cases c <;> exact hred
      · rw [noRedRed_plug]; cases c <;> exact hnrr
      · rw [bal_plug]; exact ⟨m, hbm, hbc⟩
    | nil =>
      rw [putT_absent hz hne]
      apply fixup_rb
      simp only [Bal] at hbm
      subst hbm
      exact ⟨rfl, ⟨fun _ => ⟨rfl, rfl⟩, trivial, trivial⟩, hnrr.2, hred, 0, n,
        ⟨0, rfl, rfl, rfl⟩, hbc⟩

end PutInvariants

/-! ## Independence of the fuel -/

section Fuel
variable {K V : Type}

theorem InsertFixUp_succ (fuel : Nat) : ∀ (s : RBTree K V) (ctx : Ctx K V) (ca : Nat)
    (cc : Color) (cl : Tree K V) (ck : K) (cv : V) (cr : Tree K V) (r : RBTree K V),
    Focus s ctx (.node ca cc cl ck cv cr) →
    InsertFixUp fuel s (some ca) = .ok r → InsertFixUp (fuel + 1) s (some ca) = .ok r := by
  induction fuel with
  | zero => intro s ctx ca cc cl ck cv cr r _ h; simp [InsertFixUp] at h
  | succ n ih =>
    intro s ctx ca cc cl ck cv cr r hf h
    have hstep := InsertFixUp_step hf
    cases hs : fixStep ctx (.node ca cc cl ck cv cr) with
    | done t2 =>
      rw [hs] at hstep
      obtain ⟨s1, e, _⟩ := hstep
      rw [e n] at h
      rw [e (n + 1)]
      exact h
    | cont ctx2 t2 =>
      rw [hs] at hstep
      obtain ⟨s1, a1, hp, e, hf1, _⟩ := hstep
      cases t2 with
      | nil => simp at hp
      | node a2 c2 l2 k2 v2 r2 =>
        simp only [Tree.ptr_node, Option.some.injEq] at hp
        subst hp
        rw [e n] at h
        rw [e (n + 1)]
        exact ih s1 ctx2 a2 c2 l2 k2 v2 r2 r hf1 h

theorem InsertFixUp_mono {s : RBTree K V} {ctx : Ctx K V} {ca : Nat} {cc : Color}
    {cl cr : Tree K V} {ck : K} {cv : V} (hf : Focus s ctx (.node ca cc cl ck cv cr))
    {fuel fuel1 : Nat} {r : RBTree K V} (h : InsertFixUp fuel s (some ca) = .ok r)
    (hle : fuel ≤ fuel1) : InsertFixUp fuel1 s (some ca) = .ok r := by
  induction hle with
  | refl => exact h
  | step _ ih => exact InsertFixUp_succ _ s ctx ca cc cl ck cv cr r hf ih

theorem InsertFixUp_either (fuel : Nat) : ∀ (s : RBTree K V) (ctx : Ctx K V) (ca : Nat)
    (cc : Color) (cl : Tree K V) (ck : K) (cv : V) (cr : Tree K V),
    Focus s ctx (.node ca cc cl ck cv cr) →
    (∃ r, InsertFixUp fuel s (some ca) = .ok r)
      ∨ InsertFixUp fuel s (some ca) = .error .outOfFuel := by
  induction fuel with
  | zero => intro s ctx ca cc cl ck cv cr _; exact Or.inr rfl
  | succ n ih =>
    intro s ctx ca cc cl ck cv cr hf
    have hstep := InsertFixUp_step hf
    cases hs : fixStep ctx (.node ca cc cl ck cv cr) with
    | done t2 =>
      rw [hs] at hstep
      obtain ⟨s1, e, _⟩ := hstep
      exact Or.inl ⟨s1, e n⟩
    | cont ctx2 t2 =>
      rw [hs] at hstep
      obtain ⟨s1, a1, hp, e, hf1, _⟩ := hstep
      cases t2 with
      | nil => simp at hp
      | node a2 c2 l2 k2 v2 r2 =>
        simp only [Tree.ptr_node, Option.some.injEq] at hp
        subst hp
        rw [e n]
        exact ih s1 ctx2 a2 c2 l2 k2 v2 r2 hf1

/-- Method `InsertFixUp` from a node in its context: one final state, reached with any fuel that
does not run out, and certainly with `ctx.length + 1`. -/
theorem InsertFixUp_all {s : RBTree K V} {ctx : Ctx K V} {ca : Nat} {cc : Color}
    {cl cr : Tree K V} {ck : K} {cv : V} (hf : Focus s ctx (.node ca cc cl ck cv cr)) :
    ∃ s1, Rep s1 (fixup ctx (.node ca cc cl ck cv cr))
      ∧ s1.brk = s.brk ∧ s1.size_ = s.size_ ∧ s1.compare_ = s.compare_
      ∧ ∀ fuel, InsertFixUp fuel s (some ca) = .ok s1
          ∨ (fuel ≤ ctx.length ∧ InsertFixUp fuel s (some ca) = .error .outOfFuel) := by
  obtain ⟨s1, e, hr, hsame⟩ := InsertFixUp_refines hf (le_refl (ctx.length + 1))
  refine ⟨s1, hr, hsame.1, hsame.2.1, hsame.2.2, fun fuel => ?_⟩
  by_cases hle : ctx.length + 1 ≤ fuel
  · exact Or.inl (InsertFixUp_mono hf e hle)
  · rcases InsertFixUp_either fuel s ctx ca cc cl ck cv cr hf with ⟨r, hr1⟩ | herr
    · have := InsertFixUp_mono hf hr1 (by omega : fuel ≤ ctx.length + 1)
      rw [e] at this
      cases this
      exact Or.inl hr1
    · exact Or.inr ⟨by omega, herr⟩

theorem PutInner_loop_all {h : Heap K V} (cmp : K → K → Bool) (key : K) :
    ∀ (t : Tree K V) (ctx : Ctx K V) (fp : Option Nat) (fuel : Nat), Models h t fp →
      PutInner.loop fuel h cmp key (Ctx.father ctx) t.ptr =
          .ok (match (zoom cmp key t ctx).2 with
            | .nil => (Ctx.father (zoom cmp key t ctx).1, false)
            | .node a _ _ _ _ _ => (some a, true))
        ∨ (fuel ≤ t.height
            ∧ PutInner.loop fuel h cmp key (Ctx.father ctx) t.ptr = .error .outOfFuel) := by
  intro t ctx fp fuel hm
  by_cases hle : t.height < fuel
  · exact Or.inl (PutInner_loop_refines cmp key t ctx fp fuel hm hle)
  · induction t generalizing ctx fp fuel with
    | nil =>
      simp only [Tree.height, Nat.not_lt, Nat.le_zero] at hle
      subst hle
      exact Or.inr ⟨Nat.le_refl _, rfl⟩
    | node a c l k v r ihl ihr =>
      cases fuel with
      | zero => exact Or.inr ⟨Nat.zero_le _, rfl⟩
      | succ n =>
        obtain ⟨ha, hl, hr⟩ := hm
        simp only [Tree.height] at hle ⊢
        simp only [PutInner.loop, Tree.ptr_node, Key_ok ha, bind, Except.bind, zoom, Left_ok ha,
          Right_ok ha, pure, Except.pure]
        by_cases h1 : cmp k key = true
        · simp only [h1, if_true]
          by_cases hl1 : l.height < n
          · exact Or.inl (PutInner_loop_refines cmp key l (.left a c k v r :: ctx) _ n hl hl1)
          · rcases ihl (.left a c k v r :: ctx) _ n hl hl1 with h2 | h2
            · exact Or.inl h2
            · exact Or.inr ⟨by omega, h2.2⟩
        · simp only [h1, if_false]
          by_cases h2 : cmp key k = true
          · simp only [h2, if_true]
            by_cases hr1 : r.height < n
            · exact Or.inl (PutInner_loop_refines cmp key r (.right a c l k v :: ctx) _ n hr hr1)
            · rcases ihr (.right a c l k v :: ctx) _ n hr hr1 with h3 | h3
              · exact Or.inl h3
              · exact Or.inr ⟨by omega, h3.2⟩
          · simp only [h2, if_false, Bool.false_eq_true]
            exact Or.inl trivial

theorem descend_all {h : Heap K V} (cmp : K → K → Bool) (key : K) :
    ∀ (t : Tree K V) (ctx : Ctx K V) (fp : Option Nat) (fuel : Nat), Models h t fp →
      descend fuel h cmp key t.ptr = .ok (zoom cmp key t ctx).2.ptr
        ∨ (fuel ≤ t.height ∧ descend fuel h cmp key t.ptr = .error .outOfFuel) := by
  intro t ctx fp fuel hm
  by_cases hle : t.height < fuel
  · exact Or.inl (descend_refines cmp key t ctx fp fuel hm hle)
  · induction t generalizing ctx fp fuel with
    | nil =>
      simp only [Tree.height, Nat.not_lt, Nat.le_zero] at hle
      subst hle
      exact Or.inr ⟨Nat.le_refl _, rfl⟩
    | node a c l k v r ihl ihr =>
      cases fuel with
      | zero => exact Or.inr ⟨Nat.zero_le _, rfl⟩
      | succ n =>
        obtain ⟨ha, hl, hr⟩ := hm
        simp only [Tree.height] at hle ⊢
        simp only [descend, Tree.ptr_node, Key_ok ha, bind, Except.bind, zoom, Left_ok ha,
          Right_ok ha, pure, Except.pure]
        by_cases h1 : cmp k key = true
        · simp only [h1, if_true]
          by_cases hl1 : l.height < n
          · exact Or.inl (descend_refines cmp key l (.left a c k v r :: ctx) _ n hl hl1)
          · rcases ihl (.left a c k v r :: ctx) _ n hl hl1 with h2 | h2
            · exact Or.inl h2
            · exact Or.inr ⟨by omega, h2.2⟩
        · simp only [h1, if_false]
          by_cases h2 : cmp key k = true
          · simp only [h2, if_true]
            by_cases hr1 : r.height < n
            · exact Or.inl (descend_refines cmp key r (.right a c l k v :: ctx) _ n hr hr1)
            · rcases ihr (.right a c l k v :: ctx) _ n hr hr1 with h3 | h3
              · exact Or.inl h3
              · exact Or.inr ⟨by omega, h3.2⟩
          · simp only [h2, if_false, Bool.false_eq_true]
            exact Or.inl rfl

end Fuel

section PutAll
variable {K V : Type}

/-- Method `PutInner` on a represented tree: there is one result, the tree `putT` computes, and
every amount of fuel either produces it or runs out; more fuel than the tree is high never
runs out.  `size_` and the allocation mark move exactly when the key was not found. -/
theorem PutInner_all {s : RBTree K V} {t : Tree K V} (hr : Rep s t) (key : K) (val : V) :
    ∃ p s1, Rep s1 (putT s.compare_ s.brk t key val)
      ∧ s1.compare_ = s.compare_
      ∧ (∃ n, deref s1.heap p = .ok n ∧ n.val_ = val
          ∧ (n.key_ = key ∨ (s.compare_ n.key_ key = false ∧ s.compare_ key n.key_ = false)))
      ∧ (match findT s.compare_ key t with
          | some _ => s1.size_ = s.size_ ∧ s1.brk = s.brk
          | none => s1.size_ = (s.size_ + 1) % 2 ^ 64 ∧ s1.brk = s.brk + 1)
      ∧ (∀ fuel, PutInner fuel s key val = .ok (p, s1)
          ∨ (fuel ≤ t.height ∧ PutInner fuel s key val = .error .outOfFuel))
      ∧ (∀ ctx a c l k v r, zoom s.compare_ key t [] = (ctx, .node a c l k v r) →
          p = some a ∧ s1 = { s with
            heap := s.heap.set a ⟨k, val, l.ptr, r.ptr, Ctx.father ctx, c⟩ }) := by
  have hsz1 : (s.size_ + 1) % 2 ^ 64 < 2 ^ 64 := Nat.mod_lt _ (by norm_num)
  cases t with
  | nil =>
    have hroot : s.root_ = none := hr.root
    refine ⟨some s.brk,
      { heap := (s.heap.set s.brk ⟨key, val, none, none, none, Color.RED⟩).set s.brk
          ⟨key, val, none, none, none, Color.BLACK⟩,
        brk := s.brk + 1, root_ := some s.brk, compare_ := s.compare_,
        size_ := (s.size_ + 1) % 2 ^ 64 }, ?_, rfl, ?_, ?_, fun fuel => Or.inl ?_, ?_⟩
    · exact ⟨⟨Heap.set_same _ _ _, trivial, trivial⟩, rfl, by simp [Tree.addrs],
        by simp [Tree.addrs], hsz1⟩
    · exact ⟨_, deref_ok (Heap.set_same _ _ _), rfl, Or.inl rfl⟩
    · simp [findT, zoom]
    · simp only [PutInner, hroot, newNode, bind, Except.bind, pure, Except.pure,
        SetColor_ok (Heap.set_same _ _ _), Value_ok (Heap.set_same _ _ _)]
    · intro ctx a c l k v r hz
      simp [zoom] at hz
  | node a c l k v r =>
    have hroot : s.root_ = some a := hr.root
    have hloop : ∀ fuel, PutInner.loop fuel s.heap s.compare_ key none (some a) = _
        ∨ (fuel ≤ (Tree.node a c l k v r).height
          ∧ PutInner.loop fuel s.heap s.compare_ key none (some a) = .error .outOfFuel) :=
      fun fuel => PutInner_loop_all s.compare_ key (.node a c l k v r) [] none fuel hr.models
    have hplug := zoom_plug s.compare_ key (.node a c l k v r) []
    have hlen := zoom_length s.compare_ key (.node a c l k v r) []
    have hpath := zoom_onPath s.compare_ key (.node a c l k v r) [] (by simp)
    have hfound : ∀ a1 c1 l1 k1 v1 r1,
        (zoom s.compare_ key (.node a c l k v r) []).2 = .node a1 c1 l1 k1 v1 r1 →
        s.compare_ k1 key = false ∧ s.compare_ key k1 = false :=
      fun _ _ _ _ _ _ h => zoom_found _ _ _ _ h
    simp only [putT, findT]
    rcases hz : zoom s.compare_ key (.node a c l k v r) [] with ⟨ctx1, t1⟩
    simp only [hz] at hloop hplug hlen hpath hfound
    have hr1 : Rep { s with size_ := (s.size_ + 1) % 2 ^ 64 } (plug ctx1 t1) := by
      rw [hplug]; exact hr.setSize hsz1
    cases t1 with
    | node a1 c1 l1 k1 v1 r1 =>
      have hf := (focus_iff _ _ _).1 hr1
      obtain ⟨h1, e1, hf1⟩ := SetValue_focus hf val
      have hf2 := (focus_iff _ _ _).2 hf1
      have hkk := hfound _ _ _ _ _ _ rfl
      have e1a : SetValue s.heap (some a1) val = .ok h1 := e1
      refine ⟨some a1, { s with heap := h1 }, hf2.setSize (n := s.size_) hr.size_ok, rfl,
        ⟨_, deref_ok hf1.sub.1, rfl, Or.inr hkk⟩, ⟨rfl, rfl⟩, fun fuel => ?_, ?_⟩
      · rcases hloop fuel with hl | ⟨hle, hl⟩
        · left
          simp only [PutInner, hroot, bind, Except.bind, pure, Except.pure, hl, if_true]
          simp only [e1a, Value_ok hf1.sub.1, size_succ_pred hr.size_ok]
        · right
          refine ⟨hle, ?_⟩
          simp only [PutInner, hroot, bind, Except.bind, hl]
      · intro ctx a0 c0 l0 k0 v0 r0 hz0
        cases hz0
        have hcell : s.heap a1 = _ := hf.sub.1
        rw [SetValue_ok hcell] at e1a
        cases e1a
        exact ⟨rfl, rfl⟩
    | nil =>
      have hf := (focus_iff _ _ _).1 hr1
      cases ctx1 with
      | nil => simp [plug] at hplug
      | cons fr rest =>
        have hlen2 : (fr :: rest).length ≤ (Tree.node a c l k v r).height := by
          have h0 : (Tree.nil : Tree K V).height = 0 := rfl
          rw [h0] at hlen
          simp only [Nat.add_zero, List.length_nil, Nat.zero_add] at hlen
          exact hlen
        have hdir := hpath fr (by simp)
        cases fr with
        | left fa fc fk fv sb =>
          obtain ⟨h2, e2, ek, hf2⟩ := attach_left hf key val
          obtain ⟨s3, hr3, hb3, hs3, hc3, hall⟩ := InsertFixUp_all hf2
          have hmem : (s.brk, key, val) ∈
              (fixup (.left fa fc fk fv sb :: rest)
                (.node s.brk Color.RED .nil key val .nil)).cells := by
            rw [fixup_cells, cells_plug]; simp [Tree.cells]
          obtain ⟨n, hn, hnk, hnv⟩ := hr3.cell_of_cells hmem
          refine ⟨some s.brk, s3, hr3, hc3, ⟨n, deref_ok hn, hnv, Or.inl hnk⟩, ⟨hs3, hb3⟩,
            fun fuel => ?_, fun _ _ _ _ _ _ _ hz0 => by cases hz0⟩
          have ek1 : Key (s.heap.set s.brk ⟨key, val, none, none, none, Color.RED⟩) (some fa)
              = .ok fk := ek
          have hd : s.compare_ fk key = true := hdir
          have e2a : SetLeft (s.heap.set s.brk ⟨key, val, none, none, none, Color.RED⟩)
              (some fa) (some s.brk) = .ok h2 := e2
          have e3a : ∀ fuel, InsertFixUp fuel
              { heap := h2, brk := s.brk + 1, root_ := s.root_, compare_ := s.compare_,
                size_ := (s.size_ + 1) % 2 ^ 64 } (some s.brk) = .ok s3
              ∨ (fuel ≤ (Frame.left fa fc fk fv sb :: rest).length ∧ InsertFixUp fuel
                { heap := h2, brk := s.brk + 1, root_ := s.root_, compare_ := s.compare_,
                  size_ := (s.size_ + 1) % 2 ^ 64 } (some s.brk) = .error .outOfFuel) := hall
          rw [hroot] at e3a
          rcases hloop fuel with hl | ⟨hle, hl⟩
          · rcases e3a fuel with h3 | ⟨hle3, h3⟩
            · left
              simp only [PutInner, PutInner.attach, hroot, bind, Except.bind, pure, Except.pure,
                hl, Ctx.father, Frame.addr, Bool.false_eq_true, if_false, newNode, ek1, hd,
                if_true, e2a, h3, Value_ok hn]
            · right
              refine ⟨le_trans hle3 hlen2, ?_⟩
              simp only [PutInner, PutInner.attach, hroot, bind, Except.bind, pure, Except.pure,
                hl, Ctx.father, Frame.addr, Bool.false_eq_true, if_false, newNode, ek1, hd,
                if_true, e2a, h3]
          · right
            refine ⟨hle, ?_⟩
            simp only [PutInner, hroot, bind, Except.bind, hl]
        | right fa fc sb fk fv =>
          obtain ⟨h2, e2, ek, hf2⟩ := attach_right hf key val
          obtain ⟨s3, hr3, hb3, hs3, hc3, hall⟩ := InsertFixUp_all hf2
          have hmem : (s.brk, key, val) ∈
              (fixup (.right fa fc sb fk fv :: rest)
                (.node s.brk Color.RED .nil key val .nil)).cells := by
            rw [fixup_cells, cells_plug]; simp [Tree.cells]
          obtain ⟨n, hn, hnk, hnv⟩ := hr3.cell_of_cells hmem
          refine ⟨some s.brk, s3, hr3, hc3, ⟨n, deref_ok hn, hnv, Or.inl hnk⟩, ⟨hs3, hb3⟩,
            fun fuel => ?_, fun _ _ _ _ _ _ _ hz0 => by cases hz0⟩
          have ek1 : Key (s.heap.set s.brk ⟨key, val, none, none, none, Color.RED⟩) (some fa)
              = .ok fk := ek
          have hd : s.compare_ fk key = false := hdir.1
          have e2a : SetRight (s.heap.set s.brk ⟨key, val, none, none, none, Color.RED⟩)
              (some fa) (some s.brk) = .ok h2 := e2
          have e3a : ∀ fuel, InsertFixUp fuel
              { heap := h2, brk := s.brk + 1, root_ := s.root_, compare_ := s.compare_,
                size_ := (s.size_ + 1) % 2 ^ 64 } (some s.brk) = .ok s3
              ∨ (fuel ≤ (Frame.right fa fc sb fk fv :: rest).length ∧ InsertFixUp fuel
                { heap := h2, brk := s.brk + 1, root_ := s.root_, compare_ := s.compare_,
                  size_ := (s.size_ + 1) % 2 ^ 64 } (some s.brk) = .error .outOfFuel) := hall
          rw [hroot] at e3a
          rcases hloop fuel with hl | ⟨hle, hl⟩
          · rcases e3a fuel with h3 | ⟨hle3, h3⟩
            · left
              simp only [PutInner, PutInner.attach, hroot, bind, Except.bind, pure, Except.pure,
                hl, Ctx.father, Frame.addr, Bool.false_eq_true, if_false, newNode, ek1, hd,
                e2a, h3, Value_ok hn]
            · right
              refine ⟨le_trans hle3 hlen2, ?_⟩
              simp only [PutInner, PutInner.attach, hroot, bind, Except.bind, pure, Except.pure,
                hl, Ctx.father, Frame.addr, Bool.false_eq_true, if_false, newNode, ek1, hd,
                e2a, h3]
          · right
            refine ⟨hle, ?_⟩
            simp only [PutInner, hroot, bind, Except.bind, hl]

/-- Method `Put` on a represented tree: one result whatever the fuel, unless the fuel runs out. -/
theorem Put_all {s : RBTree K V} {t : Tree K V} (hr : Rep s t) (key : K) (val : V) :
    ∃ s1, Rep s1 (putT s.compare_ s.brk t key val)
      ∧ s1.compare_ = s.compare_
      ∧ (match findT s.compare_ key t with
          | some _ => s1.size_ = s.size_ ∧ s1.brk = s.brk
          | none => s1.size_ = (s.size_ + 1) % 2 ^ 64 ∧ s1.brk = s.brk + 1)
      ∧ (∀ fuel, Put fuel s key val = .ok s1
          ∨ (fuel ≤ t.height ∧ Put fuel s key val = .error .outOfFuel))
      ∧ (∀ ctx a c l k v r, zoom s.compare_ key t [] = (ctx, .node a c l k v r) →
          s1 = { s with heap := s.heap.set a ⟨k, val, l.ptr, r.ptr, Ctx.father ctx, c⟩ }) := by
  obtain ⟨p, s1, hr1, hc, _, hsz, hall, hfound⟩ := PutInner_all hr key val
  refine ⟨s1, hr1, hc, hsz, fun fuel => ?_, fun ctx a c l k v r hz =>
    (hfound ctx a c l k v r hz).2⟩
  rcases hall fuel with h | ⟨hle, h⟩
  · exact Or.inl (by simp [Put, h, bind, Except.bind, pure, Except.pure])
  · exact Or.inr ⟨hle, by simp [Put, h, bind, Except.bind]⟩

end PutAll

/-! ## Ordering -/

section Ordering
variable {K V : Type}

theorem keys_eq_cells (t : Tree K V) : t.keys = t.cells.map (fun e => e.2.1) := by
  simp only [Tree.keys, toList_eq_cells, List.map_map]
  rfl

theorem mem_keys_iff {t : Tree K V} {x : K} :
    x ∈ t.keys ↔ ∃ a v, (a, x, v) ∈ t.cells := by
  rw [keys_eq_cells]
  simp only [List.mem_map, Prod.exists]
  constructor
  · rintro ⟨a, k, v, h, rfl⟩; exact ⟨a, v, h⟩
  · rintro ⟨a, v, h⟩; exact ⟨a, x, v, h, rfl⟩

/-- Under a transitive comparator the node-by-node ordering says exactly that the in-order
sequence of nodes is strictly descending. -/
theorem mirrored_iff_pairwise {cmp : K → K → Bool} (hso : StrictOrder cmp) (t : Tree K V) :
    Mirrored cmp t ↔ t.cells.Pairwise (Desc cmp) := by
  induction t with
  | nil => simp [Mirrored, Tree.cells]
  | node a c l k v r ihl ihr =>
    rw [Mirrored, Tree.cells, List.pairwise_append, List.pairwise_cons, ihl, ihr]
    constructor
    · rintro ⟨h1, h2, h3, h4⟩
      refine ⟨h3, ⟨fun e he => h2 _ (mem_keys_iff.2 ⟨e.1, e.2.2, he⟩), h4⟩, ?_⟩
      intro x hx y hy
      have hkx : cmp k x.2.1 = true := h1 _ (mem_keys_iff.2 ⟨x.1, x.2.2, hx⟩)
      rcases List.mem_cons.1 hy with rfl | hy
      · exact hkx
      · exact hso.trans _ _ _ (h2 _ (mem_keys_iff.2 ⟨y.1, y.2.2, hy⟩)) hkx
    · rintro ⟨h3, ⟨h2, h4⟩, h5⟩
      refine ⟨fun x hx => ?_, fun x hx => ?_, h3, h4⟩
      · obtain ⟨a1, v1, h⟩ := mem_keys_iff.1 hx
        exact h5 _ h _ (List.mem_cons_self _ _)
      · obtain ⟨a1, v1, h⟩ := mem_keys_iff.1 hx
        exact h2 _ h

theorem ctx_bounds {cmp : K → K → Bool} (hso : StrictOrder cmp) (key : K) (ctx : Ctx K V)
    (hpath : ∀ fr ∈ ctx, fr.onPath cmp key)
    (hp : (Ctx.before ctx ++ Ctx.after ctx).Pairwise (Desc cmp)) :
    (∀ e ∈ Ctx.before ctx, cmp key e.2.1 = true)
      ∧ (∀ e ∈ Ctx.after ctx, cmp e.2.1 key = true) := by
  induction ctx with
  | nil => simp [Ctx.before, Ctx.after]
  | cons fr rest ih =>
    have hrest : ∀ fr ∈ rest, fr.onPath cmp key := fun fr h => hpath fr (List.mem_cons_of_mem _ h)
    have hfr := hpath fr (List.mem_cons_self _ _)
    cases fr with
    | left a c k v r =>
      have hp1 : (Ctx.before rest ++ ((a, k, v) :: (r.cells ++ Ctx.after rest))).Pairwise
          (Desc cmp) := by simpa [Ctx.before, Ctx.after] using hp
      rw [List.pairwise_append, List.pairwise_cons, List.pairwise_append] at hp1
      obtain ⟨hb, ⟨hk, hr, ha, hra⟩, hba⟩ := hp1
      have hih := ih hrest (List.pairwise_append.2 ⟨hb, ha, fun x hx y hy =>
        hba x hx y (List.mem_cons_of_mem _ (List.mem_append_right _ hy))⟩)
      refine ⟨hih.1, fun e he => ?_⟩
      have he1 : e = (a, k, v) ∨ e ∈ r.cells ∨ e ∈ Ctx.after rest := by
        simpa [Ctx.after] using he
      rcases he1 with rfl | he | he
      · exact hfr
      · exact hso.trans _ _ _ (hk _ (List.mem_append_left _ he)) hfr
      · exact hih.2 e he
    | right a c l k v =>
      have hp1 : ((Ctx.before rest ++ l.cells) ++ ((a, k, v) :: Ctx.after rest)).Pairwise
          (Desc cmp) := by simpa [Ctx.before, Ctx.after] using hp
      rw [List.pairwise_append, List.pairwise_cons, List.pairwise_append] at hp1
      obtain ⟨⟨hb, hl, hbl⟩, ⟨hk, ha⟩, hba⟩ := hp1
      have hih := ih hrest (List.pairwise_append.2 ⟨hb, ha, fun x hx y hy =>
        hba x (List.mem_append_left _ hx) y (List.mem_cons_of_mem _ hy)⟩)
      refine ⟨fun e he => ?_, hih.2⟩
      have he1 : e ∈ Ctx.before rest ∨ e ∈ l.cells ∨ e = (a, k, v) := by
        simpa [Ctx.before] using he
      rcases he1 with he | he | rfl
      · exact hih.1 e he
      · exact hso.trans _ _ _ hfr.2
          (hba e (List.mem_append_right _ he) _ (List.mem_cons_self _ _))
      · exact hfr.2

/-- In an ordered tree the search for `key` ends at the node whose key is equivalent to
`key`, when there is one. -/
theorem zoom_spec {cmp : K → K → Bool} (hso : StrictOrder cmp) (key : K) :
    ∀ (t : Tree K V) (ctx : Ctx K V), t.cells.Pairwise (Desc cmp) →
      ∀ (a : Nat) (k : K) (v : V), (a, k, v) ∈ t.cells → Equiv cmp k key →
      ∃ c l r, (zoom cmp key t ctx).2 = .node a c l k v r := by
  intro t
  induction t with
  | nil => intro ctx _ a k v hmem; simp [Tree.cells] at hmem
  | node a1 c1 l1 k1 v1 r1 ihl ihr =>
    intro ctx hp a k v hmem heq
    rw [Tree.cells, List.pairwise_append, List.pairwise_cons] at hp
    obtain ⟨hl, ⟨hk, hr⟩, hlr⟩ := hp
    have hmem1 : (a, k, v) ∈ l1.cells ∨ (a, k, v) = (a1, k1, v1) ∨ (a, k, v) ∈ r1.cells := by
      simpa [Tree.cells] using hmem
    have hleft : (a, k, v) ∈ l1.cells → cmp k1 k = true :=
      fun h => hlr _ h _ (List.mem_cons_self _ _)
    have hright : (a, k, v) ∈ r1.cells → cmp k k1 = true := fun h => hk _ h
    simp only [zoom]
    by_cases h1 : cmp k1 key = true
    · simp only [h1, if_true]
      rcases hmem1 with h | h | h
      · exact ihl _ hl a k v h heq
      · cases h
        rw [heq.1] at h1; cases h1
      · have := hso.trans _ _ _ (hright h) h1
        rw [heq.1] at this; cases this
    · simp only [h1, if_false]
      by_cases h2 : cmp key k1 = true
      · simp only [h2, if_true]
        rcases hmem1 with h | h | h
        · have := hso.trans _ _ _ h2 (hleft h)
          rw [heq.2] at this; cases this
        · cases h
          rw [heq.2] at h2; cases h2
        · exact ihr _ hr a k v h heq
      · simp only [h2, if_false, Bool.false_eq_true]
        rcases hmem1 with h | h | h
        · rcases hso.incomp _ _ key (hleft h) with h3 | h3
          · exact absurd h3 h1
          · rw [heq.2] at h3; cases h3
        · cases h; exact ⟨_, _, _, rfl⟩
        · rcases hso.incomp _ _ key (hright h) with h3 | h3
          · rw [heq.1] at h3; cases h3
          · exact absurd h3 h2

end Ordering

section PutOrder
variable {K V : Type}

theorem putT_cells_found {cmp : K → K → Bool} {key : K} {t : Tree K V} {ctx : Ctx K V}
    {a : Nat} {c : Color} {l r : Tree K V} {k : K} {v : V}
    (hz : zoom cmp key t [] = (ctx, .node a c l k v r)) (new : Nat) (val : V) :
    t.cells = Ctx.before ctx ++ (l.cells ++ (a, k, v) :: r.cells) ++ Ctx.after ctx
      ∧ (putT cmp new t key val).cells
          = Ctx.before ctx ++ (l.cells ++ (a, k, val) :: r.cells) ++ Ctx.after ctx := by
  have hplug := zoom_plug cmp key t []
  rw [hz] at hplug
  simp only [plug] at hplug
  constructor
  · rw [← hplug, cells_plug]; rfl
  · rw [putT_found hz, cells_plug]; rfl

theorem putT_cells_absent {cmp : K → K → Bool} {key : K} {t : Tree K V} {ctx : Ctx K V}
    (hz : zoom cmp key t [] = (ctx, .nil)) (hne : t ≠ .nil) (new : Nat) (val : V) :
    t.cells = Ctx.before ctx ++ Ctx.after ctx
      ∧ (putT cmp new t key val).cells
          = Ctx.before ctx ++ (new, key, val) :: Ctx.after ctx := by
  have hplug := zoom_plug cmp key t []
  rw [hz] at hplug
  simp only [plug] at hplug
  constructor
  · rw [← hplug, cells_plug]; simp [Tree.cells]
  · rw [putT_absent hz hne, fixup_cells, cells_plug]; simp [Tree.cells]

theorem sorted_iff_keys (cmp : K → K → Bool) (l : List (Nat × K × V)) :
    l.Pairwise (Desc cmp) ↔ (l.map (fun e => e.2.1)).Pairwise (fun x y => cmp y x = true) := by
  rw [List.pairwise_map]
  rfl

/-- Method `PutInner` on trees keeps the in-order sequence strictly descending. -/
theorem putT_sorted {cmp : K → K → Bool} (hso : StrictOrder cmp) (new : Nat) (t : Tree K V)
    (key : K) (val : V) (hp : t.cells.Pairwise (Desc cmp)) :
    (putT cmp new t key val).cells.Pairwise (Desc cmp) := by
  by_cases hne : t = .nil
  · subst hne
    simp [putT, Tree.cells]
  · rcases hz : zoom cmp key t [] with ⟨ctx, t1⟩
    cases t1 with
    | node a c l k v r =>
      obtain ⟨h1, h2⟩ := putT_cells_found hz new val
      rw [sorted_iff_keys] at hp ⊢
      rw [h2]
      rw [h1] at hp
      simpa using hp
    | nil =>
      obtain ⟨h1, h2⟩ := putT_cells_absent hz hne new val
      have hpath := zoom_onPath cmp key t [] (by simp)
      rw [hz] at hpath
      rw [h1] at hp
      obtain ⟨hb, ha⟩ := ctx_bounds hso key ctx hpath hp
      rw [h2]
      rw [List.pairwise_append] at hp ⊢
      refine ⟨hp.1, List.pairwise_cons.2 ⟨fun e he => ha e he, hp.2.1⟩, ?_⟩
      intro x hx y hy
      rcases List.mem_cons.1 hy with rfl | hy
      · exact hb x hx
      · exact hp.2.2 x hx y hy

theorem Rep.empty (cmp : K → K → Bool) (junk : Nat) :
    Rep (RBTree.empty cmp junk : RBTree K V) .nil :=
  ⟨trivial, rfl, List.nodup_nil, by simp [Tree.addrs], Nat.mod_lt _ (by norm_num)⟩

/-- Every state built by `Put` calls from the empty tree represents a tree that satisfies
the colour invariants and, for a strict order, the descending search order. -/
theorem built_rep {cmp : K → K → Bool} {s : RBTree K V} (hb : Built cmp s) :
    ∃ t, Rep s t ∧ RBBal t ∧ s.compare_ = cmp
      ∧ (StrictOrder cmp → t.cells.Pairwise (Desc cmp)) := by
  induction hb with
  | empty junk =>
    exact ⟨.nil, Rep.empty cmp junk, ⟨rfl, trivial, 0, rfl⟩, rfl, fun _ => List.Pairwise.nil⟩
  | put s s1 fuel key val _ hput ih =>
    obtain ⟨t, hr, hrb, hc, hsorted⟩ := ih
    obtain ⟨s2, hr2, hc2, _, hall, _⟩ := Put_all hr key val
    have hs : s1 = s2 := by
      rcases hall fuel with h | ⟨_, h⟩
      · rw [hput] at h; cases h; rfl
      · rw [hput] at h; cases h
    subst hs
    refine ⟨_, hr2, putT_rb _ _ _ _ _ hrb, hc2.trans hc, fun hso => ?_⟩
    rw [hc]
    exact putT_sorted hso _ _ _ _ (hsorted hso)

end PutOrder

/-! ## Concrete trees -/

section ConcreteLemmas
variable {K V : Type}

theorem built_putKeys {cmp : K → K → Bool} (fuel : Nat) (kvs : List (K × V)) :
    ∀ (s s1 : RBTree K V), Built cmp s → putKeys fuel s kvs = .ok s1 → Built cmp s1 := by
  induction kvs with
  | nil =>
    intro s s1 hb h
    cases h
    exact hb
  | cons kv rest ih =>
    intro s s1 hb h
    obtain ⟨k, v⟩ := kv
    simp only [putKeys, bind, Except.bind] at h
    cases hp : Put fuel s k v with
    | error e => rw [hp] at h; cases h
    | ok s2 =>
      rw [hp] at h
      exact ih s2 s1 (Built.put s s2 fuel k v hb hp) h

theorem strictOrder_natLt : StrictOrder natLt where
  irrefl a := by simp [natLt]
  trans a b c := by simp only [natLt, decide_eq_true_eq]; omega
  incomp a b c := by simp only [natLt, decide_eq_true_eq]; omega

theorem built_tree1 : Built natLt tree1 :=
  built_putKeys 2 [(1, 10)] _ _ (Built.empty 0) (by rfl)

theorem built_tree3 : Built natLt tree3 :=
  built_putKeys 4 [(10, 100), (20, 200), (30, 300)] _ _ (Built.empty 0) (by rfl)

theorem built_tree4 : Built natLt tree4 :=
  built_putKeys 4 [(1, 10), (2, 20), (3, 30), (4, 40)] _ _ (Built.empty 0) (by rfl)

theorem rep_tree3 : Rep tree3 shape3 :=
  ⟨⟨rfl, ⟨rfl, trivial, trivial⟩, ⟨rfl, trivial, trivial⟩⟩, rfl, by decide, by decide,
    by decide⟩

theorem rep_tree4 : Rep tree4 shape4 :=
  ⟨⟨rfl, ⟨rfl, ⟨rfl, trivial, trivial⟩, trivial⟩, ⟨rfl, trivial, trivial⟩⟩, rfl, by decide,
    by decide, by decide⟩

theorem rbInv_shape3 : RBInv shape3 :=
  ⟨rfl, ⟨(fun h => by cases h), ⟨fun _ => ⟨rfl, rfl⟩, trivial, trivial⟩,
    ⟨fun _ => ⟨rfl, rfl⟩, trivial, trivial⟩⟩, 1, by decide⟩

theorem rbInv_shape4 : RBInv shape4 :=
  ⟨rfl, ⟨(fun h => by cases h), ⟨(fun h => by cases h),
    ⟨fun _ => ⟨rfl, rfl⟩, trivial, trivial⟩, trivial⟩,
    ⟨(fun h => by cases h), trivial, trivial⟩⟩, 2, by decide⟩

theorem zoom_plug_path {cmp : K → K → Bool} {key : K} (ctx : Ctx K V)
    (hpath : ∀ fr ∈ ctx, fr.onPath cmp key) (t : Tree K V) (acc : Ctx K V) :
    zoom cmp key (plug ctx t) acc = zoom cmp key t (ctx ++ acc) := by
  induction ctx generalizing t with
  | nil => rfl
  | cons fr rest ih =>
    have hfr := hpath fr (List.mem_cons_self _ _)
    show zoom cmp key (plug rest (fr.fill t)) acc = _
    rw [ih (fun fr h => hpath fr (List.mem_cons_of_mem _ h))]
    cases fr with
    | left a c k v r =>
      have h1 : cmp k key = true := hfr
      simp [Frame.fill, zoom, h1]
    | right a c l k v =>
      have h1 : cmp k key = false := hfr.1
      have h2 : cmp key k = true := hfr.2
      simp [Frame.fill, zoom, h1, h2]

theorem putT_mem {cmp : K → K → Bool} (hso : StrictOrder cmp) (new : Nat) (t : Tree K V)
    (key : K) (val : V) :
    ∃ a k, (a, k, val) ∈ (putT cmp new t key val).cells ∧ Equiv cmp k key := by
  by_cases hne : t = .nil
  · subst hne
    exact ⟨new, key, by simp [putT, Tree.cells], hso.irrefl key, hso.irrefl key⟩
  · rcases hz : zoom cmp key t [] with ⟨ctx, t1⟩
    cases t1 with
    | node a c l k v r =>
      have hk := zoom_found cmp key t [] (by rw [hz])
      exact ⟨a, k, by rw [(putT_cells_found hz new val).2]; simp, hk⟩
    | nil =>
      exact ⟨new, key, by rw [(putT_cells_absent hz hne new val).2]; simp,
        hso.irrefl key, hso.irrefl key⟩

end ConcreteLemmas

/-! ## The claims -/

section Claims
variable {K V : Type}

/-- C1: for every state that represents a tree satisfying the three red-black colour
invariants (root BLACK or tree empty, no RED node with a RED child, equal number of BLACK
nodes on every root-to-absent-child path) and for every key and value, `Put(key, value)`
returns, and the tree it leaves satisfies the three invariants again. -/
theorem Put_preserves_colour_invariants (s : RBTree K V) (t : Tree K V) (hr : Rep s t)
    (hrb : RBInv t) (key : K) (val : V) :
    ∃ s1 t1, (∀ fuel, t.height < fuel → Put fuel s key val = .ok s1)
      ∧ Rep s1 t1 ∧ RBInv t1 := by
  obtain ⟨s1, hr1, _, _, hall, _⟩ := Put_all hr key val
  refine ⟨s1, _, fun fuel hfuel => ?_, hr1,
    (rbInv_iff _).2 (putT_rb _ _ _ _ _ ((rbInv_iff _).1 hrb))⟩
  rcases hall fuel with h | ⟨hle, _⟩
  · exact h
  · omega

theorem Put_preserves_colour_invariants_witness :
    Rep tree3 shape3 ∧ RBInv shape3 ∧
      ∃ s1 t1, (∀ fuel, shape3.height < fuel → Put fuel tree3 25 250 = .ok s1)
        ∧ Rep s1 t1 ∧ RBInv t1 :=
  ⟨rep_tree3, rbInv_shape3,
    Put_preserves_colour_invariants tree3 shape3 rep_tree3 rbInv_shape3 25 250⟩

/-- C2: for every tree built from the empty tree by `Put` calls under a strict order
comparator, and every key `k` and value `v`, `Put(k, v)` returns, and `find(k)` right after
it returns a node, not `end()`, whose key is equivalent to `k` and whose value is `v`. -/
theorem Put_then_find (cmp : K → K → Bool) (hso : StrictOrder cmp) (s : RBTree K V)
    (hb : Built cmp s) (key : K) (val : V) :
    ∃ s1 p n, (∃ N, ∀ fuel, N ≤ fuel → Put fuel s key val = .ok s1)
      ∧ (∃ N, ∀ fuel, N ≤ fuel → find fuel s1 key = .ok (some p))
      ∧ some p ≠ RBTree.end_ s1
      ∧ s1.heap p = some n ∧ Equiv cmp n.key_ key ∧ n.val_ = val := by
  obtain ⟨t, hr, _, hc, hsorted⟩ := built_rep hb
  obtain ⟨s1, hr1, hc1, _, hall, _⟩ := Put_all hr key val
  rw [hc] at hr1
  have hs1 := putT_sorted hso s.brk t key val (hsorted hso)
  obtain ⟨a, k, hmem, hequiv⟩ := putT_mem hso s.brk t key val
  obtain ⟨c, l, r, hz⟩ := zoom_spec hso key _ [] hs1 a k val hmem hequiv
  obtain ⟨n, hn, hnk, hnv⟩ := hr1.cell_of_cells hmem
  refine ⟨s1, a, n, ⟨t.height + 1, fun fuel hfuel => ?_⟩,
    ⟨(putT cmp s.brk t key val).height + 1, fun fuel hfuel => ?_⟩, by simp [RBTree.end_],
    hn, by rw [hnk]; exact hequiv, hnv⟩
  · rcases hall fuel with h | ⟨hle, _⟩
    · exact h
    · omega
  · have hd := descend_refines s1.compare_ key _ [] none fuel hr1.models (by omega)
    rw [hc1, hc, hz] at hd
    rw [find, hr1.root, hc1, hc]
    exact hd

theorem Put_then_find_witness :
    StrictOrder natLt ∧ Built natLt tree3 ∧
      ∃ s1 p n, (∃ N, ∀ fuel, N ≤ fuel → Put fuel tree3 25 250 = .ok s1)
        ∧ (∃ N, ∀ fuel, N ≤ fuel → find fuel s1 25 = .ok (some p))
        ∧ some p ≠ RBTree.end_ s1
        ∧ s1.heap p = some n ∧ Equiv natLt n.key_ 25 ∧ n.val_ = 250 :=
  ⟨strictOrder_natLt, built_tree3, Put_then_find natLt strictOrder_natLt tree3 built_tree3 25 250⟩

/-- C3: for every tree built by `Put` calls in which `find(k)` ends at a node `p` (a key
equivalent to `k` is stored), `Put(k, v2)` returns the state that differs from the old one
only in the value field of the cell at `p`, which is now `v2`: `Size()`, the root, the
allocation mark, every other cell and the key, colour and links of `p` are as before, no
node is added, and `find(k)` afterwards ends at `p` again. -/
theorem Put_existing_overwrites (cmp : K → K → Bool) (s : RBTree K V) (hb : Built cmp s)
    (key : K) (v2 : V) (p fuel0 : Nat) (hfind : find fuel0 s key = .ok (some p)) :
    ∃ n s1, s.heap p = some n ∧ Equiv cmp n.key_ key
      ∧ s1 = { s with heap := s.heap.set p { n with val_ := v2 } }
      ∧ (∃ N, ∀ fuel, N ≤ fuel → Put fuel s key v2 = .ok s1)
      ∧ Size s1 = Size s ∧ s1.root_ = s.root_ ∧ s1.brk = s.brk
      ∧ (∀ q, q ≠ p → s1.heap q = s.heap q)
      ∧ s1.heap p = some { n with val_ := v2 }
      ∧ (∃ N, ∀ fuel, N ≤ fuel → find fuel s1 key = .ok (some p)) := by
  obtain ⟨t, hr, _, hc, _⟩ := built_rep hb
  have hd := descend_all s.compare_ key t [] none fuel0 hr.models
  rw [find, hr.root] at hfind
  rw [hfind] at hd
  have hptr : (zoom s.compare_ key t []).2.ptr = some p := by
    rcases hd with h | ⟨_, h⟩
    · exact (Except.ok.inj h).symm
    · cases h
  rcases hz : zoom s.compare_ key t [] with ⟨ctx, t1⟩
  rw [hz] at hptr
  cases t1 with
  | nil => simp at hptr
  | node a c l k v r =>
    simp only [Tree.ptr_node, Option.some.injEq] at hptr
    subst hptr
    have hk := zoom_found s.compare_ key t [] (by rw [hz])
    have hpath := zoom_onPath s.compare_ key t [] (by simp)
    rw [hz] at hpath
    have hplug := zoom_plug s.compare_ key t []
    rw [hz] at hplug
    have hf : Focus s ctx (.node a c l k v r) := (focus_iff _ _ _).1 (by rw [hplug]; exact hr)
    obtain ⟨s1, hr1, hc1, _, hall, hfound⟩ := Put_all hr key v2
    have hs1 := hfound ctx a c l k v r hz
    rw [putT_found hz] at hr1
    refine ⟨_, s1, hf.sub.1, by rw [← hc]; exact hk, hs1, ⟨t.height + 1, fun fuel hfuel => ?_⟩,
      by rw [hs1]; rfl, by rw [hs1], by rw [hs1], fun q hq => by rw [hs1]; exact Heap.set_ne _ _ hq,
      by rw [hs1]; exact Heap.set_same _ _ _,
      ⟨(plug ctx (Tree.node a c l k v2 r)).height + 1, fun fuel hfuel => ?_⟩⟩
    · rcases hall fuel with h | ⟨hle, _⟩
      · exact h
      · omega
    · have hd1 := descend_refines s1.compare_ key _ [] none fuel hr1.models (by omega)
      rw [hc1, zoom_plug_path ctx hpath] at hd1
      rw [find, hr1.root, hc1]
      simpa [zoom, hk.1, hk.2] using hd1

theorem Put_existing_overwrites_witness :
    Built natLt tree3 ∧ find 3 tree3 20 = .ok (some 1) ∧
      ∃ n s1, tree3.heap 1 = some n ∧ Equiv natLt n.key_ 20
        ∧ s1 = { tree3 with heap := tree3.heap.set 1 { n with val_ := 7 } }
        ∧ (∃ N, ∀ fuel, N ≤ fuel → Put fuel tree3 20 7 = .ok s1)
        ∧ Size s1 = Size tree3 ∧ s1.root_ = tree3.root_ ∧ s1.brk = tree3.brk
        ∧ (∀ q, q ≠ 1 → s1.heap q = tree3.heap q)
        ∧ s1.heap 1 = some { n with val_ := 7 }
        ∧ (∃ N, ∀ fuel, N ≤ fuel → find fuel s1 20 = .ok (some 1)) :=
  ⟨built_tree3, rfl, Put_existing_overwrites natLt tree3 built_tree3 20 7 1 3 rfl⟩

/-- C4 (the code fails the claim): in the tree built by `Put(1, _)` the key 1 is present,
yet `Delete(1)` does not return: with any fuel for its loops it dereferences `nullptr` in
`DeleteFixUp`, which `Delete` starts at the already spliced-out BLACK root. -/
theorem Delete_single_key_null_deref :
    Built natLt tree1 ∧ find 2 tree1 1 = .ok (some 0)
      ∧ ∀ fuel, Delete (fuel + 1) tree1 1 = .error .nullDeref :=
  ⟨built_tree1, rfl, fun _ => rfl⟩

/-- C5: for every represented tree, the empty one included, and every key `k` no stored
key is equivalent to, `Delete(k)` returns false and leaves the state as it was: `Size()`
(decremented and incremented again modulo `2^64`), the root and every cell. -/
theorem Delete_absent_key (s : RBTree K V) (t : Tree K V) (hr : Rep s t) (key : K)
    (habs : ∀ x ∈ t.keys, ¬ Equiv s.compare_ x key) (fuel : Nat) (hfuel : t.height < fuel) :
    Delete fuel s key = .ok (false, s) := by
  have hd := descend_refines s.compare_ key t [] none fuel hr.models hfuel
  have hplug := zoom_plug s.compare_ key t []
  have hfound : ∀ a c l k v r, (zoom s.compare_ key t []).2 = .node a c l k v r →
      s.compare_ k key = false ∧ s.compare_ key k = false :=
    fun _ _ _ _ _ _ h => zoom_found _ _ _ _ h
  rcases hz : zoom s.compare_ key t [] with ⟨ctx, t1⟩
  rw [hz] at hd hplug
  simp only [hz] at hfound
  cases t1 with
  | node a c l k v r =>
    exfalso
    refine habs k (mem_keys_iff.2 ⟨a, v, ?_⟩) (hfound _ _ _ _ _ _ rfl)
    simp only [plug] at hplug
    rw [← hplug, cells_plug]
    simp [Tree.cells]
  | nil =>
    rw [← hr.root] at hd
    simp only [Delete, hd, bind, Except.bind, pure, Except.pure, Tree.ptr_nil,
      size_pred_succ hr.size_ok]

/-- No key of the three-node example tree is equivalent to 25. -/
theorem shape3_absent_25 : ∀ x ∈ shape3.keys, ¬ Equiv tree3.compare_ x 25 := by
  intro x hx
  have hk : shape3.keys = [30, 20, 10] := rfl
  rw [hk] at hx
  have hc : tree3.compare_ = natLt := rfl
  rw [hc]
  simp only [List.mem_cons, List.mem_singleton, List.mem_nil_iff, or_false] at hx
  rcases hx with h | h | h <;> subst h <;> simp [Equiv, natLt]

theorem Delete_absent_key_witness :
    Rep tree3 shape3
      ∧ shape3.keys = [30, 20, 10]
      ∧ (∀ x ∈ shape3.keys, ¬ Equiv tree3.compare_ x 25)
      ∧ shape3.height < 3
      ∧ Delete 3 tree3 25 = .ok (false, tree3) :=
  ⟨rep_tree3, rfl, shape3_absent_25, by decide,
    Delete_absent_key tree3 shape3 rep_tree3 25 shape3_absent_25 3 (by decide)⟩

end Claims

section Claims2
variable {K V : Type}

/-- The `DeleteFixUp` loop makes no progress from a BLACK node that is not the root and is
not its father's left child: the loop condition holds, the `if` is skipped, and the next
iteration starts from the same state. -/
theorem DeleteFixUp_stuck (s : RBTree K V) (node father : Nat) (n nf : RBTreeNode K V)
    (hn : s.heap node = some n) (hblack : n.color_ = Color.BLACK)
    (hroot : s.root_ ≠ some node) (hf : n.father_ = some father)
    (hnf : s.heap father = some nf) (hleft : nf.left_child_ ≠ some node) :
    ∀ fuel, DeleteFixUp fuel s (some node) = .error .outOfFuel := by
  intro fuel
  induction fuel with
  | zero => rfl
  | succ m ih =>
    have h1 : ¬ (some node = s.root_) := fun h => hroot h.symm
    have h2 : ¬ (some node = nf.left_child_) := fun h => hleft h.symm
    simp only [DeleteFixUp, h1, if_false, Red_ok hn, hblack, bind, Except.bind, pure,
      Except.pure, Father_ok hn, hf, Left_ok hnf, h2]
    simpa using ih

theorem Models.unique {h : Heap K V} : ∀ (t t1 : Tree K V) (f f1 : Option Nat),
    Models h t f → Models h t1 f1 → t.ptr = t1.ptr → t = t1 := by
  intro t
  induction t with
  | nil =>
    intro t1 f f1 _ _ hp
    cases t1 with
    | nil => rfl
    | node a c l k v r => simp at hp
  | node a c l k v r ihl ihr =>
    intro t1 f f1 hm hm1 hp
    cases t1 with
    | nil => simp at hp
    | node a1 c1 l1 k1 v1 r1 =>
      simp only [Tree.ptr_node, Option.some.injEq] at hp
      subst hp
      obtain ⟨hc, hl, hr⟩ := hm
      obtain ⟨hc1, hl1, hr1⟩ := hm1
      rw [hc] at hc1
      simp only [Option.some.injEq, RBTreeNode.mk.injEq] at hc1
      obtain ⟨rfl, rfl, hpl, hpr, _, rfl⟩ := hc1
      rw [ihl l1 _ _ hl hl1 hpl, ihr r1 _ _ hr hr1 hpr]

theorem Rep.tree_unique {s : RBTree K V} {t t1 : Tree K V} (hr : Rep s t) (hr1 : Rep s t1) :
    t = t1 :=
  Models.unique t t1 none none hr.models hr1.models (hr.root.symm.trans hr1.root)

/-- C6 (the code fails the claim): `tree4`, built by `Put` of 1, 2, 3, 4, satisfies the
red-black invariants and holds key 1 in a BLACK leaf that is its father's right child.
`Delete(1)` never returns: whatever the fuel, the `DeleteFixUp` loop it starts at the
spliced-out pivot is still running when the fuel is used up. -/
theorem Delete_black_leaf_never_returns :
    Built natLt tree4 ∧ Rep tree4 shape4 ∧ RBInv shape4 ∧ find 3 tree4 1 = .ok (some 0)
      ∧ ∀ fuel, Delete fuel tree4 1 = .error .outOfFuel := by
  refine ⟨built_tree4, rep_tree4, rbInv_shape4, rfl, fun fuel => ?_⟩
  match fuel with
  | 0 => rfl
  | 1 => rfl
  | m + 2 =>
    have hstuck := DeleteFixUp_stuck spliced4 0 1
      ⟨1, 10, none, none, some 1, Color.BLACK⟩ ⟨2, 20, some 2, none, none, Color.BLACK⟩
      rfl rfl (by decide) rfl rfl (by decide) (m + 2)
    have e : Delete (m + 2) tree4 1 =
        (DeleteFixUp (m + 2) spliced4 (some 0)).bind (fun s3 =>
          (SetLeft s3.heap (some 0) none).bind (fun h4 =>
            (SetRight h4 (some 0) none).bind (fun h5 =>
              .ok (true, { s3 with heap := deleteNode h5 (some 0) })))) := rfl
    rw [e, hstuck]
    rfl

/-- C7 refuted as stated: after `Put` of 10, 20, 30 with the ascending comparator the root
holds 20 and its left child 30, so the tree the state represents does not have the keys of
left subtrees before, and those of right subtrees after, the key of the node. -/
theorem ascending_order_counterexample :
    StrictOrder natLt ∧ Built natLt tree3 ∧ ¬ ∃ t, Rep tree3 t ∧ Ascending natLt t := by
  refine ⟨strictOrder_natLt, built_tree3, ?_⟩
  rintro ⟨t, hr, hasc⟩
  rw [hr.tree_unique rep_tree3] at hasc
  have h := hasc.1 30 (by simp [shape3, Tree.keys, Tree.toList])
  simp [natLt] at h

/-- C7 as amended: after any sequence of `Put` calls on an initially empty tree with a strict
order `cmp`, at every node with key `k` each key `x` of the left subtree has `cmp k x` and
each key `x` of the right subtree has `cmp x k`; and `PutInner` hangs a new node under an
existing node with key `fk` as the left child when `cmp fk key`, as the right child
otherwise. -/
theorem Put_keeps_mirrored_order (cmp : K → K → Bool) (hso : StrictOrder cmp)
    (s : RBTree K V) (hb : Built cmp s) :
    ∃ t, Rep s t ∧ Mirrored cmp t
      ∧ ∀ fa fk fv key val, (fa, fk, fv) ∈ t.cells →
          ∃ s1, PutInner.attach s (some fa) key val = .ok (some s.brk, s1)
            ∧ (if cmp fk key = true then Left s1.heap (some fa) = .ok (some s.brk)
               else Right s1.heap (some fa) = .ok (some s.brk)) := by
  obtain ⟨t, hr, _, hc, hsorted⟩ := built_rep hb
  refine ⟨t, hr, (mirrored_iff_pairwise hso t).2 (hsorted hso), ?_⟩
  intro fa fk fv key val hmem
  obtain ⟨n, hn, hnk, _⟩ := hr.cell_of_cells hmem
  have hfa : fa < s.brk :=
    hr.fresh fa ((addrs_perm_cells t).mem_iff.2 (List.mem_map.2 ⟨_, hmem, rfl⟩))
  have hne : fa ≠ s.brk := Nat.ne_of_lt hfa
  have h1 : (s.heap.set s.brk ⟨key, val, none, none, none, Color.RED⟩) fa = some n :=
    (Heap.set_ne _ _ hne).trans hn
  have h2 : (s.heap.set s.brk ⟨key, val, none, none, none, Color.RED⟩) s.brk = some _ :=
    Heap.set_same _ _ _
  by_cases hcmp : cmp fk key = true
  · refine ⟨{ s with
      heap := ((s.heap.set s.brk ⟨key, val, none, none, none, Color.RED⟩).set fa
        { n with left_child_ := some s.brk }).set s.brk
        ⟨key, val, none, none, some fa, Color.RED⟩,
      brk := s.brk + 1 }, ?_, ?_⟩
    · simp only [PutInner.attach, newNode, bind, Except.bind, pure, Except.pure, Key_ok h1, hnk,
        hc, hcmp, if_true, SetLeft_some h1 h2 hne.symm]
    · rw [if_pos hcmp]
      rw [Left_ok (n := { n with left_child_ := some s.brk })]
      show Heap.set _ _ _ fa = _
      rw [Heap.set_ne _ _ hne, Heap.set_same]
  · refine ⟨{ s with
      heap := ((s.heap.set s.brk ⟨key, val, none, none, none, Color.RED⟩).set fa
        { n with right_child_ := some s.brk }).set s.brk
        ⟨key, val, none, none, some fa, Color.RED⟩,
      brk := s.brk + 1 }, ?_, ?_⟩
    · have hcf : cmp fk key = false := by simpa using hcmp
      simp only [PutInner.attach, newNode, bind, Except.bind, pure, Except.pure, Key_ok h1, hnk,
        hc, hcf, Bool.false_eq_true, if_false, SetRight_some h1 h2 hne.symm]
    · rw [if_neg hcmp]
      rw [Right_ok (n := { n with right_child_ := some s.brk })]
      show Heap.set _ _ _ fa = _
      rw [Heap.set_ne _ _ hne, Heap.set_same]

theorem Put_keeps_mirrored_order_witness :
    StrictOrder natLt ∧ Built natLt tree3 ∧
      ∃ t, Rep tree3 t ∧ Mirrored natLt t
        ∧ ∀ fa fk fv key val, (fa, fk, fv) ∈ t.cells →
            ∃ s1, PutInner.attach tree3 (some fa) key val = .ok (some tree3.brk, s1)
              ∧ (if natLt fk key = true then Left s1.heap (some fa) = .ok (some tree3.brk)
                 else Right s1.heap (some fa) = .ok (some tree3.brk)) :=
  ⟨strictOrder_natLt, built_tree3,
    Put_keeps_mirrored_order natLt strictOrder_natLt tree3 built_tree3⟩

/-- C8 (the code fails the claim): `tree3` holds the keys 30, 20, 10 (left to right), but
the traversal from `begin()` by `++` visits 30 only: `FindNext` of a node without right
child returns `nullptr` after its ascent loop, so the iterator equals `end()` after one
step. -/
theorem traverse_stops_after_first :
    Built natLt tree3 ∧ Rep tree3 shape3 ∧ shape3.keys = [30, 20, 10]
      ∧ ∀ fuel, traverse (fuel + 2) tree3 = .ok [30] :=
  ⟨built_tree3, rep_tree3, rfl, fun _ => rfl⟩

/-- C9 (the code fails the claim): the constructor leaves `size_` as it finds it.  A tree
constructed empty in storage holding 7 has no nodes, yet `Size()` is 7 and `Empty()` is
false. -/
theorem fresh_tree_size_is_junk :
    Rep (RBTree.empty natLt 7 : RBTree Nat Nat) .nil
      ∧ (Tree.nil : Tree Nat Nat).count = 0
      ∧ Size (RBTree.empty natLt 7 : RBTree Nat Nat) = 7
      ∧ Empty (RBTree.empty natLt 7 : RBTree Nat Nat) = false :=
  ⟨Rep.empty natLt 7, rfl, rfl, rfl⟩

/-- C10 (the code fails the claim): on the empty tree `Get(15)` creates the entry with the
default value and returns it, but `Size()` stays 0 with one node in the tree: the branch
for an empty tree does not go through `PutInner` and never increments `size_`. -/
theorem Get_on_empty_tree_keeps_size :
    ∃ s1, (∀ fuel, Get fuel (RBTree.empty natLt 0 : RBTree Nat Nat) 15 = .ok (some 0, s1))
      ∧ Rep s1 (.node 0 Color.BLACK .nil 15 0 .nil)
      ∧ (Tree.node 0 Color.BLACK .nil 15 0 .nil : Tree Nat Nat).count = 1
      ∧ Size s1 = 0 :=
  ⟨_, fun _ => rfl,
    ⟨⟨rfl, trivial, trivial⟩, rfl, by decide, by decide, by decide⟩, rfl, rfl⟩

end Claims2

/-! ## Size and `Get` away from the two defects -/

section Support
variable {K V : Type}

theorem putT_count (cmp : K → K → Bool) (new : Nat) (t : Tree K V) (key : K) (val : V) :
    (putT cmp new t key val).count =
      match findT cmp key t with
      | some _ => t.count
      | none => t.count + 1 := by
  by_cases hne : t = .nil
  · subst hne
    rfl
  · rcases hz : zoom cmp key t [] with ⟨ctx, t1⟩
    cases t1 with
    | node a c l k v r =>
      obtain ⟨h1, h2⟩ := putT_cells_found hz new val
      have hf : findT cmp key t = some (k, v) := by simp only [findT, hz]
      rw [hf]
      show _ = t.count
      rw [count_eq_cells, count_eq_cells, h1, h2]
      simp only [List.length_append, List.length_cons]
    | nil =>
      obtain ⟨h1, h2⟩ := putT_cells_absent hz hne new val
      have hf : findT cmp key t = none := by simp only [findT, hz]
      rw [hf]
      show _ = t.count + 1
      rw [count_eq_cells, count_eq_cells, h1, h2]
      simp only [List.length_append, List.length_cons]
      omega

/-- After `Put` calls only, `size_` is the number of nodes plus whatever the constructor
found in the storage of `size_`, modulo `2^64`. -/
theorem built_size {cmp : K → K → Bool} {s : RBTree K V} (hb : Built cmp s) :
    ∃ junk t, Rep s t ∧ Size s = (junk + t.count) % 2 ^ 64 := by
  induction hb with
  | empty junk => exact ⟨junk, .nil, Rep.empty cmp junk, rfl⟩
  | put s s1 fuel key val _ hput ih =>
    obtain ⟨junk, t, hr, hsz⟩ := ih
    obtain ⟨s2, hr2, _, hsize, hall, _⟩ := Put_all hr key val
    have hs : s1 = s2 := by
      rcases hall fuel with h | ⟨_, h⟩
      · rw [hput] at h; cases h; rfl
      · rw [hput] at h; cases h
    subst hs
    refine ⟨junk, _, hr2, ?_⟩
    have hcount := putT_count s.compare_ s.brk t key val
    simp only [Size] at hsz ⊢
    cases hf : findT s.compare_ key t with
    | some e =>
      rw [hf] at hsize hcount
      have h1 : s1.size_ = s.size_ := hsize.1
      have h2 : (putT s.compare_ s.brk t key val).count = t.count := hcount
      rw [h1, h2, hsz]
    | none =>
      rw [hf] at hsize hcount
      have h1 : s1.size_ = (s.size_ + 1) % 2 ^ 64 := hsize.1
      have h2 : (putT s.compare_ s.brk t key val).count = t.count + 1 := hcount
      rw [h1, h2, hsz]
      omega

/-- On a tree that is not empty `Get` does what is asked of it: a stored key yields its
node and leaves the state alone, an absent key gets a node with the default value and
`size_` goes up by one. -/
theorem Get_nonempty [Inhabited V] {s : RBTree K V} {t : Tree K V} (hr : Rep s t)
    (hne : t ≠ .nil) (key : K) (fuel : Nat) (hfuel : t.height < fuel) :
    (∀ a c l k v r, (zoom s.compare_ key t []).2 = .node a c l k v r →
        Get fuel s key = .ok (some a, s)
          ∧ ∃ n, s.heap a = some n ∧ n.val_ = v ∧ Equiv s.compare_ n.key_ key)
      ∧ ((zoom s.compare_ key t []).2 = .nil →
        ∃ p s1 n, Get fuel s key = .ok (p, s1)
          ∧ Rep s1 (putT s.compare_ s.brk t key default)
          ∧ deref s1.heap p = .ok n ∧ n.val_ = default
          ∧ Size s1 = (Size s + 1) % 2 ^ 64) := by
  have hd := descend_refines s.compare_ key t [] none fuel hr.models hfuel
  rw [← hr.root] at hd
  obtain ⟨a0, hroot⟩ : ∃ a0, s.root_ = some a0 := by
    cases t with
    | nil => exact absurd rfl hne
    | node a0 _ _ _ _ _ => exact ⟨a0, hr.root⟩
  constructor
  · intro a c l k v r hz
    have hk := zoom_found s.compare_ key t [] hz
    have hplug := zoom_plug s.compare_ key t []
    rw [hz] at hplug hd
    have hmem : (a, k, v) ∈ t.cells := by
      simp only [plug] at hplug
      rw [← hplug, cells_plug]
      simp [Tree.cells]
    obtain ⟨n, hn, hnk, hnv⟩ := hr.cell_of_cells hmem
    refine ⟨?_, n, hn, hnv, by rw [hnk]; exact hk⟩
    rw [hroot] at hd
    simp only [Get, hroot, hd, Tree.ptr_node, bind, Except.bind, pure, Except.pure, Value_ok hn]
  · intro hz
    obtain ⟨p, s1, hr1, _, ⟨n, hn, hnv, _⟩, hsize, hall, _⟩ := PutInner_all hr key (default : V)
    rw [hz] at hd
    rw [hroot] at hd
    refine ⟨p, s1, n, ?_, hr1, hn, hnv, ?_⟩
    · rcases hall fuel with h | ⟨hle, _⟩
      · simp only [Get, hroot, hd, Tree.ptr_nil, bind, Except.bind, h]
      · omega
    · have hf : findT s.compare_ key t = none := by simp only [findT, hz]
      rw [hf] at hsize
      exact hsize.1

end Support

/-! ## Height of a red-black tree -/

section Height
variable {K V : Type}

/-- A tree whose paths all carry `n` BLACK nodes has at least `2^n - 1` nodes. -/
theorem bal_count {t : Tree K V} : ∀ {n : Nat}, Bal t n → 2 ^ n ≤ t.count + 1 := by
  induction t with
  | nil =>
    intro n h
    have : n = 0 := h
    subst this
    simp [Tree.count]
  | node a c l k v r ihl ihr =>
    intro n h
    obtain ⟨m, hn, hl, hr⟩ := h
    have h1 := ihl hl
    have h2 := ihr hr
    subst hn
    simp only [Tree.count]
    cases c with
    | RED =>
      simp only [blackOf, Nat.add_zero]
      omega
    | BLACK =>
      simp only [blackOf, pow_succ]
      omega

/-- Without a RED node below a RED node, a path is at most twice as long as its black
count, plus one when the root is RED. -/
theorem bal_height {t : Tree K V} : ∀ {n : Nat}, NoRedRed t → Bal t n →
    t.height ≤ 2 * n + (if t.isRed = true then 1 else 0) := by
  induction t with
  | nil =>
    intro n _ _
    simp [Tree.height]
  | node a c l k v r ihl ihr =>
    intro n hnr h
    obtain ⟨m, hn, hl, hr⟩ := h
    obtain ⟨hc, hnl, hnr1⟩ := hnr
    have h1 := ihl hnl hl
    have h2 := ihr hnr1 hr
    subst hn
    simp only [Tree.height]
    cases c with
    | RED =>
      obtain ⟨e1, e2⟩ := hc rfl
      rw [e1] at h1
      rw [e2] at h2
      simp only [Tree.isRed, blackOf, if_true] at h1 h2 ⊢
      simp at h1 h2
      omega
    | BLACK =>
      simp only [Tree.isRed, blackOf] at h1 h2 ⊢
      split at h1 <;> split at h2 <;> simp <;> omega

/-- Height bound of a red-black tree with a BLACK root. -/
theorem rbBal_height {t : Tree K V} (h : RBBal t) :
    2 ^ t.height ≤ (t.count + 1) ^ 2 ∧ t.height ≤ 2 * Nat.log 2 (t.count + 1) := by
  obtain ⟨hb, hnr, n, hn⟩ := h
  have h1 := bal_count hn
  have h2 := bal_height hnr hn
  rw [hb] at h2
  simp only [Bool.false_eq_true, if_false, Nat.add_zero] at h2
  constructor
  · calc 2 ^ t.height ≤ 2 ^ (2 * n) := Nat.pow_le_pow_right (by norm_num) h2
      _ = (2 ^ n) ^ 2 := by rw [← pow_mul, Nat.mul_comm]
      _ ≤ (t.count + 1) ^ 2 := Nat.pow_le_pow_left h1 2
  · have h3 : n ≤ Nat.log 2 (t.count + 1) := Nat.le_log_of_pow_le (by norm_num) h1
    omega

theorem keys_length (t : Tree K V) : t.keys.length = t.count := by
  rw [keys_eq_cells, List.length_map, count_eq_cells]

/-- Under a strict order a descending list of keys has no key twice. -/
theorem keys_nodup {cmp : K → K → Bool} (hso : StrictOrder cmp) {t : Tree K V}
    (hp : t.cells.Pairwise (Desc cmp)) : t.keys.Nodup := by
  rw [keys_eq_cells]
  have h := (sorted_iff_keys cmp t.cells).1 hp
  refine h.imp ?_
  intro x y hxy e
  subst e
  rw [hso.irrefl] at hxy
  cases hxy

end Height

section Claims3
variable {K V : Type}

/-- C11: after any sequence of `Put` calls on a tree constructed empty, the tree the state
represents has height `h` and `n` stored keys (one per node, pairwise distinct under a
strict order) with `2^h <= (n+1)^2`, and `h <= 2*log2(n+1)` with the logarithm rounded
down. -/
theorem Put_sequence_height_bound (cmp : K → K → Bool) (s : RBTree K V)
    (hb : Built cmp s) :
    ∃ t, Rep s t ∧ t.keys.length = t.count ∧ (StrictOrder cmp → t.keys.Nodup)
      ∧ 2 ^ t.height ≤ (t.keys.length + 1) ^ 2
      ∧ t.height ≤ 2 * Nat.log 2 (t.keys.length + 1) := by
  obtain ⟨t, hr, hrb, _, hord⟩ := built_rep hb
  have h := rbBal_height hrb
  rw [← keys_length] at h
  exact ⟨t, hr, keys_length t, fun hso => keys_nodup hso (hord hso), h.1, h.2⟩

theorem Put_sequence_height_bound_witness :
    Built natLt tree3 ∧
      ∃ t, Rep tree3 t ∧ t.keys.length = t.count ∧ (StrictOrder natLt → t.keys.Nodup)
        ∧ 2 ^ t.height ≤ (t.keys.length + 1) ^ 2
        ∧ t.height ≤ 2 * Nat.log 2 (t.keys.length + 1) :=
  ⟨built_tree3, Put_sequence_height_bound natLt tree3 built_tree3⟩

end Claims3

section Claims4
variable {K V : Type}

/-- C18: after any sequence of `Put` calls on a tree constructed empty, with a strict order
`less` as comparator, the tree satisfies the mirrored ordering the searches descend by: at
every node with key `x` each key `l` of the left subtree has `less(x, l)` and each key `r`
of the right subtree has `less(r, x)`; the left-to-right in-order listing of the keys is
strictly descending. -/
theorem Put_sequence_descending (cmp : K → K → Bool) (hso : StrictOrder cmp)
    (s : RBTree K V) (hb : Built cmp s) :
    ∃ t, Rep s t ∧ Mirrored cmp t ∧ t.keys.Pairwise (fun x y => cmp y x = true) := by
  obtain ⟨t, hr, _, _, hord⟩ := built_rep hb
  refine ⟨t, hr, (mirrored_iff_pairwise hso t).2 (hord hso), ?_⟩
  rw [keys_eq_cells]
  exact (sorted_iff_keys cmp t.cells).1 (hord hso)

theorem Put_sequence_descending_witness :
    StrictOrder natLt ∧ Built natLt tree3 ∧
      ∃ t, Rep tree3 t ∧ Mirrored natLt t ∧ t.keys.Pairwise (fun x y => natLt y x = true) :=
  ⟨strictOrder_natLt, built_tree3,
    Put_sequence_descending natLt strictOrder_natLt tree3 built_tree3⟩

end Claims4

section Claims5
variable {V : Type}

/-- The tree `Put` builds from three ascending keys `a < b < c` given in this order, with
the addresses `0`, `1`, `2` the three nodes receive. -/
theorem putT_three (a b c : Nat) (va vb vc : V) (hab : a < b) (hbc : b < c) :
    putT natLt 2 (putT natLt 1 (putT natLt 0 .nil a va) b vb) c vc
      = .node 1 Color.BLACK (.node 2 Color.RED .nil c vc .nil) b vb
          (.node 0 Color.RED .nil a va .nil) := by
  have hac : a < c := Nat.lt_trans hab hbc
  simp [putT, zoom, natLt, hab, hbc, hac, fixup, fixLoop, fixStep, Frame.fill, plug,
    Frame.color, Tree.isRed]

/-- C13: for all natural-number keys `a < b < c`, `Put` of `a`, `b`, `c` in this order into
a tree constructed empty with the comparator `less` returns, and leaves `b` in the BLACK
root with `a` and `c` in the root's two children, both RED leaves (`c` is the left child
and `a` the right child). -/
theorem Put_three_ascending (a b c : Nat) (va vb vc : V) (junk : Nat) (hab : a < b)
    (hbc : b < c) :
    ∃ s, (∀ fuel, 3 ≤ fuel →
          putKeys fuel (RBTree.empty natLt junk) [(a, va), (b, vb), (c, vc)] = .ok s)
      ∧ Rep s (.node 1 Color.BLACK (.node 2 Color.RED .nil c vc .nil) b vb
          (.node 0 Color.RED .nil a va .nil)) := by
  have hr0 : Rep (RBTree.empty natLt junk : RBTree Nat V) .nil := Rep.empty natLt junk
  obtain ⟨s1, hr1, hc1, hsz1, hall1, _⟩ := Put_all hr0 a va
  have hb1 : s1.brk = 1 := by
    have : findT (RBTree.empty natLt junk : RBTree Nat V).compare_ a (.nil : Tree Nat V)
        = none := rfl
    rw [this] at hsz1
    exact hsz1.2
  have hcmp0 : (RBTree.empty natLt junk : RBTree Nat V).compare_ = natLt := rfl
  have hbrk0 : (RBTree.empty natLt junk : RBTree Nat V).brk = 0 := rfl
  rw [hcmp0, hbrk0] at hr1
  rw [hcmp0] at hc1
  obtain ⟨s2, hr2, hc2, hsz2, hall2, _⟩ := Put_all hr1 b vb
  rw [hc1, hb1] at hr2
  have hb2 : s2.brk = 2 := by
    have : findT s1.compare_ b (putT natLt 0 (.nil : Tree Nat V) a va) = none := by
      rw [hc1]
      simp [findT, putT, zoom, natLt, hab, Nat.lt_asymm hab]
    rw [this] at hsz2
    rw [hsz2.2, hb1]
  rw [hc1] at hc2
  obtain ⟨s3, hr3, _, _, hall3, _⟩ := Put_all hr2 c vc
  rw [hc2, hb2, putT_three a b c va vb vc hab hbc] at hr3
  refine ⟨s3, fun fuel hfuel => ?_, hr3⟩
  have e1 : Put fuel (RBTree.empty natLt junk) a va = .ok s1 := by
    rcases hall1 fuel with h | ⟨hle, _⟩
    · exact h
    · simp only [Tree.height] at hle
      omega
  have e2 : Put fuel s1 b vb = .ok s2 := by
    rcases hall2 fuel with h | ⟨hle, _⟩
    · exact h
    · simp [putT, Tree.height] at hle
      omega
  have e3 : Put fuel s2 c vc = .ok s3 := by
    rcases hall3 fuel with h | ⟨hle, _⟩
    · exact h
    · have hh : (putT natLt 1 (putT natLt 0 (.nil : Tree Nat V) a va) b vb).height = 2 := by
        simp [putT, zoom, natLt, hab, fixup, fixLoop, fixStep, Frame.fill, Tree.height]
      rw [hh] at hle
      omega
  simp only [putKeys, e1, e2, e3, bind, Except.bind, pure, Except.pure]

theorem Put_three_ascending_witness :
    (10 : Nat) < 20 ∧ (20 : Nat) < 30 ∧
      ∃ s, (∀ fuel, 3 ≤ fuel →
            putKeys fuel (RBTree.empty natLt 0) [(10, 100), (20, 200), (30, 300)] = .ok s)
        ∧ Rep s (.node 1 Color.BLACK (.node 2 Color.RED .nil 30 300 .nil) 20 200
            (.node 0 Color.RED .nil 10 100 .nil)) :=
  ⟨by decide, by decide, Put_three_ascending 10 20 30 100 200 300 0 (by decide) (by decide)⟩

end Claims5

section Claims6
variable {K V : Type}

/-- A node without right child: whatever the ascent loop of `FindNext` finds, the call
returns `nullptr` when it returns. -/
theorem FindNext_no_right_child {h : Heap K V} {x : Nat} {n : RBTreeNode K V}
    (hx : h x = some n) (hr : n.right_child_ = none) (fuel : Nat) (r : Option Nat)
    (hres : FindNext fuel h (some x) = .ok r) : r = none := by
  simp only [FindNext, deref_ok hx, hr, bind, Except.bind, pure, Except.pure] at hres
  cases ha : FindNext.ascend fuel h n.father_ (some x) with
  | error e =>
    rw [ha] at hres
    cases hres
  | ok p =>
    rw [ha] at hres
    exact (Except.ok.inj hres).symm

/-- C12: after `Put` of 10, 20, 30 the nodes stand, left to right, at the addresses 2, 1,
0, and the node at 2 is the left child of the node at 1 and has no right child; its
in-order follower is therefore its father, but `FindNext()` on it returns `nullptr`. -/
theorem FindNext_returns_null_for_left_child :
    Rep tree3 shape3 ∧ shape3.cells.map (fun e => e.1) = [2, 1, 0]
      ∧ Left tree3.heap (some 1) = .ok (some 2)
      ∧ Right tree3.heap (some 2) = .ok none
      ∧ Father tree3.heap (some 2) = .ok (some 1)
      ∧ ∀ fuel, FindNext (fuel + 1) tree3.heap (some 2) = .ok none :=
  ⟨rep_tree3, rfl, rfl, rfl, rfl, fun _ => rfl⟩

/-- C14 as stated fails: after `Put` of 10, 20, 30 no call `Delete(20)` returns true in a
state whose tree lists the keys `[10, 30]` left to right. -/
theorem Delete_middle_inorder_counterexample :
    Built natLt tree3
      ∧ ¬ ∃ fuel s t, Delete fuel tree3 20 = .ok (true, s) ∧ Rep s t ∧ t.keys = [10, 30] := by
  refine ⟨built_tree3, ?_⟩
  rintro ⟨fuel, s, t, hd, hr, hk⟩
  cases fuel with
  | zero => cases hd
  | succ n =>
    have h1 : Delete (n + 1) tree3 20
        = .ok (true, stateOf ((Delete 1 tree3 20).map Prod.snd) tree3) := rfl
    rw [h1] at hd
    have hs : stateOf ((Delete 1 tree3 20).map Prod.snd) tree3 = s :=
      (Prod.mk.inj (Except.ok.inj hd)).2
    have hr1 : Rep (stateOf ((Delete 1 tree3 20).map Prod.snd) tree3)
        (.node 1 Color.BLACK .nil 30 300 (.node 0 Color.RED .nil 10 100 .nil)) :=
      ⟨⟨rfl, trivial, ⟨rfl, trivial, trivial⟩⟩, rfl, by decide, by decide, by decide⟩
    rw [hs] at hr1
    have ht := hr.tree_unique hr1
    subst ht
    revert hk
    decide

/-- C14, amended: after `Put` of 10, 20, 30 the call `Delete(20)` returns true; the root
then holds key 30 and is BLACK, every root-to-absent-child path has the same black count,
and the left-to-right in-order listing of the keys is `[30, 10]`. -/
theorem Delete_middle_of_three :
    Built natLt tree3
      ∧ ∃ s t, (∀ fuel, Delete (fuel + 1) tree3 20 = .ok (true, s)) ∧ Rep s t
        ∧ t = .node 1 Color.BLACK .nil 30 300 (.node 0 Color.RED .nil 10 100 .nil)
        ∧ RBInv t ∧ t.keys = [30, 10] ∧ Size s = 2 :=
  ⟨built_tree3, stateOf ((Delete 1 tree3 20).map Prod.snd) tree3,
    .node 1 Color.BLACK .nil 30 300 (.node 0 Color.RED .nil 10 100 .nil),
    fun _ => rfl,
    ⟨⟨rfl, trivial, ⟨rfl, trivial, trivial⟩⟩, rfl, by decide, by decide, by decide⟩,
    rfl, ⟨rfl, ⟨(fun h => by cases h), trivial, ⟨fun _ => ⟨rfl, rfl⟩, trivial, trivial⟩⟩,
      1, by decide⟩, rfl, rfl⟩

end Claims6

/-! ## Rotations -/

section RotLemmas
variable {K V : Type}

theorem colors_fill (fr : Frame K V) {t t1 : Tree K V} (h : t.colors = t1.colors) :
    (fr.fill t).colors = (fr.fill t1).colors := by
  cases fr <;> simp [Frame.fill, Tree.colors, h]

theorem colors_plug (ctx : Ctx K V) : ∀ {t t1 : Tree K V}, t.colors = t1.colors →
    (plug ctx t).colors = (plug ctx t1).colors := by
  induction ctx with
  | nil => intro t t1 h; exact h
  | cons fr rest ih => intro t t1 h; exact ih (colors_fill fr h)

theorem Models.father_of_root {h : Heap K V} {a : Nat} {c : Color} {l r : Tree K V} {k : K}
    {v : V} {f : Option Nat} (hm : Models h (.node a c l k v r) f) :
    Father h (some a) = .ok f ∧ Left h (some a) = .ok l.ptr ∧ Right h (some a) = .ok r.ptr :=
  ⟨Father_ok hm.1, Left_ok hm.1, Right_ok hm.1⟩

end RotLemmas

section Claims7
variable {K V : Type}

/-- C15: in a state that represents a tree (all father links consistent with the child
links) `LeftRotate(x)` on a node `x` with right child `y` returns; `y` then stands in the
slot `x` had (`root_` is `y` when `x` was the root and is unchanged otherwise), `x` is the
left child of `y`, the state again represents a tree, so every father link agrees with
the child link that leads to the node, and the left-to-right listings of the entries and of
the colours are what they were.  `RightRotate(x)` on a node `x` with left child `y` does
the same in mirror image. -/
theorem rotations_keep_order_colours_links :
    (∀ (s : RBTree K V) (ctx : Ctx K V) (x y : Nat) (cx cy : Color) (a b c : Tree K V)
        (kx ky : K) (vx vy : V),
        Rep s (plug ctx (.node x cx a kx vx (.node y cy b ky vy c))) →
        ∃ s1, LeftRotate s (some x) = .ok s1
          ∧ Rep s1 (plug ctx (.node y cy (.node x cx a kx vx b) ky vy c))
          ∧ Father s1.heap (some y) = Father s.heap (some x)
          ∧ Father s1.heap (some x) = .ok (some y)
          ∧ Left s1.heap (some y) = .ok (some x)
          ∧ (ctx = [] → s1.root_ = some y) ∧ (ctx ≠ [] → s1.root_ = s.root_)
          ∧ (plug ctx (.node y cy (.node x cx a kx vx b) ky vy c)).cells
              = (plug ctx (.node x cx a kx vx (.node y cy b ky vy c))).cells
          ∧ (plug ctx (.node y cy (.node x cx a kx vx b) ky vy c)).colors
              = (plug ctx (.node x cx a kx vx (.node y cy b ky vy c))).colors)
    ∧ (∀ (s : RBTree K V) (ctx : Ctx K V) (x y : Nat) (cx cy : Color) (a b c : Tree K V)
        (kx ky : K) (vx vy : V),
        Rep s (plug ctx (.node x cx (.node y cy b ky vy c) kx vx a)) →
        ∃ s1, RightRotate s (some x) = .ok s1
          ∧ Rep s1 (plug ctx (.node y cy b ky vy (.node x cx c kx vx a)))
          ∧ Father s1.heap (some y) = Father s.heap (some x)
          ∧ Father s1.heap (some x) = .ok (some y)
          ∧ Right s1.heap (some y) = .ok (some x)
          ∧ (ctx = [] → s1.root_ = some y) ∧ (ctx ≠ [] → s1.root_ = s.root_)
          ∧ (plug ctx (.node y cy b ky vy (.node x cx c kx vx a))).cells
              = (plug ctx (.node x cx (.node y cy b ky vy c) kx vx a)).cells
          ∧ (plug ctx (.node y cy b ky vy (.node x cx c kx vx a))).colors
              = (plug ctx (.node x cx (.node y cy b ky vy c) kx vx a)).colors) := by
  constructor
  · intro s ctx x y cx cy a b c kx ky vx vy hr
    have hf := (focus_iff s ctx _).1 hr
    obtain ⟨s1, hrot, hf1, _, _, _⟩ := LeftRotate_focus hf
    refine ⟨s1, hrot, (focus_iff s1 ctx _).2 hf1, ?_, ?_, ?_, ?_, ?_, ?_, ?_⟩
    · rw [(Models.father_of_root hf1.sub).1, (Models.father_of_root hf.sub).1]
    · exact (Models.father_of_root hf1.sub.2.1).1
    · exact (Models.father_of_root hf1.sub).2.1
    · intro e
      subst e
      exact hf1.root
    · intro hne
      cases ctx with
      | nil => exact absurd rfl hne
      | cons fr rest => rw [hf1.root, hf.root]; exact ptr_plug_cons fr rest _ _
    · rw [cells_plug, cells_plug]
      simp [Tree.cells]
    · exact colors_plug ctx (by simp [Tree.colors])
  · intro s ctx x y cx cy a b c kx ky vx vy hr
    have hf := (focus_iff s ctx _).1 hr
    obtain ⟨s1, hrot, hf1, _, _, _⟩ := RightRotate_focus hf
    refine ⟨s1, hrot, (focus_iff s1 ctx _).2 hf1, ?_, ?_, ?_, ?_, ?_, ?_, ?_⟩
    · rw [(Models.father_of_root hf1.sub).1, (Models.father_of_root hf.sub).1]
    · exact (Models.father_of_root hf1.sub.2.2).1
    · exact (Models.father_of_root hf1.sub).2.2
    · intro e
      subst e
      exact hf1.root
    · intro hne
      cases ctx with
      | nil => exact absurd rfl hne
      | cons fr rest => rw [hf1.root, hf.root]; exact ptr_plug_cons fr rest _ _
    · rw [cells_plug, cells_plug]
      simp [Tree.cells]
    · exact colors_plug ctx (by simp [Tree.colors])

theorem rotations_keep_order_colours_links_witness :
    Rep tree3 (plug [] shape3)
      ∧ (∃ s1, LeftRotate tree3 (some 1) = .ok s1
          ∧ Rep s1 (.node 0 Color.RED
              (.node 1 Color.BLACK (.node 2 Color.RED .nil 30 300 .nil) 20 200 .nil) 10 100 .nil)
          ∧ s1.root_ = some 0)
      ∧ (∃ s1, RightRotate tree3 (some 1) = .ok s1
          ∧ Rep s1 (.node 2 Color.RED .nil 30 300
              (.node 1 Color.BLACK .nil 20 200 (.node 0 Color.RED .nil 10 100 .nil)))
          ∧ s1.root_ = some 2) := by
  refine ⟨rep_tree3, ?_, ?_⟩
  · obtain ⟨s1, h1, h2, _, _, _, h3, _⟩ :=
      (rotations_keep_order_colours_links (K := Nat) (V := Nat)).1 tree3 [] 1 0 Color.BLACK
        Color.RED (.node 2 Color.RED .nil 30 300 .nil) .nil .nil 20 10 200 100 rep_tree3
    exact ⟨s1, h1, h2, h3 rfl⟩
  · obtain ⟨s1, h1, h2, _, _, _, h3, _⟩ :=
      (rotations_keep_order_colours_links (K := Nat) (V := Nat)).2 tree3 [] 1 2 Color.BLACK
        Color.RED (.node 0 Color.RED .nil 10 100 .nil) .nil .nil 20 30 200 300 rep_tree3
    exact ⟨s1, h1, h2, h3 rfl⟩

end Claims7

/-! ## The deletion pivot -/

section PivotLemmas
variable {K V : Type}

theorem zoomRight_node_nil (a : Nat) (c : Color) (l : Tree K V) (k : K) (v : V)
    (ctx : Ctx K V) :
    zoomRight (.node a c l k v .nil) ctx = (ctx, .node a c l k v .nil) := rfl

theorem zoomRight_node_node (a : Nat) (c : Color) (l : Tree K V) (k : K) (v : V)
    (ra : Nat) (rc : Color) (rl : Tree K V) (rk : K) (rv : V) (rr : Tree K V) (ctx : Ctx K V) :
    zoomRight (.node a c l k v (.node ra rc rl rk rv rr)) ctx
      = zoomRight (.node ra rc rl rk rv rr) (.right a c l k v :: ctx) := rfl

theorem plug_append (c1 c2 : Ctx K V) (x : Tree K V) :
    plug (c1 ++ c2) x = plug c2 (plug c1 x) := by
  induction c1 generalizing x with
  | nil => rfl
  | cons fr rest ih => exact ih _

theorem after_append (c1 c2 : Ctx K V) :
    Ctx.after (c1 ++ c2) = Ctx.after c1 ++ Ctx.after c2 := by
  induction c1 with
  | nil => rfl
  | cons fr rest ih => cases fr <;> simp [Ctx.after, ih]

theorem before_append (c1 c2 : Ctx K V) :
    Ctx.before (c1 ++ c2) = Ctx.before c2 ++ Ctx.before c1 := by
  induction c1 with
  | nil => simp [Ctx.before]
  | cons fr rest ih => cases fr <;> simp [Ctx.before, ih]

/-- The walk to the right ends at a node without right child, and that node with its path
is the tree the walk started from. -/
theorem zoomRight_spec : ∀ (t : Tree K V) (ctx : Ctx K V), t ≠ .nil →
    ∃ ctxR p pc pl pk pv, zoomRight t ctx = (ctxR ++ ctx, .node p pc pl pk pv .nil)
      ∧ plug ctxR (.node p pc pl pk pv .nil) = t
      ∧ Ctx.after ctxR = []
      ∧ ctxR.length + 1 ≤ t.height
      ∧ ∀ fr ∈ ctxR, ∃ fa fc fl fk fv, fr = Frame.right fa fc fl fk fv := by
  intro t
  induction t with
  | nil => intro ctx h; exact absurd rfl h
  | node a c l k v r _ ihr =>
    intro ctx _
    cases r with
    | nil =>
      exact ⟨[], a, c, l, k, v, rfl, rfl, rfl, by simp [Tree.height], by simp⟩
    | node ra rc rl rk rv rr =>
      obtain ⟨ctxR, p, pc, pl, pk, pv, hz, hp, haft, hlen, hfr⟩ :=
        ihr (.right a c l k v :: ctx) (by simp)
      refine ⟨ctxR ++ [.right a c l k v], p, pc, pl, pk, pv, ?_, ?_, ?_, ?_, ?_⟩
      · rw [zoomRight_node_node, hz]
        simp
      · rw [plug_append, hp]
        rfl
      · rw [after_append, haft]
        rfl
      · simp only [List.length_append, List.length_singleton, Tree.height] at hlen ⊢
        omega
      · intro fr hmem
        rcases List.mem_append.1 hmem with h1 | h1
        · exact hfr fr h1
        · exact ⟨a, c, l, k, v, List.mem_singleton.1 h1⟩

/-- The loop `while (cur->right_child_) cur = cur->right_child_;` on a heap that holds the
tree: with `fuel` at least the height it returns the node `zoomRight` ends at; with less
it returns that node or runs out of fuel. -/
theorem rightmost_all {h : Heap K V} : ∀ (t : Tree K V) (ctx : Ctx K V) (fp : Option Nat)
    (fuel : Nat), t ≠ .nil → Models h t fp →
    rightmost fuel h t.ptr = .ok (zoomRight t ctx).2.ptr
      ∨ (fuel < t.height ∧ rightmost fuel h t.ptr = .error .outOfFuel) := by
  intro t
  induction t with
  | nil => intro ctx fp fuel h; exact absurd rfl h
  | node a c l k v r _ ihr =>
    intro ctx fp fuel _ hm
    cases fuel with
    | zero => exact Or.inr ⟨by simp [Tree.height], rfl⟩
    | succ n =>
      cases r with
      | nil =>
        left
        simp only [rightmost, Tree.ptr_node, Right_ok hm.1, bind, Except.bind, pure,
          Except.pure, Tree.ptr_nil, zoomRight_node_nil]
      | node ra rc rl rk rv rr =>
        have ih := ihr (.right a c l k v :: ctx) (some a) n (by simp) hm.2.2
        have e : rightmost (n + 1) h (some a)
            = rightmost n h (Tree.node ra rc rl rk rv rr).ptr := by
          simp only [rightmost, Right_ok hm.1, bind, Except.bind, Tree.ptr_node]
        rw [Tree.ptr_node, e, zoomRight_node_node]
        rcases ih with h1 | ⟨hlt, h1⟩
        · exact Or.inl h1
        · refine Or.inr ⟨?_, h1⟩
          simp only [Tree.height] at hlt ⊢
          omega

theorem cells_getLast_of_after_nil (ctx : Ctx K V) (p : Nat) (pc : Color) (pl : Tree K V)
    (pk : K) (pv : V) (h : Ctx.after ctx = []) :
    (plug ctx (.node p pc pl pk pv .nil)).cells.getLast? = some (p, pk, pv) := by
  rw [cells_plug, h]
  simp [Tree.cells]

theorem Models.plug_sub {h : Heap K V} (ctx : Ctx K V) : ∀ (t : Tree K V) (f : Option Nat),
    Models h (plug ctx t) f → ∃ f1, Models h t f1 := by
  induction ctx with
  | nil => intro t f hm; exact ⟨f, hm⟩
  | cons fr rest ih =>
    intro t f hm
    obtain ⟨f1, h1⟩ := ih (fr.fill t) f hm
    cases fr with
    | left a c k v r => exact ⟨some a, h1.2.1⟩
    | right a c l k v => exact ⟨some a, h1.2.2⟩

end PivotLemmas

section Claims8
variable {K V : Type}

/-- C16: for every node `x` of a heap that holds the tree below `x`, `GetSuccessor()`
returns `x` itself when `x` has fewer than two children (whatever the fuel), and otherwise
the rightmost node of the left subtree of `x`, the node that comes last in the left-to-right
listing of that subtree, which has no right child; in both cases the node returned has at
most one child. -/
theorem GetSuccessor_pivot (h : Heap K V) (a : Nat) (c : Color) (l : Tree K V) (k : K) (v : V)
    (r : Tree K V) (f : Option Nat) (hm : Models h (.node a c l k v r) f) :
    (l = .nil ∨ r = .nil → ∀ fuel, GetSuccessor fuel h (some a) = .ok (some a))
      ∧ (l ≠ .nil → r ≠ .nil →
          ∃ p n, (∀ fuel, l.height ≤ fuel → GetSuccessor fuel h (some a) = .ok (some p))
            ∧ h p = some n ∧ n.right_child_ = none
            ∧ l.cells.getLast? = some (p, n.key_, n.val_)
            ∧ (zoomRight l []).2.ptr = some p)
      ∧ ∃ p n, (∀ fuel, l.height ≤ fuel → GetSuccessor fuel h (some a) = .ok (some p))
          ∧ h p = some n ∧ (n.left_child_ = none ∨ n.right_child_ = none) := by
  have hself : l = .nil ∨ r = .nil → ∀ fuel, GetSuccessor fuel h (some a) = .ok (some a) := by
    intro hlr fuel
    have hc : l.ptr = none ∨ r.ptr = none := by
      rcases hlr with e | e <;> subst e <;> simp
    simp only [GetSuccessor, deref_ok hm.1, bind, Except.bind, pure, Except.pure, if_pos hc]
  have htwo : l ≠ .nil → r ≠ .nil →
      ∃ p n, (∀ fuel, l.height ≤ fuel → GetSuccessor fuel h (some a) = .ok (some p))
        ∧ h p = some n ∧ n.right_child_ = none
        ∧ l.cells.getLast? = some (p, n.key_, n.val_)
        ∧ (zoomRight l []).2.ptr = some p := by
    intro hl hr
    obtain ⟨ctxR, p, pc, pl, pk, pv, hz, hp, haft, _, _⟩ := zoomRight_spec l [] hl
    rw [List.append_nil] at hz
    have hml : Models h (plug ctxR (.node p pc pl pk pv .nil)) (some a) := by
      rw [hp]
      exact hm.2.1
    obtain ⟨f1, hcell, _, _⟩ := Models.plug_sub ctxR _ _ hml
    refine ⟨p, _, fun fuel hfuel => ?_, hcell, rfl, ?_, by rw [hz]; rfl⟩
    · have hc : ¬ (l.ptr = none ∨ r.ptr = none) := by
        cases l with
        | nil => exact absurd rfl hl
        | node _ _ _ _ _ _ =>
          cases r with
          | nil => exact absurd rfl hr
          | node _ _ _ _ _ _ => simp
      simp only [GetSuccessor, deref_ok hm.1, bind, Except.bind, if_neg hc]
      rcases rightmost_all l [] (some a) fuel hl hm.2.1 with h1 | ⟨hlt, _⟩
      · rw [h1, hz]
        rfl
      · omega
    · rw [← hp]
      exact cells_getLast_of_after_nil ctxR p pc pl pk pv haft
  refine ⟨hself, htwo, ?_⟩
  by_cases hl : l = .nil
  · exact ⟨a, _, fun fuel _ => hself (Or.inl hl) fuel, hm.1, Or.inl (by rw [hl]; rfl)⟩
  · by_cases hr : r = .nil
    · exact ⟨a, _, fun fuel _ => hself (Or.inr hr) fuel, hm.1, Or.inr (by rw [hr]; rfl)⟩
    · obtain ⟨p, n, h1, h2, h3, _⟩ := htwo hl hr
      exact ⟨p, n, h1, h2, Or.inr h3⟩

theorem GetSuccessor_pivot_witness :
    Models tree3.heap shape3 none
      ∧ ∃ p n, (∀ fuel, 1 ≤ fuel → GetSuccessor fuel tree3.heap (some 1) = .ok (some p))
          ∧ tree3.heap p = some n ∧ n.right_child_ = none
          ∧ [((2 : Nat), (30 : Nat), (300 : Nat))].getLast? = some (p, n.key_, n.val_)
          ∧ (zoomRight (Tree.node 2 Color.RED .nil 30 300 .nil : Tree Nat Nat) []).2.ptr
              = some p :=
  ⟨rep_tree3.models,
    (GetSuccessor_pivot tree3.heap 1 Color.BLACK (.node 2 Color.RED .nil 30 300 .nil) 20 200
      (.node 0 Color.RED .nil 10 100 .nil) none rep_tree3.models).2.1
      (fun e => by cases e) (fun e => by cases e)⟩

end Claims8

/-! ## What `find` returns, in terms of the stored entries -/

section LookupLemmas
variable {K V : Type}

theorem Equiv.symm_of {cmp : K → K → Bool} {a b : K} (h : Equiv cmp a b) : Equiv cmp b a :=
  ⟨h.2, h.1⟩

theorem Equiv.trans_of {cmp : K → K → Bool} (hso : StrictOrder cmp) {a b c : K}
    (h1 : Equiv cmp a b) (h2 : Equiv cmp b c) : Equiv cmp a c := by
  constructor
  · cases hac : cmp a c with
    | false => rfl
    | true =>
      rcases hso.incomp a c b hac with h | h
      · rw [h1.1] at h; cases h
      · rw [h2.1] at h; cases h
  · cases hca : cmp c a with
    | false => rfl
    | true =>
      rcases hso.incomp c a b hca with h | h
      · rw [h2.2] at h; cases h
      · rw [h1.2] at h; cases h

theorem mem_toList_iff {t : Tree K V} {k : K} {v : V} :
    (k, v) ∈ t.toList ↔ ∃ a, (a, k, v) ∈ t.cells := by
  rw [toList_eq_cells]
  constructor
  · intro h
    obtain ⟨⟨a, k1, v1⟩, hmem, he⟩ := List.mem_map.1 h
    cases he
    exact ⟨a, hmem⟩
  · rintro ⟨a, h⟩
    exact List.mem_map.2 ⟨(a, k, v), h, rfl⟩

/-- In an ordered tree the search for `key` ends at the one entry whose key is equivalent
to `key`, when there is one. -/
theorem findT_some_iff {cmp : K → K → Bool} (hso : StrictOrder cmp) {t : Tree K V}
    (hp : t.cells.Pairwise (Desc cmp)) (key : K) (k : K) (v : V) :
    findT cmp key t = some (k, v) ↔ (k, v) ∈ t.toList ∧ Equiv cmp k key := by
  constructor
  · intro h
    rcases hz : zoom cmp key t [] with ⟨ctx, t1⟩
    cases t1 with
    | nil => simp [findT, hz] at h
    | node a c l k1 v1 r =>
      simp only [findT, hz, Option.some.injEq, Prod.mk.injEq] at h
      obtain ⟨e1, e2⟩ := h
      subst e1 e2
      have hk := zoom_found cmp key t [] (by rw [hz])
      have hplug := zoom_plug cmp key t []
      rw [hz] at hplug
      simp only [plug] at hplug
      refine ⟨mem_toList_iff.2 ⟨a, ?_⟩, hk⟩
      rw [← hplug, cells_plug]
      simp [Tree.cells]
  · rintro ⟨hmem, heq⟩
    obtain ⟨a, ha⟩ := mem_toList_iff.1 hmem
    obtain ⟨c, l, r, hz⟩ := zoom_spec hso key t [] hp a k v ha heq
    simp only [findT, hz]

theorem findT_none_iff {cmp : K → K → Bool} (hso : StrictOrder cmp) {t : Tree K V}
    (hp : t.cells.Pairwise (Desc cmp)) (key : K) :
    findT cmp key t = none ↔ ∀ e ∈ t.toList, ¬ Equiv cmp e.1 key := by
  constructor
  · intro h e he heq
    have := (findT_some_iff hso hp key e.1 e.2).2 ⟨he, heq⟩
    rw [h] at this
    cases this
  · intro h
    cases hf : findT cmp key t with
    | none => rfl
    | some e =>
      obtain ⟨k, v⟩ := e
      have := (findT_some_iff hso hp key k v).1 hf
      exact absurd this.2 (h (k, v) this.1)

/-- Two ordered trees that hold the same entries away from the keys equivalent to `key`
give the same answer to every search for a key not equivalent to `key`. -/
theorem findT_congr {cmp : K → K → Bool} (hso : StrictOrder cmp) {t t1 : Tree K V}
    (hp : t.cells.Pairwise (Desc cmp)) (hp1 : t1.cells.Pairwise (Desc cmp)) (key : K)
    (hsame : ∀ e : K × V, ¬ Equiv cmp e.1 key → (e ∈ t1.toList ↔ e ∈ t.toList))
    (k1 : K) (hne : ¬ Equiv cmp k1 key) :
    findT cmp k1 t1 = findT cmp k1 t := by
  apply Option.ext
  rintro ⟨k, v⟩
  show findT cmp k1 t1 = some (k, v) ↔ findT cmp k1 t = some (k, v)
  rw [findT_some_iff hso hp1, findT_some_iff hso hp]
  constructor
  · rintro ⟨hm, he⟩
    have hk : ¬ Equiv cmp k key := fun h => hne (Equiv.trans_of hso (Equiv.symm_of he) h)
    exact ⟨(hsame (k, v) hk).1 hm, he⟩
  · rintro ⟨hm, he⟩
    have hk : ¬ Equiv cmp k key := fun h => hne (Equiv.trans_of hso (Equiv.symm_of he) h)
    exact ⟨(hsame (k, v) hk).2 hm, he⟩

/-- The search on the heap and the reads that follow it return what the search on the tree
returns; `find` itself returns `end()` exactly when that is nothing. -/
theorem lookup_refines {s : RBTree K V} {t : Tree K V} (hr : Rep s t) (key : K) (fuel : Nat)
    (hfuel : t.height < fuel) :
    lookup fuel s key = .ok (findT s.compare_ key t)
      ∧ ∃ p, find fuel s key = .ok p ∧ (p = none ↔ findT s.compare_ key t = none) := by
  have hd := descend_refines s.compare_ key t [] none fuel hr.models hfuel
  rw [← hr.root] at hd
  rcases hz : zoom s.compare_ key t [] with ⟨ctx, t1⟩
  rw [hz] at hd
  cases t1 with
  | nil =>
    refine ⟨?_, none, hd, by simp [findT, hz]⟩
    simp only [lookup, find, hd, Tree.ptr_nil, bind, Except.bind, pure, Except.pure, findT, hz]
  | node a c l k v r =>
    have hplug := zoom_plug s.compare_ key t []
    rw [hz] at hplug
    simp only [plug] at hplug
    have hmem : (a, k, v) ∈ t.cells := by
      rw [← hplug, cells_plug]
      simp [Tree.cells]
    obtain ⟨n, hn, hnk, hnv⟩ := hr.cell_of_cells hmem
    refine ⟨?_, some a, hd, by simp [findT, hz]⟩
    simp only [lookup, find, hd, Tree.ptr_node, bind, Except.bind, pure, Except.pure, findT, hz,
      Key_ok hn, Value_ok hn, hnk, hnv]

/-- The entries `Put` leaves: those of before whose key is not equivalent to `key`, and one
entry with the new value under a key equivalent to `key`. -/
theorem putT_entries {cmp : K → K → Bool} (hso : StrictOrder cmp) (new : Nat) (t : Tree K V)
    (key : K) (val : V) (e : K × V) (hne : ¬ Equiv cmp e.1 key) :
    e ∈ (putT cmp new t key val).toList ↔ e ∈ t.toList := by
  obtain ⟨k, v⟩ := e
  rw [mem_toList_iff, mem_toList_iff]
  by_cases hnil : t = .nil
  · subst hnil
    simp only [putT, Tree.cells, List.nil_append, List.mem_singleton, Prod.mk.injEq,
      List.not_mem_nil, exists_false, iff_false, not_exists, not_and]
    intro a _ hk
    exact absurd ⟨by rw [hk]; exact hso.irrefl key, by rw [hk]; exact hso.irrefl key⟩ hne
  · rcases hz : zoom cmp key t [] with ⟨ctx, t1⟩
    cases t1 with
    | node a c l k1 v1 r =>
      obtain ⟨h1, h2⟩ := putT_cells_found hz new val
      have hk := zoom_found cmp key t [] (by rw [hz])
      rw [h1, h2]
      have hkk : k ≠ k1 := fun e => hne (by rw [e]; exact hk)
      simp only [List.mem_append, List.mem_cons, Prod.mk.injEq, hkk, false_and, and_false,
        false_or]
    | nil =>
      obtain ⟨h1, h2⟩ := putT_cells_absent hz hnil new val
      rw [h1, h2]
      have hkk : k ≠ key := fun e =>
        hne ⟨by rw [e]; exact hso.irrefl key, by rw [e]; exact hso.irrefl key⟩
      simp only [List.mem_append, List.mem_cons, Prod.mk.injEq, hkk, false_and, and_false,
        false_or]

end LookupLemmas

section Claims9
variable {K V : Type}

/-- C17: for every state built by `Put` calls under a strict order, every key `k`, value
`v` and key `k1` not equivalent to `k`: `Put(k, v)` returns, and `find(k1)` followed by the
reads of key and value gives afterwards exactly what it gave before; in particular
`find(k1)` returns `end()` afterwards if and only if it did before.  The entries with a key
not equivalent to `k` are the same before and after. -/
theorem Put_keeps_other_entries (cmp : K → K → Bool) (hso : StrictOrder cmp) (s : RBTree K V)
    (hb : Built cmp s) (key : K) (val : V) :
    ∃ s1 t t1 N, (∀ fuel, N ≤ fuel → Put fuel s key val = .ok s1)
      ∧ Rep s t ∧ Rep s1 t1
      ∧ (∀ e : K × V, ¬ Equiv cmp e.1 key → (e ∈ t1.toList ↔ e ∈ t.toList))
      ∧ ∀ k1, ¬ Equiv cmp k1 key → ∀ fuel, N ≤ fuel →
          ∃ r p p1, lookup fuel s k1 = .ok r ∧ lookup fuel s1 k1 = .ok r
            ∧ find fuel s k1 = .ok p ∧ find fuel s1 k1 = .ok p1
            ∧ (p1 = RBTree.end_ s1 ↔ p = RBTree.end_ s) := by
  obtain ⟨t, hr, _, hc, hord⟩ := built_rep hb
  obtain ⟨s1, hr1, hc1, _, hall, _⟩ := Put_all hr key val
  rw [hc] at hr1 hc1
  have hp := hord hso
  have hp1 := putT_sorted hso s.brk t key val hp
  refine ⟨s1, t, _, max t.height (putT cmp s.brk t key val).height + 1, ?_, hr, hr1,
    fun e he => putT_entries hso s.brk t key val e he, ?_⟩
  · intro fuel hfuel
    rcases hall fuel with h | ⟨hle, _⟩
    · exact h
    · omega
  · intro k1 hk1 fuel hfuel
    obtain ⟨hl, p, hf, hpn⟩ := lookup_refines hr k1 fuel (by omega)
    obtain ⟨hl1, p1, hf1, hpn1⟩ := lookup_refines hr1 k1 fuel (by omega)
    rw [hc] at hl hpn
    rw [hc1] at hl1 hpn1
    have hcong := findT_congr hso hp hp1 key
      (fun e he => putT_entries hso s.brk t key val e he) k1 hk1
    rw [hcong] at hl1 hpn1
    exact ⟨_, p, p1, hl, hl1, hf, hf1, by
      show p1 = none ↔ p = none
      rw [hpn, hpn1]⟩

theorem Put_keeps_other_entries_witness :
    StrictOrder natLt ∧ Built natLt tree3 ∧
      ∃ s1 t t1 N, (∀ fuel, N ≤ fuel → Put fuel tree3 25 250 = .ok s1)
        ∧ Rep tree3 t ∧ Rep s1 t1
        ∧ (∀ e : Nat × Nat, ¬ Equiv natLt e.1 25 → (e ∈ t1.toList ↔ e ∈ t.toList))
        ∧ ∀ k1, ¬ Equiv natLt k1 25 → ∀ fuel, N ≤ fuel →
            ∃ r p p1, lookup fuel tree3 k1 = .ok r ∧ lookup fuel s1 k1 = .ok r
              ∧ find fuel tree3 k1 = .ok p ∧ find fuel s1 k1 = .ok p1
              ∧ (p1 = RBTree.end_ s1 ↔ p = RBTree.end_ tree3) :=
  ⟨strictOrder_natLt, built_tree3,
    Put_keeps_other_entries natLt strictOrder_natLt tree3 built_tree3 25 250⟩

end Claims9

/-! ## `Delete`: unhooking the pivot -/

section SpliceLemmas
variable {K V : Type}

/-- The body of `Delete` with lines 102-114 gathered in `Delete.splice`. -/
theorem Delete_split (fuel : Nat) (s0 : RBTree K V) (key : K) :
    Delete fuel s0 key = (do
      let cur ← descend fuel s0.heap s0.compare_ key s0.root_
      match cur with
      | none =>
        pure (false, { s0 with size_ := ((s0.size_ + 2 ^ 64 - 1) % 2 ^ 64 + 1) % 2 ^ 64 })
      | some _ => do
        let next ← GetSuccessor fuel s0.heap cur
        let s2 ← Delete.splice { s0 with size_ := (s0.size_ + 2 ^ 64 - 1) % 2 ^ 64 } cur next
        let nred ← Red s2.heap next
        let s3 ← (if !nred then DeleteFixUp fuel s2 next else pure s2)
        let h4 ← SetLeft s3.heap next none
        let h5 ← SetRight h4 next none
        pure (true, { s3 with heap := deleteNode h5 next })) := by
  simp only [Delete, Delete.splice, Delete.replaced, Delete.unhook, bind_assoc]

/-- When `next` is not `cur`, `Delete.splice` unhooks `next` as if it were the node found
and then copies its entry into `cur`. -/
theorem splice_copy (s : RBTree K V) (cur : Option Nat) (p : Nat) (hne : some p ≠ cur) :
    Delete.splice s cur (some p) = (do
      let s1 ← Delete.splice s (some p) (some p)
      let h ← Copy s1.heap cur (some p)
      pure ({ s1 with heap := h } : RBTree K V)) := by
  simp only [Delete.splice, bind_assoc, ne_eq, hne, not_false_eq_true, if_true, not_true_eq_false,
    if_false, bind_pure]

theorem replaced_ptr {h : Heap K V} {p : Nat} {pc : Color} {pl pr : Tree K V} {pk : K} {pv : V}
    {f : Option Nat} (hm : Models h (.node p pc pl pk pv pr) f) :
    Delete.replaced h (some p) = .ok (Tree.replaced (.node p pc pl pk pv pr)).ptr
      ∧ Models h (Tree.replaced (.node p pc pl pk pv pr)) (some p)
      ∧ List.Sublist (Tree.replaced (.node p pc pl pk pv pr)).addrs (pl.addrs ++ pr.addrs) := by
  cases pl with
  | nil =>
    refine ⟨?_, hm.2.2, by simp [Tree.replaced, Tree.addrs]⟩
    simp only [Delete.replaced, Left_ok hm.1, Right_ok hm.1, Tree.ptr_nil, bind, Except.bind,
      Tree.replaced]
  | node la lc ll lk lv lr =>
    refine ⟨?_, hm.2.1, by simp [Tree.replaced]⟩
    simp only [Delete.replaced, Left_ok hm.1, Tree.ptr_node, bind, Except.bind, pure,
      Except.pure, Tree.replaced]

end SpliceLemmas

section SpliceLemmas2
variable {K V : Type}

/-- Lines 102-111 of `Delete` on the node at the focus: the node is unhooked and its
replacement child stands in its place; the cell of the node itself is not written. -/
theorem splice_focus {s : RBTree K V} {ctx : Ctx K V} {p : Nat} {pc : Color}
    {pl pr : Tree K V} {pk : K} {pv : V} (hf : Focus s ctx (.node p pc pl pk pv pr)) :
    ∃ s1, Delete.splice s (some p) (some p) = .ok s1
      ∧ Focus s1 ctx (Tree.replaced (.node p pc pl pk pv pr))
      ∧ s1.heap p = s.heap p
      ∧ s1.brk = s.brk ∧ s1.size_ = s.size_ ∧ s1.compare_ = s.compare_
      ∧ (ctx ≠ [] → s1.root_ = s.root_)
      ∧ p ∉ (Tree.replaced (.node p pc pl pk pv pr)).addrs ++ Ctx.addrs ctx := by
  obtain ⟨hsub, hctx, hroot, hnd, hfresh, hsz⟩ := hf
  obtain ⟨hrep, hR, hsl⟩ := replaced_ptr hsub
  generalize Tree.replaced (.node p pc pl pk pv pr) = R at hrep hR hsl ⊢
  have hcell := hsub.1
  -- address bookkeeping
  have hsl2 : List.Sublist (R.addrs ++ Ctx.addrs ctx)
      ((Tree.node p pc pl pk pv pr).addrs ++ Ctx.addrs ctx) := by
    simp only [Tree.addrs]
    exact List.Sublist.append (List.Sublist.cons _ hsl) (List.Sublist.refl _)
  have hndR : (R.addrs ++ Ctx.addrs ctx).Nodup := hnd.sublist hsl2
  have hfreshR : ∀ a ∈ R.addrs ++ Ctx.addrs ctx, a < s.brk :=
    fun a ha => hfresh a (hsl2.subset ha)
  have hpR : p ∉ R.addrs ++ Ctx.addrs ctx := by
    have hnd1 := hnd
    simp only [Tree.addrs, List.cons_append, List.nodup_cons, List.mem_append, not_or] at hnd1
    intro hmem
    rcases List.mem_append.1 hmem with h | h
    · rcases List.mem_append.1 (hsl.subset h) with h1 | h1
      · exact hnd1.1.1.1 h1
      · exact hnd1.1.1.2 h1
    · exact hnd1.1.2 h
  have hpR1 : p ∉ R.addrs := fun h => hpR (List.mem_append_left _ h)
  have hRnd : R.addrs.Nodup := (List.nodup_append.1 hndR).1
  have hdisj : ∀ q, q ∈ R.addrs → q ∉ Ctx.addrs ctx :=
    fun q h1 h2 => (List.nodup_append.1 hndR).2.2 h1 h2
  have hF : Father s.heap (some p) = .ok (Ctx.father ctx) := Father_ok hcell
  cases ctx with
  | nil =>
    cases R with
    | nil =>
      refine ⟨{ s with root_ := none, heap := s.heap }, ?_, ⟨trivial, trivial, rfl, hndR,
        hfreshR, hsz⟩, rfl, rfl, rfl, rfl, fun h => absurd rfl h, hpR⟩
      simp only [Delete.splice, Delete.unhook, hrep, hF, Ctx.father, Tree.ptr_nil, bind, Except.bind,
        pure, Except.pure, ne_eq, not_true_eq_false, if_false]
    | node ra rc rl rk rv rr =>
      obtain ⟨hra, hrl, hrr⟩ := hR
      have hnd1 := hRnd
      simp only [Tree.addrs, List.nodup_cons, List.mem_append, not_or] at hnd1
      have hpa : p ≠ ra := fun e => hpR1 (by rw [e]; simp [Tree.addrs])
      refine ⟨{ s with root_ := some ra,
                       heap := s.heap.set ra ⟨rk, rv, rl.ptr, rr.ptr, none, rc⟩ }, ?_,
        ⟨⟨Heap.set_same _ _ _, hrl.frame_set hnd1.1.1, hrr.frame_set hnd1.1.2⟩, trivial, rfl,
          hndR, hfreshR, hsz⟩, Heap.set_ne _ _ hpa, rfl, rfl, rfl, fun h => absurd rfl h, hpR⟩
      simp only [Delete.splice, Delete.unhook, hrep, hF, Ctx.father, Tree.ptr_node, bind, Except.bind,
        pure, Except.pure, ne_eq, not_true_eq_false, if_false, SetFather_ok hra]
  | cons fr rest =>
    have hroot1 : s.root_ = (plug (fr :: rest) R).ptr := hroot.trans (ptr_plug_cons _ _ _ _)
    cases fr with
    | left f fc fk fv sib =>
      obtain ⟨hfc, hsib, hrest⟩ := hctx
      have hfc1 : s.heap f = some ⟨fk, fv, some p, sib.ptr, Ctx.father rest, fc⟩ := hfc
      have hfR : f ∉ R.addrs := fun h => hdisj f h (by simp [Ctx.addrs, Frame.addr])
      have hpf : p ≠ f := fun e => hpR (List.mem_append_right _ (by
        rw [e]; simp [Ctx.addrs, Frame.addr]))
      obtain ⟨h1, e1, h1f, h1t, fr1⟩ := SetLeft_spec hfc1 hR hfR hRnd
      refine ⟨{ s with heap := h1 }, ?_, ⟨h1t, ModelsCtx.repoint_left
        (show ModelsCtx s.heap (.left f fc fk fv sib :: rest) (some p) from ⟨hfc, hsib, hrest⟩)
        h1f ?_, hroot1, hndR, hfreshR, hsz⟩, fr1 p hpf hpR1, rfl, rfl, rfl, fun _ => rfl, hpR⟩
      · simp only [Delete.splice, Delete.unhook, hrep, hF, Ctx.father, Frame.addr, Left_ok hfc1, bind,
          Except.bind, pure, Except.pure, ne_eq, not_true_eq_false, if_false, if_true, e1]
      · intro q hq
        have hq1 : q ∈ Ctx.addrs (.left f fc fk fv sib :: rest) := by
          simp only [Ctx.addrs, Frame.sibling, List.mem_cons]; exact Or.inr hq
        have hqf : q ≠ f := by
          rintro rfl
          have := (List.nodup_append.1 hndR).2.1
          simp only [Ctx.addrs, Frame.addr, Frame.sibling, List.nodup_cons] at this
          exact this.1 hq
        exact fr1 q hqf (fun h => hdisj q h hq1)
    | right f fc sib fk fv =>
      obtain ⟨hfc, hsib, hrest⟩ := hctx
      have hfc1 : s.heap f = some ⟨fk, fv, sib.ptr, some p, Ctx.father rest, fc⟩ := hfc
      have hfR : f ∉ R.addrs := fun h => hdisj f h (by simp [Ctx.addrs, Frame.addr])
      have hpf : p ≠ f := fun e => hpR (List.mem_append_right _ (by
        rw [e]; simp [Ctx.addrs, Frame.addr]))
      have hpsib : p ∉ sib.addrs := fun h => hpR (List.mem_append_right _ (by
        simp [Ctx.addrs, Frame.sibling, h]))
      have hne : ¬ (some p = sib.ptr) := fun e => Tree.ptr_ne_of_not_mem hpsib e.symm
      obtain ⟨h1, e1, h1f, h1t, fr1⟩ := SetRight_spec hfc1 hR hfR hRnd
      refine ⟨{ s with heap := h1 }, ?_, ⟨h1t, ModelsCtx.repoint_right
        (show ModelsCtx s.heap (.right f fc sib fk fv :: rest) (some p) from ⟨hfc, hsib, hrest⟩)
        h1f ?_, hroot1, hndR, hfreshR, hsz⟩, fr1 p hpf hpR1, rfl, rfl, rfl, fun _ => rfl, hpR⟩
      · simp only [Delete.splice, Delete.unhook, hrep, hF, Ctx.father, Frame.addr, Left_ok hfc1, bind,
          Except.bind, pure, Except.pure, ne_eq, not_true_eq_false, if_false, if_neg hne, e1]
      · intro q hq
        have hq1 : q ∈ Ctx.addrs (.right f fc sib fk fv :: rest) := by
          simp only [Ctx.addrs, Frame.sibling, List.mem_cons]; exact Or.inr hq
        have hqf : q ≠ f := by
          rintro rfl
          have := (List.nodup_append.1 hndR).2.1
          simp only [Ctx.addrs, Frame.addr, Frame.sibling, List.nodup_cons] at this
          exact this.1 hq
        exact fr1 q hqf (fun h => hdisj q h hq1)

end SpliceLemmas2

section SpliceLemmas3
variable {K V : Type}

theorem Heap.free_ne (h : Heap K V) {a x : Nat} (hx : x ≠ a) : (h.free a) x = h x := by
  simp [Heap.free, hx]

theorem Heap.set_set (h : Heap K V) (a : Nat) (n1 n2 : RBTreeNode K V) :
    (h.set a n1).set a n2 = h.set a n2 := by
  funext x
  by_cases hx : x = a <;> simp [Heap.set, hx]

theorem addrs_ctx_append (c1 c2 : Ctx K V) :
    Ctx.addrs (c1 ++ c2) = Ctx.addrs c1 ++ Ctx.addrs c2 := by
  induction c1 with
  | nil => rfl
  | cons fr rest ih => simp [Ctx.addrs, ih]

/-- Method `Copy` between two different live nodes. -/
theorem Copy_ok {h : Heap K V} {a p : Nat} {na np : RBTreeNode K V} (ha : h a = some na)
    (hp : h p = some np) (hne : p ≠ a) :
    Copy h (some a) (some p) = .ok (h.set a { na with key_ := np.key_, val_ := np.val_ }) := by
  have hp1 : (h.set a { na with key_ := np.key_ }) p = some np :=
    (Heap.set_ne _ _ hne).trans hp
  simp only [Copy, deref_ok hp, modify_ok ha, deref_ok hp1, modify_ok (Heap.set_same _ _ _),
    bind, Except.bind, Heap.set_set]

/-- Overwriting the entry of the focused node. -/
theorem Focus.setEntry {s : RBTree K V} {ctx : Ctx K V} {a : Nat} {c : Color} {l r : Tree K V}
    {k : K} {v : V} (hf : Focus s ctx (.node a c l k v r)) (k1 : K) (v1 : V) :
    Focus { s with heap := s.heap.set a ⟨k1, v1, l.ptr, r.ptr, Ctx.father ctx, c⟩ } ctx
      (.node a c l k1 v1 r) := by
  obtain ⟨⟨ha, hl, hr⟩, hctx, hroot, hnd, hfresh, hsz⟩ := hf
  have hnd1 := hnd
  simp only [Tree.addrs, List.cons_append, List.nodup_cons, List.mem_append, not_or] at hnd1
  exact ⟨⟨Heap.set_same _ _ _, hl.frame_set hnd1.1.1.1, hr.frame_set hnd1.1.1.2⟩,
    hctx.frame_set_ctx hnd1.1.2, hroot.trans (ptr_plug_congr ctx rfl), hnd, hfresh, hsz⟩

theorem focus_append {s : RBTree K V} (c1 c2 : Ctx K V) (t : Tree K V) :
    Focus s (c1 ++ c2) t ↔ Focus s c2 (plug c1 t) := by
  rw [← focus_iff, ← focus_iff, plug_append]

/-- The copy of the pivot's entry into `cur`, an ancestor of the place the pivot had. -/
theorem copy_focus {s : RBTree K V} {ctxR ctx : Ctx K V} {a : Nat} {c : Color} {k : K} {v : V}
    {r R : Tree K V} {p : Nat} {np : RBTreeNode K V}
    (hf : Focus s (ctxR ++ .left a c k v r :: ctx) R) (hp : s.heap p = some np)
    (hpn : p ∉ R.addrs ++ Ctx.addrs (ctxR ++ .left a c k v r :: ctx)) :
    ∃ h2, Copy s.heap (some a) (some p) = .ok h2
      ∧ Focus { s with heap := h2 } (ctxR ++ .left a c np.key_ np.val_ r :: ctx) R
      ∧ h2 p = some np
      ∧ ∀ q nq, s.heap q = some nq → ∃ nq1, h2 q = some nq1
          ∧ nq1.left_child_ = nq.left_child_ ∧ nq1.father_ = nq.father_
          ∧ nq1.color_ = nq.color_ := by
  have hpa : p ≠ a := by
    intro e
    apply hpn
    rw [addrs_ctx_append]
    simp [Ctx.addrs, Frame.addr, e]
  have hf1 : Focus s ctx (.node a c (plug ctxR R) k v r) :=
    Focus.up ((focus_append ctxR _ R).1 hf)
  have hf2 := hf1.setEntry np.key_ np.val_
  refine ⟨_, Copy_ok hf1.sub.1 hp hpa, ?_, (Heap.set_ne _ _ hpa).trans hp, ?_⟩
  · exact (focus_append ctxR _ R).2 (Focus.down hf2)
  · intro q nq hq
    by_cases hqa : q = a
    · subst hqa
      rw [hf1.sub.1] at hq
      cases hq
      exact ⟨_, Heap.set_same _ _ _, rfl, rfl, rfl⟩
    · exact ⟨nq, (Heap.set_ne _ _ hqa).trans hq, rfl, rfl, rfl⟩

/-- Lines 118-120 of `Delete` on a node that is no longer part of the tree: the tree the
state represents stays what it is. -/
theorem finish_rep {s : RBTree K V} {t : Tree K V} (hr : Rep s t) {p : Nat}
    {n : RBTreeNode K V} (hp : s.heap p = some n) (hpt : p ∉ t.addrs) :
    ∃ h4 h5, SetLeft s.heap (some p) none = .ok h4 ∧ SetRight h4 (some p) none = .ok h5
      ∧ Rep { s with heap := deleteNode h5 (some p) } t := by
  refine ⟨_, _, SetLeft_none hp, SetRight_none (Heap.set_same _ _ _), ?_, hr.root, hr.nodup,
    hr.fresh, hr.size_ok⟩
  refine hr.models.frame ?_
  intro a ha
  have hap : a ≠ p := fun e => hpt (e ▸ ha)
  show (Heap.free _ p) a = s.heap a
  rw [Heap.free_ne _ hap, Heap.set_ne _ _ hap, Heap.set_ne _ _ hap]

/-- `GetSuccessor` finds the pivot: the node at the focus when a child is missing, else the
rightmost node of its left subtree, which is then seen in its own context. -/
theorem pivot_of_focus {s : RBTree K V} {ctx : Ctx K V} {a : Nat} {c : Color}
    {l r : Tree K V} {k : K} {v : V} (hf : Focus s ctx (.node a c l k v r)) :
    ∃ ctxP p pc pl pk pv pr, Focus s ctxP (.node p pc pl pk pv pr)
      ∧ (pl = .nil ∨ pr = .nil)
      ∧ (∀ fuel, GetSuccessor fuel s.heap (some a) = .ok (some p)
          ∨ (fuel < l.height ∧ GetSuccessor fuel s.heap (some a) = .error .outOfFuel))
      ∧ (((l = .nil ∨ r = .nil) ∧ ctxP = ctx ∧ Tree.node p pc pl pk pv pr = .node a c l k v r)
        ∨ (l ≠ .nil ∧ r ≠ .nil ∧ pr = .nil ∧ p ≠ a
            ∧ ∃ ctxR, ctxP = ctxR ++ .left a c k v r :: ctx
              ∧ zoomRight l [] = (ctxR, .node p pc pl pk pv .nil)
              ∧ plug ctxR (.node p pc pl pk pv .nil) = l ∧ Ctx.after ctxR = [])) := by
  by_cases hlr : l = .nil ∨ r = .nil
  · refine ⟨ctx, a, c, l, k, v, r, hf, hlr, fun fuel => Or.inl ?_, Or.inl ⟨hlr, rfl, rfl⟩⟩
    have hc : l.ptr = none ∨ r.ptr = none := by
      rcases hlr with e | e <;> subst e <;> simp
    simp only [GetSuccessor, deref_ok hf.sub.1, bind, Except.bind, pure, Except.pure,
      if_pos hc]
  · have hl : l ≠ .nil := fun e => hlr (Or.inl e)
    have hr : r ≠ .nil := fun e => hlr (Or.inr e)
    obtain ⟨ctxR, p, pc, pl, pk, pv, hz, hp, haft, _, _⟩ := zoomRight_spec l [] hl
    rw [List.append_nil] at hz
    have hf1 : Focus s (.left a c k v r :: ctx) l := Focus.down hf
    rw [← hp] at hf1
    have hf2 := (focus_append ctxR _ _).2 hf1
    have hpa : p ≠ a := by
      intro e
      have hnd := hf2.nodup
      rw [addrs_ctx_append] at hnd
      simp only [Tree.addrs, Ctx.addrs, Frame.addr, e, List.cons_append, List.nodup_cons,
        List.mem_append, List.mem_cons, true_or, or_true, not_true_eq_false, false_and]
        at hnd
    refine ⟨_, p, pc, pl, pk, pv, .nil, hf2, Or.inr rfl, fun fuel => ?_,
      Or.inr ⟨hl, hr, rfl, hpa, ctxR, rfl, hz, hp, haft⟩⟩
    have hc : ¬ (l.ptr = none ∨ r.ptr = none) := by
      cases l with
      | nil => exact absurd rfl hl
      | node _ _ _ _ _ _ =>
        cases r with
        | nil => exact absurd rfl hr
        | node _ _ _ _ _ _ => simp
    simp only [GetSuccessor, deref_ok hf.sub.1, bind, Except.bind, if_neg hc]
    rcases rightmost_all l [] (some a) fuel hl hf.sub.2.1 with h1 | ⟨hlt, h1⟩
    · left
      rw [h1, hz]
      rfl
    · exact Or.inr ⟨hlt, h1⟩

end SpliceLemmas3

section StuckLemmas
variable {K V : Type}

theorem ptr_plug_mem (ctx : Ctx K V) : ∀ (t : Tree K V), ctx ≠ [] →
    ∃ q, (plug ctx t).ptr = some q ∧ q ∈ Ctx.addrs ctx := by
  induction ctx with
  | nil => intro t h; exact absurd rfl h
  | cons fr rest ih =>
    intro t _
    by_cases hrest : rest = []
    · subst hrest
      refine ⟨fr.addr, ?_, by simp [Ctx.addrs]⟩
      cases fr <;> rfl
    · obtain ⟨q, h1, h2⟩ := ih (fr.fill t) hrest
      exact ⟨q, h1, by simp [Ctx.addrs, h2]⟩

theorem Focus.root_ne {s : RBTree K V} {ctx : Ctx K V} {t : Tree K V} (hf : Focus s ctx t)
    (hne : ctx ≠ []) {p : Nat} (hp : p ∉ Ctx.addrs ctx) : s.root_ ≠ some p := by
  obtain ⟨q, h1, h2⟩ := ptr_plug_mem ctx t hne
  rw [hf.root, h1]
  intro e
  cases e
  exact hp h2

theorem Focus.father_left_ne {s : RBTree K V} {fr : Frame K V} {rest : Ctx K V} {t : Tree K V}
    (hf : Focus s (fr :: rest) t) {p : Nat} (hp : p ∉ t.addrs ++ Ctx.addrs (fr :: rest)) :
    ∃ nf, s.heap fr.addr = some nf ∧ nf.left_child_ ≠ some p := by
  simp only [List.mem_append, not_or] at hp
  cases fr with
  | left f fc fk fv sib =>
    exact ⟨_, hf.around.1, Tree.ptr_ne_of_not_mem hp.1⟩
  | right f fc sib fk fv =>
    refine ⟨_, hf.around.1, Tree.ptr_ne_of_not_mem ?_⟩
    intro h
    exact hp.2 (by simp [Ctx.addrs, Frame.sibling, h])

/-- One iteration of the `DeleteFixUp` loop from a BLACK node that is not the root and not
its father's left child: it ends where it began. -/
theorem DeleteFixUp_idle (s : RBTree K V) (node father : Nat) (n nf : RBTreeNode K V)
    (hn : s.heap node = some n) (hblack : n.color_ = Color.BLACK)
    (hroot : s.root_ ≠ some node) (hf : n.father_ = some father)
    (hnf : s.heap father = some nf) (hleft : nf.left_child_ ≠ some node) (fuel : Nat) :
    DeleteFixUp (fuel + 1) s (some node) = DeleteFixUp fuel s (some node) := by
  have h1 : ¬ (some node = s.root_) := fun h => hroot h.symm
  have h2 : ¬ (some node = nf.left_child_) := fun h => hleft h.symm
  simp only [DeleteFixUp, h1, if_false, Red_ok hn, hblack, bind, Except.bind, pure,
    Except.pure, Father_ok hn, hf, Left_ok hnf, h2]
  simp

/-- The state in which `Delete` calls `DeleteFixUp` when the pivot has a father: the pivot
is unhooked and its cell still names the father, whose left child it is not. -/
theorem splice_pivot_state {s : RBTree K V} {ctx : Ctx K V} {a : Nat} {c : Color}
    {l r : Tree K V} {k : K} {v : V} (hf : Focus s ctx (.node a c l k v r)) (p f : Nat)
    (n : RBTreeNode K V)
    (hgs : ∃ fuel, GetSuccessor fuel s.heap (some a) = .ok (some p))
    (hn : s.heap p = some n) (hfather : n.father_ = some f) :
    ∃ s2 n2 nf, Delete.splice s (some a) (some p) = .ok s2
      ∧ s2.heap p = some n2 ∧ n2.color_ = n.color_ ∧ n2.father_ = some f
      ∧ s2.root_ ≠ some p
      ∧ s2.heap f = some nf ∧ nf.left_child_ ≠ some p
      ∧ ∀ fuel, GetSuccessor fuel s.heap (some a) = .ok (some p)
          ∨ GetSuccessor fuel s.heap (some a) = .error .outOfFuel := by
  obtain ⟨ctxP, p1, pc, pl, pk, pv, pr, hfp, _, hall, hcase⟩ := pivot_of_focus hf
  obtain ⟨fuel0, hg0⟩ := hgs
  have hpp : p = p1 := by
    rcases hall fuel0 with h | ⟨_, h⟩
    · rw [hg0] at h
      cases h
      rfl
    · rw [hg0] at h
      cases h
  subst hpp
  have hall1 : ∀ fuel, GetSuccessor fuel s.heap (some a) = .ok (some p)
      ∨ GetSuccessor fuel s.heap (some a) = .error .outOfFuel := by
    intro fuel
    rcases hall fuel with h | ⟨_, h⟩
    · exact Or.inl h
    · exact Or.inr h
  have hcell := hfp.sub.1
  rw [hn] at hcell
  cases hcell
  obtain ⟨s1, hsp, hf1, hp1, _, _, _, hroot1, hpR⟩ := splice_focus hfp
  have hctxP : ∃ fr rest, ctxP = fr :: rest ∧ fr.addr = f := by
    cases ctxP with
    | nil => cases hfather
    | cons fr rest =>
      refine ⟨fr, rest, rfl, ?_⟩
      have : some fr.addr = some f := hfather
      exact Option.some.inj this
  obtain ⟨fr, rest, hc, hfr⟩ := hctxP
  subst hc
  have hne : (fr :: rest) ≠ [] := by simp
  obtain ⟨nf, hnf, hleft⟩ := hf1.father_left_ne hpR
  rw [hfr] at hnf
  have hrootp : s1.root_ ≠ some p := hf1.root_ne hne (fun h => hpR (List.mem_append_right _ h))
  rcases hcase with ⟨_, _, hnode⟩ | ⟨_, _, _, hpa, ctxR, hctx, _, _, _⟩
  · cases hnode
    refine ⟨s1, _, nf, hsp, hp1.trans hn, rfl, hfather, hrootp, hnf, hleft, hall1⟩
  · rw [hctx] at hf1 hpR
    obtain ⟨h2, hcopy, _, hp2, hkeep⟩ := copy_focus hf1 (hp1.trans hn) hpR
    obtain ⟨nf2, hnf2, e1, _, _⟩ := hkeep f nf hnf
    refine ⟨{ s1 with heap := h2 }, _, nf2, ?_, hp2, rfl, hfather, hrootp, hnf2, ?_, hall1⟩
    · rw [splice_copy s (some a) p (fun e => hpa (Option.some.inj e)), hsp]
      simp only [bind, Except.bind, hcopy, pure, Except.pure]
    · rw [e1]
      exact hleft

end StuckLemmas

section Claims10
variable {K V : Type}

/-- C20: in a state that represents a tree, when `find(k)` yields a node whose deletion
pivot (`GetSuccessor`) is BLACK and has a father, `Delete(k)` reaches `DeleteFixUp` in a
state where the pivot is not the root, is not RED and is not the left child of its father
(it has been unhooked); each iteration of the loop then ends in the state it began in, so
the loop and with it `Delete(k)` never return, whatever the fuel. -/
theorem Delete_black_pivot_never_returns (s : RBTree K V) (t : Tree K V) (hr : Rep s t)
    (key : K) (cur next f fuel0 : Nat) (n : RBTreeNode K V)
    (hfind : find fuel0 s key = .ok (some cur))
    (hsucc : GetSuccessor fuel0 s.heap (some cur) = .ok (some next))
    (hn : s.heap next = some n) (hblack : n.color_ = Color.BLACK)
    (hfather : n.father_ = some f) :
    (∀ fuel, Delete fuel s key = .error .outOfFuel)
      ∧ ∃ s2 fl,
          Delete.splice { s with size_ := (s.size_ + 2 ^ 64 - 1) % 2 ^ 64 } (some cur) (some next)
            = .ok s2
          ∧ s2.root_ ≠ some next ∧ Red s2.heap (some next) = .ok false
          ∧ Father s2.heap (some next) = .ok (some f)
          ∧ Left s2.heap (some f) = .ok fl ∧ fl ≠ some next
          ∧ (∀ fuel, DeleteFixUp (fuel + 1) s2 (some next) = DeleteFixUp fuel s2 (some next))
          ∧ ∀ fuel, DeleteFixUp fuel s2 (some next) = .error .outOfFuel := by
  have hzp := zoom_plug s.compare_ key t []
  rcases hz : zoom s.compare_ key t [] with ⟨ctx, t1⟩
  rw [hz] at hzp
  simp only [plug] at hzp
  have hdesc := fun fuel => descend_all s.compare_ key t [] none fuel hr.models
  simp only [hz, ← hr.root] at hdesc
  have hcur : t1.ptr = some cur := by
    rcases hdesc fuel0 with h | ⟨_, h⟩
    · have h2 : descend fuel0 s.heap s.compare_ key s.root_ = .ok (some cur) := hfind
      rw [h] at h2
      exact Except.ok.inj h2
    · have h2 : descend fuel0 s.heap s.compare_ key s.root_ = .ok (some cur) := hfind
      rw [h] at h2
      cases h2
  cases t1 with
  | nil => cases hcur
  | node a c l k v r =>
    have ha : a = cur := Option.some.inj hcur
    subst ha
    have hrep : Rep ({ s with size_ := (s.size_ + 2 ^ 64 - 1) % 2 ^ 64 } : RBTree K V) t :=
      hr.setSize (Nat.mod_lt _ (by norm_num))
    rw [← hzp] at hrep
    have hf := (focus_iff _ ctx _).1 hrep
    obtain ⟨s2, n2, nf, hsp, hn2, hc2, hf2, hroot2, hnf, hleft, hgall⟩ :=
      splice_pivot_state hf next f n ⟨fuel0, hsucc⟩ hn hfather
    have hb2 : n2.color_ = Color.BLACK := hc2.trans hblack
    have hstuck := DeleteFixUp_stuck s2 next f n2 nf hn2 hb2 hroot2 hf2 hnf hleft
    have hred : Red s2.heap (some next) = .ok false := by
      rw [Red_ok hn2, hb2]
      rfl
    refine ⟨fun fuel => ?_, s2, nf.left_child_, hsp, hroot2, hred, ?_, Left_ok hnf, hleft,
      fun fuel => DeleteFixUp_idle s2 next f n2 nf hn2 hb2 hroot2 hf2 hnf hleft fuel, hstuck⟩
    · rw [Delete_split]
      rcases hdesc fuel with h | ⟨_, h⟩
      · rcases hgall fuel with hg | hg
        · have hg0 : GetSuccessor fuel s.heap (some a) = .ok (some next) := hg
          simp only [h, Tree.ptr_node, bind, Except.bind, hg0, hsp, hred, hstuck fuel,
            Bool.not_false, if_true]
        · have hg0 : GetSuccessor fuel s.heap (some a) = .error .outOfFuel := hg
          simp only [h, Tree.ptr_node, bind, Except.bind, hg0]
      · simp only [h, bind, Except.bind]
    · rw [Father_ok hn2, hf2]

theorem Delete_black_pivot_never_returns_witness :
    Rep tree4 shape4 ∧ find 3 tree4 2 = .ok (some 1)
      ∧ GetSuccessor 3 tree4.heap (some 1) = .ok (some 2)
      ∧ tree4.heap 2 = some ⟨3, 30, some 3, none, some 1, Color.BLACK⟩
      ∧ (∀ fuel, Delete fuel tree4 2 = .error .outOfFuel)
      ∧ ∃ s2 fl,
          Delete.splice { tree4 with size_ := (tree4.size_ + 2 ^ 64 - 1) % 2 ^ 64 } (some 1)
            (some 2) = .ok s2
          ∧ s2.root_ ≠ some 2 ∧ Red s2.heap (some 2) = .ok false
          ∧ Father s2.heap (some 2) = .ok (some 1)
          ∧ Left s2.heap (some 1) = .ok fl ∧ fl ≠ some 2
          ∧ (∀ fuel, DeleteFixUp (fuel + 1) s2 (some 2) = DeleteFixUp fuel s2 (some 2))
          ∧ ∀ fuel, DeleteFixUp fuel s2 (some 2) = .error .outOfFuel :=
  ⟨rep_tree4, rfl, rfl, rfl,
    Delete_black_pivot_never_returns tree4 shape4 rep_tree4 2 1 2 1 3
      ⟨3, 30, some 3, none, some 1, Color.BLACK⟩ rfl rfl rfl rfl rfl⟩

end Claims10

/-! ## Unhooking a RED pivot -/

section RedPivot
variable {K V : Type}

theorem ctxNoRedRed_weaken (ctx : Ctx K V) (b : Bool) (h : CtxNoRedRed ctx b) :
    CtxNoRedRed ctx false := by
  cases ctx with
  | nil => trivial
  | cons fr rest => exact ⟨fun hc => ⟨rfl, (h.1 hc).2⟩, h.2.1, h.2.2⟩

/-- A RED node with a child missing, in a tree that keeps the colour invariants, has no
child at all. -/
theorem red_pivot_is_leaf {p : Nat} {pl pr : Tree K V} {pk : K} {pv : V} {m : Nat}
    (hnr : NoRedRed (.node p Color.RED pl pk pv pr))
    (hb : Bal (.node p Color.RED pl pk pv pr) m) (hc : pl = .nil ∨ pr = .nil) :
    pl = .nil ∧ pr = .nil := by
  obtain ⟨m1, _, hl, hr⟩ := hb
  obtain ⟨hred, _, _⟩ := hnr
  obtain ⟨e1, e2⟩ := hred rfl
  have hzero : m1 = 0 := by
    rcases hc with e | e
    · subst e; exact hl
    · subst e; exact hr
  subst hzero
  have hnil : ∀ x : Tree K V, Bal x 0 → x.isRed = false → x = .nil := by
    intro x hx hxr
    cases x with
    | nil => rfl
    | node xa xc xl xk xv xr =>
      cases xc with
      | RED => simp [Tree.isRed] at hxr
      | BLACK =>
        obtain ⟨m2, h2, _, _⟩ := hx
        simp [blackOf] at h2
  exact ⟨hnil pl hl e1, hnil pr hr e2⟩

/-- Taking a RED leaf out of a tree keeps the colour invariants. -/
theorem red_leaf_removed (ctx : Ctx K V) (p : Nat) (pk : K) (pv : V) :
    (NoRedRed (plug ctx (.node p Color.RED .nil pk pv .nil)) → NoRedRed (plug ctx .nil))
      ∧ (∀ n, Bal (plug ctx (.node p Color.RED .nil pk pv .nil)) n → Bal (plug ctx .nil) n)
      ∧ ((plug ctx (.nil : Tree K V)).isRed = true →
          (plug ctx (.node p Color.RED .nil pk pv .nil)).isRed = true) := by
  refine ⟨?_, ?_, ?_⟩
  · intro h
    rw [noRedRed_plug] at h ⊢
    exact ⟨trivial, ctxNoRedRed_weaken ctx _ h.2⟩
  · intro n h
    rw [bal_plug] at h ⊢
    obtain ⟨m, hm, hctx⟩ := h
    obtain ⟨m1, e1, e2, _⟩ := hm
    have e3 : m1 = 0 := e2
    subst e3
    exact ⟨m, by rw [e1]; rfl, hctx⟩
  · intro h
    cases ctx with
    | nil => simp [plug, Tree.isRed] at h
    | cons fr rest =>
      rw [isRed_plug] at h ⊢
      rw [rootRed_cons_eq fr rest _ (Tree.nil : Tree K V).isRed]
      exact h

theorem replaced_leaf (p : Nat) (c : Color) (pk : K) (pv : V) :
    Tree.replaced (Tree.node p c .nil pk pv .nil : Tree K V) = .nil := rfl

theorem spliceT_single (ctx : Ctx K V) (a : Nat) (c : Color) (l r : Tree K V) (k : K) (v : V)
    (h : l = .nil ∨ r = .nil) :
    spliceT ctx (.node a c l k v r) = plug ctx (Tree.replaced (.node a c l k v r)) := by
  cases l with
  | nil => rfl
  | node la lc ll lk lv lr =>
    cases r with
    | nil => rfl
    | node ra rc rl rk rv rr => simp at h

theorem spliceT_double (ctx ctxR : Ctx K V) (a : Nat) (c : Color) (l r : Tree K V) (k : K)
    (v : V) (p : Nat) (pc : Color) (pl pr : Tree K V) (pk : K) (pv : V) (hl : l ≠ .nil)
    (hr : r ≠ .nil) (hz : zoomRight l [] = (ctxR, .node p pc pl pk pv pr)) :
    spliceT ctx (.node a c l k v r)
      = plug ctx (.node a c (plug ctxR (Tree.replaced (.node p pc pl pk pv pr))) pk pv r) := by
  cases l with
  | nil => exact absurd rfl hl
  | node la lc ll lk lv lr =>
    cases r with
    | nil => exact absurd rfl hr
    | node ra rc rl rk rv rr =>
      simp only [spliceT, hz]

end RedPivot

section RedPivot2
variable {K V : Type}

theorem isRed_node_congr (a : Nat) (c : Color) (l r l1 r1 : Tree K V) (k k1 : K) (v v1 : V) :
    (Tree.node a c l k v r).isRed = (Tree.node a c l1 k1 v1 r1).isRed := by
  cases c <;> rfl

/-- The colour invariants and the entries after the pivot of a deletion has been unhooked,
when that pivot is RED: the invariants hold again, and the in-order listing of the entries
has lost the entry of the node the search found and nothing else. -/
theorem spliceT_red_pivot {ctx ctxP : Ctx K V} {a : Nat} {c : Color} {l r : Tree K V} {k : K}
    {v : V} {p : Nat} {pl pr : Tree K V} {pk : K} {pv : V}
    (hrb : RBBal (plug ctx (.node a c l k v r)))
    (hchild : pl = .nil ∨ pr = .nil)
    (hcase : ((l = .nil ∨ r = .nil) ∧ ctxP = ctx
          ∧ Tree.node p Color.RED pl pk pv pr = .node a c l k v r)
        ∨ (l ≠ .nil ∧ r ≠ .nil ∧ pr = .nil ∧ p ≠ a
            ∧ ∃ ctxR, ctxP = ctxR ++ .left a c k v r :: ctx
              ∧ zoomRight l [] = (ctxR, .node p Color.RED pl pk pv .nil)
              ∧ plug ctxR (.node p Color.RED pl pk pv .nil) = l ∧ Ctx.after ctxR = [])) :
    RBBal (spliceT ctx (.node a c l k v r))
      ∧ ∃ L R1, (plug ctx (.node a c l k v r)).toList = L ++ (k, v) :: R1
          ∧ (spliceT ctx (.node a c l k v r)).toList = L ++ R1 := by
  obtain ⟨hroot, hnr, n, hbal⟩ := hrb
  rw [noRedRed_plug] at hnr
  rw [bal_plug] at hbal
  obtain ⟨m, hbT, hbctx⟩ := hbal
  rcases hcase with ⟨hlr, _, hnode⟩ | ⟨hl, hr, hprn, _, ctxR, _, hz, hp, haft⟩
  · cases hnode
    obtain ⟨e1, e2⟩ := red_pivot_is_leaf hnr.1 hbT hchild
    subst e1 e2
    rw [spliceT_single ctx a Color.RED .nil .nil k v (Or.inl rfl), replaced_leaf]
    obtain ⟨h1, h2, h3⟩ := red_leaf_removed ctx a k v
    refine ⟨⟨?_, h1 ((noRedRed_plug ctx _).2 hnr), n, h2 n ((bal_plug ctx _ n).2 ⟨m, hbT, hbctx⟩)⟩,
      (Ctx.before ctx).map (fun e => e.2), (Ctx.after ctx).map (fun e => e.2), ?_, ?_⟩
    · cases hx : (plug ctx (.nil : Tree K V)).isRed with
      | false => rfl
      | true =>
        rw [h3 hx] at hroot
        cases hroot
    · rw [toList_eq_cells, cells_plug]
      simp [Tree.cells]
    · rw [toList_eq_cells, cells_plug]
      simp [Tree.cells]
  · subst hprn
    obtain ⟨hcT, hnl, hnr1⟩ := hnr.1
    obtain ⟨m1, hm1, hbl, hbr⟩ := hbT
    have hnl1 := hnl
    have hbl1 := hbl
    rw [← hp, noRedRed_plug] at hnl1
    rw [← hp, bal_plug] at hbl1
    obtain ⟨m2, hbP, _⟩ := hbl1
    obtain ⟨e1, _⟩ := red_pivot_is_leaf hnl1.1 hbP (Or.inr rfl)
    subst e1
    rw [spliceT_double ctx ctxR a c l r k v p Color.RED .nil .nil pk pv hl hr hz, replaced_leaf]
    obtain ⟨h1, h2, h3⟩ := red_leaf_removed ctxR p pk pv
    rw [hp] at h1 h2 h3
    have hred1 : l.isRed = false → (plug ctxR (.nil : Tree K V)).isRed = false := by
      intro hlr
      cases hx : (plug ctxR (.nil : Tree K V)).isRed with
      | false => rfl
      | true =>
        rw [h3 hx] at hlr
        cases hlr
    have hnrT : NoRedRed (.node a c (plug ctxR .nil) pk pv r) :=
      ⟨fun hc => ⟨hred1 (hcT hc).1, (hcT hc).2⟩, h1 hnl, hnr1⟩
    have hbT1 : Bal (.node a c (plug ctxR .nil) pk pv r) m := ⟨m1, hm1, h2 m1 hbl, hbr⟩
    have hir := isRed_node_congr a c (plug ctxR .nil) r l r pk k pv v
    refine ⟨⟨?_, (noRedRed_plug ctx _).2 ⟨hnrT, by rw [hir]; exact hnr.2⟩, n,
      (bal_plug ctx _ n).2 ⟨m, hbT1, hbctx⟩⟩,
      ((Ctx.before ctx ++ Ctx.before ctxR).map (fun e => e.2)) ++ [(pk, pv)],
      (r.cells ++ Ctx.after ctx).map (fun e => e.2), ?_, ?_⟩
    · rw [isRed_plug, hir, ← isRed_plug]
      exact hroot
    · rw [toList_eq_cells, cells_plug]
      simp only [Tree.cells]
      rw [← hp, cells_plug, haft]
      simp [Tree.cells]
    · rw [toList_eq_cells, cells_plug]
      simp only [Tree.cells]
      rw [cells_plug, haft]
      simp [Tree.cells]

/-- What the entries of an ordered tree look like once one of them is taken out. -/
theorem erase_entry_spec {cmp : K → K → Bool} (hso : StrictOrder cmp) {t t1 : Tree K V}
    {L R1 : List (K × V)} {k : K} {v : V} (key : K) (hk : Equiv cmp k key)
    (hp : t.cells.Pairwise (Desc cmp))
    (ht : t.toList = L ++ (k, v) :: R1) (ht1 : t1.toList = L ++ R1) :
    t1.cells.Pairwise (Desc cmp)
      ∧ t1.count + 1 = t.count
      ∧ (∀ k1, Equiv cmp k1 key → findT cmp k1 t1 = none)
      ∧ (∀ k1, ¬ Equiv cmp k1 key → findT cmp k1 t1 = findT cmp k1 t) := by
  have hkeys : ∀ x : Tree K V, x.cells.map (fun e => e.2.1) = x.toList.map Prod.fst := by
    intro x
    rw [toList_eq_cells, List.map_map]
    rfl
  have hpk : (t.toList.map Prod.fst).Pairwise (fun x y => cmp y x = true) := by
    rw [← hkeys]
    exact (sorted_iff_keys cmp t.cells).1 hp
  have hp1 : t1.cells.Pairwise (Desc cmp) := by
    rw [sorted_iff_keys, hkeys, ht1]
    rw [ht] at hpk
    refine hpk.sublist ?_
    exact List.Sublist.map _ (List.Sublist.append (List.Sublist.refl _)
      (List.sublist_cons_self _ _))
  have hcount : t1.count + 1 = t.count := by
    rw [← keys_length, ← keys_length, Tree.keys, Tree.keys, List.length_map, List.length_map,
      ht, ht1]
    simp
    omega
  have hstrict : ∀ e ∈ t1.toList, ¬ Equiv cmp e.1 k := by
    intro e he heq
    rw [ht] at hpk
    rw [ht1] at he
    simp only [List.map_append, List.map_cons, List.pairwise_append, List.pairwise_cons,
      List.mem_map, List.mem_cons, forall_exists_index, and_imp] at hpk
    rcases List.mem_append.1 he with h | h
    · have := hpk.2.2 e.1 e h rfl k (Or.inl rfl)
      rw [heq.2] at this
      cases this
    · have := hpk.2.1.1 e.1 e h rfl
      rw [heq.1] at this
      cases this
  refine ⟨hp1, hcount, ?_, ?_⟩
  · intro k1 hk1
    rw [findT_none_iff hso hp1]
    intro e he heq
    exact hstrict e he (Equiv.trans_of hso heq (Equiv.trans_of hso hk1 (Equiv.symm_of hk)))
  · intro k1 hk1
    refine findT_congr hso hp hp1 key ?_ k1 hk1
    intro e he
    rw [ht, ht1]
    simp only [List.mem_append, List.mem_cons]
    constructor
    · rintro (h | h)
      · exact Or.inl h
      · exact Or.inr (Or.inr h)
    · rintro (h | h | h)
      · exact Or.inl h
      · subst h
        exact absurd hk he
      · exact Or.inr h

end RedPivot2

section SpliceRep
variable {K V : Type}

theorem addrs_ctx_entry (ctxR ctx : Ctx K V) (a : Nat) (c : Color) (k k1 : K) (v v1 : V)
    (r : Tree K V) :
    Ctx.addrs (ctxR ++ .left a c k1 v1 r :: ctx) = Ctx.addrs (ctxR ++ .left a c k v r :: ctx) := by
  rw [addrs_ctx_append, addrs_ctx_append]
  rfl

/-- Lines 101-114 of `Delete` from the node the search found: the pivot is located and
unhooked, and the state then represents `spliceT`; the cell of the pivot is still there,
unchanged, outside the tree. -/
theorem splice_rep {s : RBTree K V} {ctx : Ctx K V} {a : Nat} {c : Color} {l r : Tree K V}
    {k : K} {v : V} (hf : Focus s ctx (.node a c l k v r)) :
    ∃ ctxP p pc pl pk pv pr s2,
      (pl = .nil ∨ pr = .nil)
      ∧ (((l = .nil ∨ r = .nil) ∧ ctxP = ctx ∧ Tree.node p pc pl pk pv pr = .node a c l k v r)
        ∨ (l ≠ .nil ∧ r ≠ .nil ∧ pr = .nil ∧ p ≠ a
            ∧ ∃ ctxR, ctxP = ctxR ++ .left a c k v r :: ctx
              ∧ zoomRight l [] = (ctxR, .node p pc pl pk pv .nil)
              ∧ plug ctxR (.node p pc pl pk pv .nil) = l ∧ Ctx.after ctxR = []))
      ∧ (∀ fuel, GetSuccessor fuel s.heap (some a) = .ok (some p)
          ∨ (fuel < l.height ∧ GetSuccessor fuel s.heap (some a) = .error .outOfFuel))
      ∧ s.heap p = some ⟨pk, pv, pl.ptr, pr.ptr, Ctx.father ctxP, pc⟩
      ∧ Delete.splice s (some a) (some p) = .ok s2
      ∧ Rep s2 (spliceT ctx (.node a c l k v r))
      ∧ s2.heap p = s.heap p
      ∧ p ∉ (spliceT ctx (.node a c l k v r)).addrs
      ∧ s2.brk = s.brk ∧ s2.size_ = s.size_ ∧ s2.compare_ = s.compare_ := by
  obtain ⟨ctxP, p, pc, pl, pk, pv, pr, hfp, hchild, hall, hcase⟩ := pivot_of_focus hf
  obtain ⟨s1, hsp, hf1, hp1, hb1, hs1, hc1, _, hpR⟩ := splice_focus hfp
  rcases hcase with ⟨hlr, hctx, hnode⟩ | ⟨hl, hr, hprn, hpa, ctxR, hctx, hz, hp, haft⟩
  · refine ⟨ctxP, p, pc, pl, pk, pv, pr, s1, hchild, Or.inl ⟨hlr, hctx, hnode⟩, hall, hfp.sub.1,
      ?_, ?_, hp1, ?_, hb1, hs1, hc1⟩
    · cases hnode
      exact hsp
    · cases hnode
      subst hctx
      rw [spliceT_single ctxP a c l r k v hlr]
      exact (focus_iff _ _ _).2 hf1
    · cases hnode
      subst hctx
      rw [spliceT_single ctxP a c l r k v hlr]
      exact fun h => hpR ((addrs_plug _ _).mem_iff.1 h)
  · subst hprn
    subst hctx
    obtain ⟨h2, hcopy, hf2, hp2, _⟩ := copy_focus hf1 (hp1.trans hfp.sub.1) hpR
    have hspl := spliceT_double ctx ctxR a c l r k v p pc pl .nil pk pv hl hr hz
    have hplug : spliceT ctx (.node a c l k v r)
        = plug (ctxR ++ .left a c pk pv r :: ctx) (Tree.replaced (.node p pc pl pk pv .nil)) := by
      rw [hspl, plug_append]
      rfl
    refine ⟨_, p, pc, pl, pk, pv, .nil, { s1 with heap := h2 }, hchild,
      Or.inr ⟨hl, hr, rfl, hpa, ctxR, rfl, hz, hp, haft⟩, hall, hfp.sub.1, ?_, ?_,
      hp2.trans hfp.sub.1.symm, ?_, hb1, hs1, hc1⟩
    · rw [splice_copy s (some a) p (fun e => hpa (Option.some.inj e)), hsp]
      simp only [bind, Except.bind, hcopy, pure, Except.pure]
    · rw [hplug]
      exact (focus_iff _ _ _).2 hf2
    · rw [hplug]
      intro h
      have h1 := (addrs_plug _ _).mem_iff.1 h
      rw [addrs_ctx_entry ctxR ctx a c k pk v pv r] at h1
      exact hpR h1

end SpliceRep

section Claims11
variable {K V : Type}

theorem mirrored_shape3 : Mirrored natLt shape3 := by
  simp [Mirrored, shape3, Tree.keys, Tree.toList, natLt]

/-- C19: in a state that represents a tree with the colour invariants and the ordering the
searches descend by, when `find(k)` yields a node whose deletion pivot (`GetSuccessor`) is
RED, `Delete(k)` returns true; the test of line 115 finds the pivot RED, so `DeleteFixUp`
is not called; `Size()` has gone down by one (modulo `2^64`), the entry found is gone from
the in-order listing and every other entry is where it was, `find` of a key equivalent to
`k` returns `end()`, `find` of any other key yields the key and value it yielded before,
and the tree satisfies the colour invariants and the ordering again. -/
theorem Delete_red_pivot (s : RBTree K V) (t : Tree K V) (hr : Rep s t) (hrb : RBInv t)
    (hso : StrictOrder s.compare_) (hord : Mirrored s.compare_ t) (key : K)
    (cur next fuel0 : Nat) (hfind : find fuel0 s key = .ok (some cur))
    (hsucc : GetSuccessor fuel0 s.heap (some cur) = .ok (some next))
    (hred : Red s.heap (some next) = .ok true) :
    ∃ s1 t1 N, (∀ fuel, t.height < fuel → Delete fuel s key = .ok (true, s1))
      ∧ (∃ s2, Delete.splice { s with size_ := (s.size_ + 2 ^ 64 - 1) % 2 ^ 64 } (some cur)
            (some next) = .ok s2 ∧ Red s2.heap (some next) = .ok true)
      ∧ Rep s1 t1 ∧ RBInv t1 ∧ Mirrored s.compare_ t1
      ∧ Size s1 = (Size s + 2 ^ 64 - 1) % 2 ^ 64 ∧ (0 < Size s → Size s1 + 1 = Size s)
      ∧ t1.count + 1 = t.count
      ∧ (∃ L R1 k v, Equiv s.compare_ k key ∧ t.toList = L ++ (k, v) :: R1
          ∧ t1.toList = L ++ R1)
      ∧ (∀ k1, Equiv s.compare_ k1 key → ∀ fuel, N ≤ fuel →
          find fuel s1 k1 = .ok (RBTree.end_ s1))
      ∧ (∀ k1, ¬ Equiv s.compare_ k1 key → ∀ fuel, N ≤ fuel →
          ∃ r, lookup fuel s k1 = .ok r ∧ lookup fuel s1 k1 = .ok r) := by
  have hzp := zoom_plug s.compare_ key t []
  have hzl := zoom_length s.compare_ key t []
  rcases hz : zoom s.compare_ key t [] with ⟨ctx, T⟩
  rw [hz] at hzp hzl
  simp only [plug] at hzp
  have hdesc := fun fuel => descend_all s.compare_ key t [] none fuel hr.models
  simp only [hz, ← hr.root] at hdesc
  have hcur : T.ptr = some cur := by
    have h2 : descend fuel0 s.heap s.compare_ key s.root_ = .ok (some cur) := hfind
    rcases hdesc fuel0 with h | ⟨_, h⟩
    · rw [h] at h2
      exact Except.ok.inj h2
    · rw [h] at h2
      cases h2
  cases T with
  | nil => cases hcur
  | node a c l k v r =>
    have ha : a = cur := Option.some.inj hcur
    subst ha
    have hk : Equiv s.compare_ k key := zoom_found s.compare_ key t [] (by rw [hz])
    have hrep : Rep ({ s with size_ := (s.size_ + 2 ^ 64 - 1) % 2 ^ 64 } : RBTree K V) t :=
      hr.setSize (Nat.mod_lt _ (by norm_num))
    rw [← hzp] at hrep
    have hf := (focus_iff _ ctx _).1 hrep
    obtain ⟨ctxP, p, pc, pl, pk, pv, pr, s2, hchild, hcase, hall, hpcell, hsp, hrep2, hp2, hpn,
      hb2, hs2, hc2⟩ := splice_rep hf
    have hpp : next = p := by
      rcases hall fuel0 with h | ⟨_, h⟩
      · have h2 : GetSuccessor fuel0 s.heap (some a) = .ok (some p) := h
        rw [hsucc] at h2
        exact Option.some.inj (Except.ok.inj h2)
      · have h2 : GetSuccessor fuel0 s.heap (some a) = .error .outOfFuel := h
        rw [hsucc] at h2
        cases h2
    subst hpp
    have hpcell1 : s.heap next = some ⟨pk, pv, pl.ptr, pr.ptr, Ctx.father ctxP, pc⟩ := hpcell
    have hpc : pc = Color.RED := by
      rw [Red_ok hpcell1] at hred
      have := Except.ok.inj hred
      simpa using this
    subst hpc
    have hrb1 : RBBal (plug ctx (.node a c l k v r)) := by
      rw [hzp]
      exact (rbInv_iff t).1 hrb
    obtain ⟨hrbT, L, R1, hL, hL1⟩ := spliceT_red_pivot hrb1 hchild hcase
    rw [hzp] at hL
    have hp := (mirrored_iff_pairwise hso t).1 hord
    obtain ⟨hp1, hcount, hgone, hkeep⟩ := erase_entry_spec hso key hk hp hL hL1
    have hred2 : Red s2.heap (some next) = .ok true := by
      rw [Red_ok (hp2.trans hpcell)]
      rfl
    obtain ⟨h4, h5, e4, e5, hrep4⟩ := finish_rep hrep2 (hp2.trans hpcell) hpn
    refine ⟨{ s2 with heap := deleteNode h5 (some next) }, _,
      max t.height (spliceT ctx (.node a c l k v r)).height + 1, ?_, ⟨s2, hsp, hred2⟩, hrep4,
      (rbInv_iff _).2 hrbT, (mirrored_iff_pairwise hso _).2 hp1, ?_, ?_, hcount,
      ⟨L, R1, k, v, hk, hL, hL1⟩, ?_, ?_⟩
    · intro fuel hfuel
      rw [Delete_split]
      have hd : descend fuel s.heap s.compare_ key s.root_ = .ok (some a) := by
        rcases hdesc fuel with h | ⟨hle, _⟩
        · exact h
        · omega
      have hg : GetSuccessor fuel s.heap (some a) = .ok (some next) := by
        rcases hall fuel with h | ⟨hlt, _⟩
        · exact h
        · simp only [Tree.height, List.length_nil] at hzl
          omega
      simp only [hd, bind, Except.bind, hg, hsp, hred2, Bool.not_true, Bool.false_eq_true,
        if_false, pure, Except.pure, e4, e5]
    · show s2.size_ = _
      rw [hs2]
      rfl
    · intro hpos
      show s2.size_ + 1 = s.size_
      rw [hs2]
      have hlt := hr.size_ok
      have hpos1 : 0 < s.size_ := hpos
      show (s.size_ + 2 ^ 64 - 1) % 2 ^ 64 + 1 = s.size_
      omega
    · intro k1 hk1 fuel hfuel
      obtain ⟨_, q, hq, hqn⟩ := lookup_refines hrep4 k1 fuel (by omega)
      have hcmp : ({ s2 with heap := deleteNode h5 (some next) } : RBTree K V).compare_
          = s.compare_ := hc2
      rw [hcmp] at hqn
      rw [hq, hqn.2 (hgone k1 hk1)]
      rfl
    · intro k1 hk1 fuel hfuel
      obtain ⟨hl0, _⟩ := lookup_refines hr k1 fuel (by omega)
      obtain ⟨hl1, _⟩ := lookup_refines hrep4 k1 fuel (by omega)
      have hft : findT s2.compare_ k1 (spliceT ctx (.node a c l k v r))
          = findT s.compare_ k1 t := by
        rw [hc2]
        exact hkeep k1 hk1
      exact ⟨_, hl0, hl1.trans (congrArg Except.ok hft)⟩

theorem Delete_red_pivot_witness :
    Rep tree3 shape3 ∧ RBInv shape3 ∧ StrictOrder tree3.compare_
      ∧ Mirrored tree3.compare_ shape3 ∧ find 3 tree3 20 = .ok (some 1)
      ∧ GetSuccessor 3 tree3.heap (some 1) = .ok (some 2)
      ∧ Red tree3.heap (some 2) = .ok true
      ∧ ∃ s1 t1 N, (∀ fuel, shape3.height < fuel → Delete fuel tree3 20 = .ok (true, s1))
        ∧ (∃ s2, Delete.splice { tree3 with size_ := (tree3.size_ + 2 ^ 64 - 1) % 2 ^ 64 }
              (some 1) (some 2) = .ok s2 ∧ Red s2.heap (some 2) = .ok true)
        ∧ Rep s1 t1 ∧ RBInv t1 ∧ Mirrored tree3.compare_ t1
        ∧ Size s1 = (Size tree3 + 2 ^ 64 - 1) % 2 ^ 64 ∧ (0 < Size tree3 → Size s1 + 1 = Size tree3)
        ∧ t1.count + 1 = shape3.count
        ∧ (∃ L R1 k v, Equiv tree3.compare_ k 20 ∧ shape3.toList = L ++ (k, v) :: R1
            ∧ t1.toList = L ++ R1)
        ∧ (∀ k1, Equiv tree3.compare_ k1 20 → ∀ fuel, N ≤ fuel →
            find fuel s1 k1 = .ok (RBTree.end_ s1))
        ∧ (∀ k1, ¬ Equiv tree3.compare_ k1 20 → ∀ fuel, N ≤ fuel →
            ∃ r, lookup fuel tree3 k1 = .ok r ∧ lookup fuel s1 k1 = .ok r) :=
  ⟨rep_tree3, rbInv_shape3, strictOrder_natLt, mirrored_shape3, rfl, rfl, rfl,
    Delete_red_pivot tree3 shape3 rep_tree3 rbInv_shape3 strictOrder_natLt mirrored_shape3 20 1 2
      3 rfl rfl rfl⟩

end Claims11

end rbtree
